/-
  Verification development for the CryptoAttacks repository
  (CBC padding-oracle engine `Block/cbc.py` and RSA attack suite
  `CryptoAttacks/PublicKey/rsa.py`).

  The Python sources are shallowly embedded: byte strings become `List ℕ`
  (each entry a byte value < 256), arbitrary-precision integers become `ℕ`
  (or `ℤ` where Python values can be negative), fallible code returns
  `Except`/`Option`, and the oracle callables become explicit function
  parameters with their caller-state (`previous_resp`) threaded through.

  Helpers from `CryptoAttacks/Utils.py` and `CryptoAttacks/Math.py`
  (`xor`, `chunks`, `b2i`, `i2b`, `invmod`, `crt`, `continued_fractions`,
  `convergents`, `power_of_two`) are part of the repository but are not in
  the provided sources; they are modelled from the specification's
  contracts (sections 4.1 and 4.3) and marked `Modelled from the spec:`.
  External library primitives (`gmpy2.iroot`, `gmpy2.isqrt`, `gmpy2.gcd`,
  Python's built-in `pow(a, b, m)`, `hashlib` digests, `random.randint`)
  are modelled by their documented mathematical meaning; hash digests and
  randomness are injected as explicit parameters.
-/
import Mathlib

set_option maxRecDepth 10000

namespace CryptoAttacks

/-! ## Byte substrate (Modelled from the spec, section 4.1) -/

/-- A byte string is a list of byte values (each `< 256`). -/
abbrev Bytes := List ℕ

/-- Modelled from the spec: `chunks(s, B)`: partition into `⌈|s|/B⌉` blocks;
the last block may be shorter.  (`CryptoAttacks/Utils.py`, not in `src/`.) -/
def chunksGo (B : ℕ) : ℕ → Bytes → List Bytes
  | 0, _ => []
  | _, [] => []
  | fuel + 1, s => s.take B :: chunksGo B fuel (s.drop B)

def chunks (s : Bytes) (B : ℕ) : List Bytes :=
  chunksGo B s.length s

/-- Cyclic extension of a byte string to length `n` (used by `xor`). -/
def cycTo (a : Bytes) (n : ℕ) : Bytes :=
  (List.range n).map fun i => a.getD (i % a.length) 0

/-- Modelled from the spec: variadic `xor(a, b, …)`; shorter operands are
cyclically extended to the longest operand's length; a single-byte operand
acts as a broadcast mask.  (`CryptoAttacks/Utils.py`, not in `src/`.) -/
def xorV (args : List Bytes) : Bytes :=
  let n := (args.map List.length).foldr max 0
  args.foldl (fun acc a => acc.zipWith Nat.xor (cycTo a n)) (List.replicate n 0)

/-- Binary convenience wrapper for `xorV`. -/
def xor2 (a b : Bytes) : Bytes := xorV [a, b]

/-- Ternary convenience wrapper for `xorV`. -/
def xor3 (a b c : Bytes) : Bytes := xorV [a, b, c]

/-- Modelled from the spec: `b2i`: big-endian byte-string to integer
conversion.  (`CryptoAttacks/Utils.py`, not in `src/`.) -/
def b2i (s : Bytes) : ℕ :=
  s.foldl (fun acc byte => 256 * acc + byte) 0

/-- Big-endian encoding of `x % 256^L` in exactly `L` bytes (helper). -/
def i2bGo : ℕ → ℕ → Bytes
  | 0, _ => []
  | L + 1, x => i2bGo L (x / 256) ++ [x % 256]

/-- Modelled from the spec: `i2b(x, size)`: big-endian integer encoding,
left-padded to `size/8` bytes.  All call sites in the verified code pass
values `< 2^size`; larger values are truncated to the low `size` bits.
(`CryptoAttacks/Utils.py`, not in `src/`.) -/
def i2bSized (x : ℕ) (sizeBits : ℕ) : Bytes :=
  i2bGo (sizeBits / 8) x

/-- Number of base-`256` digits of `x` (`0` for `0`), by structural
recursion on a fuel bound so that the kernel can evaluate it. -/
def byteLenGo : ℕ → ℕ → ℕ
  | 0, _ => 0
  | fuel + 1, x => if x = 0 then 0 else byteLenGo fuel (x / 256) + 1

def byteLen (x : ℕ) : ℕ := byteLenGo x x

/-- Modelled from the spec: `i2b(x)` without a size: minimal big-endian
encoding (empty for 0).  (`CryptoAttacks/Utils.py`, not in `src/`.) -/
def i2bMin (x : ℕ) : Bytes :=
  i2bGo (byteLen x) x

/-- `⌈log₂ n⌉` by structural recursion on a fuel bound (the kernel cannot
evaluate `Nat.clog`, which recurses on a well-foundedness proof); shown
equal to `Nat.clog 2` in `clog2_eq_clog` below. -/
def clog2Go : ℕ → ℕ → ℕ
  | 0, _ => 0
  | fuel + 1, n => if n ≤ 1 then 0 else clog2Go fuel ((n + 1) / 2) + 1

def clog2 (n : ℕ) : ℕ := clog2Go n n

/-! ## Math substrate (spec section 4.3; external contracts) -/

/-- Python's built-in three-argument `pow(b, e, m)` (modular exponentiation
by repeated squaring; `fuel` bounds the recursion depth, `e + 1` suffices). -/
def powModGo (m : ℕ) : ℕ → ℕ → ℕ → ℕ
  | 0, _, _ => 1 % m
  | _, _, 0 => 1 % m
  | fuel + 1, b, e =>
    if e % 2 = 1 then b * powModGo m fuel (b * b % m) (e / 2) % m
    else powModGo m fuel (b * b % m) (e / 2)

def powMod (b e m : ℕ) : ℕ := powModGo m (e + 1) b e

/-- Binary search for the floor `k`-th root: largest `r ∈ [lo, hi)` interval
refinement with `r^k ≤ x`, assuming `lo^k ≤ x < hi^k`. -/
def irootGo (x k : ℕ) : ℕ → ℕ → ℕ → ℕ
  | 0, lo, _ => lo
  | fuel + 1, lo, hi =>
    if lo + 1 < hi then
      if ((lo + hi) / 2) ^ k ≤ x then irootGo x k fuel ((lo + hi) / 2) hi
      else irootGo x k fuel lo ((lo + hi) / 2)
    else lo

/-- `gmpy2.iroot(x, k)`: floor integer `k`-th root together with an
exactness flag (external primitive, modelled from its documentation). -/
def iroot (x k : ℕ) : ℕ × Bool :=
  let r := irootGo x k (x + 2) 0 (x + 1)
  (r, r ^ k == x)

/-- `gmpy2.isqrt`: floor integer square root (external primitive),
modelled by the fuel-bounded Newton iteration of `Nat.sqrt` (the guess
decreases at every recursive step, so `x` iterations always suffice);
`isqrt_eq_sqrt` below proves it equal to `Nat.sqrt`. -/
def isqrtGo (x : ℕ) : ℕ → ℕ → ℕ
  | 0, g => g
  | fuel + 1, g =>
    let next := (g + x / g) / 2
    if next < g then isqrtGo x fuel next else g

def isqrt (x : ℕ) : ℕ := if x ≤ 1 then x else isqrtGo x x (x / 2)

/-- Modelled from the spec: `invmod(a, m)`: modular inverse, fails on
non-coprime inputs.  (`CryptoAttacks/Math.py`, not in `src/`.) -/
def invmod (a m : ℕ) : Option ℕ :=
  (List.range m).find? fun x => a * x % m == 1

/-- Modelled from the spec: `crt(residues, moduli)`: Chinese remainder
reconstruction for pairwise coprime moduli.  (`CryptoAttacks/Math.py`,
not in `src/`.) -/
def crt2 (a n b m : ℕ) : Option ℕ := do
  let i ← invmod (n % m) m
  pure ((a + n * (((b + m - a % m) % m) * i % m)) % (n * m))

def crt : List ℕ → List ℕ → Option ℕ
  | [], _ => none
  | [a], _ => some a
  | a :: as, n :: ns => do
    let rest ← crt as ns
    crt2 a n rest (ns.foldl (· * ·) 1)
  | _, _ => none

/-- Modelled from the spec: `continued_fractions(a, b)`: finite sequence of
Euclidean quotients of `a/b`.  (`CryptoAttacks/Math.py`, not in `src/`.) -/
def contFracGo : ℕ → ℕ → ℕ → List ℕ
  | 0, _, _ => []
  | _, _, 0 => []
  | fuel + 1, a, b => a / b :: contFracGo fuel b (a % b)

def contFrac (a b : ℕ) : List ℕ := contFracGo (b + 1) a b

/-- Modelled from the spec: `convergents(cf)`: sequence of `(hₖ, kₖ)` pairs
from the standard recurrence `hₖ = aₖhₖ₋₁ + hₖ₋₂`, `kₖ = aₖkₖ₋₁ + kₖ₋₂`.
(`CryptoAttacks/Math.py`, not in `src/`.) -/
def convergentsGo : List ℕ → ℕ × ℕ → ℕ × ℕ → List (ℕ × ℕ)
  | [], _, _ => []
  | a :: as, (h1, k1), (h2, k2) =>
    let h := a * h1 + h2
    let k := a * k1 + k2
    (h, k) :: convergentsGo as (h, k) (h1, k1)

def convergents (cf : List ℕ) : List (ℕ × ℕ) :=
  convergentsGo cf (1, 0) (0, 1)

/-- Modelled from the spec: `power_of_two(x)`: largest `v` with `2^v ∣ x`.
(`CryptoAttacks/Math.py`, not in `src/`.)  For `x = 0` we return 0. -/
def powerOfTwoGo : ℕ → ℕ → ℕ
  | 0, _ => 0
  | fuel + 1, x => if x % 2 = 0 ∧ x ≠ 0 then powerOfTwoGo fuel (x / 2) + 1 else 0

def powerOfTwo (x : ℕ) : ℕ := powerOfTwoGo x x

/-! ## Python value model (for argument-shape sensitive operations)

`RSAKey.add_ciphertext` / `add_plaintext` / `add_text_pair` in `rsa.py`
branch on Python truthiness and on `isinstance(·, Number)`; we model the
argument values that matter: integers, strings, and `None`. -/

inductive PyVal where
  | int (n : ℕ)
  | str (s : Bytes)
  | none
  deriving DecidableEq, Repr

/-- Python truthiness of a `PyVal` (`0`, `''` and `None` are falsy). -/
def PyVal.truthy : PyVal → Bool
  | .int n => n != 0
  | .str s => s != []
  | .none => false

/-- Python `isinstance(·, Number)`. -/
def PyVal.isNumber : PyVal → Bool
  | .int _ => true
  | _ => false

/-! ## RSA key model (`rsa.py`, class `RSAKey`)

A text pair is a Python dict with optional keys `cipher` and `plain`
(`rsa.py` line 25); the key record keeps the fields the attacks read. -/

structure TextPair where
  cipher : Option ℕ := Option.none
  plain : Option ℕ := Option.none
  deriving DecidableEq, Repr

/-- A stored text pair satisfies the spec's data-model invariant when at
least one of its fields is present (spec section 3.2). -/
def TextPair.nonEmpty (t : TextPair) : Prop :=
  t.cipher ≠ Option.none ∨ t.plain ≠ Option.none

instance (t : TextPair) : Decidable t.nonEmpty := by
  unfold TextPair.nonEmpty; infer_instance

structure RSAKey where
  n : ℕ
  e : ℕ
  d : Option ℕ := Option.none
  p : Option ℕ := Option.none
  q : Option ℕ := Option.none
  texts : List TextPair := []
  identifier : String := ""
  deriving DecidableEq, Repr

/-- `self.size`: the bit size `int(math.ceil(math.log(n, 2) / 8.0) * 8)`
(`rsa.py` line 54), i.e. `8 ⌈log₂ n / 8⌉`, modelled with the exact
ceiling logarithm. -/
def RSAKey.size (k : RSAKey) : ℕ := 8 * ((clog2 k.n + 7) / 8)

/-- `RSAKey.encrypt` (`rsa.py` lines 57-69): raw RSA, `pow(plaintext, e, n)`
(the PyCrypto call is the external primitive performing exactly this). -/
def RSAKey.encrypt (k : RSAKey) (plaintext : ℕ) : ℕ := powMod plaintext k.e k.n

/-- `RSAKey.decrypt` (`rsa.py` lines 71-83): raw RSA, `pow(ciphertext, d, n)`. -/
def RSAKey.decryptRaw (k : RSAKey) (ciphertext : ℕ) (d : ℕ) : ℕ :=
  powMod ciphertext d k.n

/-- `RSAKey.add_ciphertext` with `position=None` (`rsa.py` lines 102-113):
non-numbers are converted with `b2i` (strings always convert; `None` makes
`b2i` fail, raising via `log.critical_error`), then a fresh
`{'cipher': ...}` pair is appended. -/
def RSAKey.add_ciphertext (k : RSAKey) (v : PyVal) : Option RSAKey :=
  match v with
  | .int c => some { k with texts := k.texts ++ [{ cipher := some c }] }
  | .str s => some { k with texts := k.texts ++ [{ cipher := some (b2i s) }] }
  | .none => Option.none

/-- `RSAKey.add_plaintext` with `position=None` (`rsa.py` lines 117-128). -/
def RSAKey.add_plaintext (k : RSAKey) (v : PyVal) : Option RSAKey :=
  match v with
  | .int c => some { k with texts := k.texts ++ [{ plain := some c }] }
  | .str s => some { k with texts := k.texts ++ [{ plain := some (b2i s) }] }
  | .none => Option.none

/-- `RSAKey.add_text_pair` (`rsa.py` lines 132-149): if both arguments are
falsy it only logs and returns; otherwise it builds a dict, adding each
truthy argument as a field only when `isinstance(·, Number)` holds (a
non-number merely logs `log.error`, which does not raise), and appends the
dict — even when no field validation succeeded. -/
def RSAKey.add_text_pair (k : RSAKey) (ciphertext plaintext : PyVal) : RSAKey :=
  if ¬ciphertext.truthy ∧ ¬plaintext.truthy then k
  else
    let pair₀ : TextPair := {}
    let pair₁ :=
      if ciphertext.truthy then
        match ciphertext with
        | .int c => { pair₀ with cipher := some c }
        | _ => pair₀
      else pair₀
    let pair₂ :=
      if plaintext.truthy then
        match plaintext with
        | .int p => { pair₁ with plain := some p }
        | _ => pair₁
      else pair₁
    { k with texts := k.texts ++ [pair₂] }

/-! ## RSA attack catalog (`rsa.py`) -/

/-- Failure modes of the RSA attack functions: `log.critical_error` raises,
Python list indexing out of range raises, `invmod` raises on non-coprime
inputs, and the randomized `factors_from_d` may not terminate (modelled as
exhausting its injected fuel). -/
inductive RsaErr where
  | indexError
  | notEnoughKeys
  | missingCipher
  | lenMismatch
  | invmodFail
  | crtFail
  | constructDiverge
  | badArgument
  deriving DecidableEq, Repr

/-- Inner doubling loop of `factors_from_d` (`rsa.py` lines 231-239):
`while b < k`, testing `pow(g, b, n)` for a nontrivial square root of 1. -/
def factorsInner (n k g : ℕ) : ℕ → ℕ → Option (ℕ × ℕ)
  | 0, _ => Option.none
  | fuel + 1, b =>
    if b < k then
      let gb := powMod g b n
      if gb ≠ 1 ∧ gb ≠ n - 1 ∧ powMod gb 2 n = 1 then
        let p := if Nat.gcd (gb - 1) n ≠ 1 then Nat.gcd (gb - 1) n else Nat.gcd (gb + 1) n
        some (p, n / p)
      else factorsInner n k g fuel (b * 2)
    else Option.none

/-- `factors_from_d(n, e, d)` (`rsa.py` lines 226-239).  The Python loop
draws `g = random.randint(2, n-2)` forever; randomness is injected as the
stream `rng` and the number of retries is bounded by `fuel` (the loop
terminates with probability 1 but not for every stream). -/
def factors_from_d (rng : ℕ → ℕ) (n e d : ℕ) : ℕ → ℕ → Option (ℕ × ℕ)
  | 0, _ => Option.none
  | fuel + 1, i =>
    let k := e * d - 1
    let g := 2 + rng i % (n - 3)
    let b := k / 2 ^ powerOfTwo k
    match factorsInner n k g (k + 1) b with
    | some pq => some pq
    | Option.none => factors_from_d rng n e d fuel (i + 1)

/-- `RSAKey.construct(n, e, d)` with only `d` given (`rsa.py` lines 35-47,
187-201): recovers `(p, q)` with `factors_from_d`.  Returns `none` when the
randomized factorization does not terminate within `fuel` retries. -/
def RSAKey.constructD (rng : ℕ → ℕ) (fuel : ℕ) (n e d : ℕ) (identifier : String) :
    Option RSAKey :=
  (factors_from_d rng n e d fuel 0).map fun pq =>
    { n := n, e := e, d := some d, p := some pq.1, q := some pq.2,
      texts := [], identifier := identifier }

/-- `get_mutable_texts(key, None)` (`rsa.py` lines 242-245). -/
def get_mutable_texts (key : RSAKey) : List ℕ :=
  key.texts.filterMap fun t =>
    match t.cipher, t.plain with
    | some c, Option.none => some c
    | _, _ => Option.none

/-- Inner search of `small_e_msg` for one ciphertext (`rsa.py` lines
261-271): for `k = 0 .. max_times - 1` test `iroot(c + k·n, e)`. -/
def small_e_msg_one (n e maxTimes : ℕ) (c : ℕ) : Option ℕ :=
  (List.range maxTimes).findSome? fun k =>
    let (msg, ok) := iroot (c + k * n) e
    if ok && (powMod msg e n == c) then some msg else Option.none

/-- `small_e_msg(key)` with default arguments (`rsa.py` lines 248-272). -/
def small_e_msg (key : RSAKey) (maxTimes : ℕ := 100) : List ℕ :=
  (get_mutable_texts key).filterMap (small_e_msg_one key.n key.e maxTimes)

/-- First ciphertext of a key (`key.texts[0]['cipher']`), raising on a
missing index or field like Python does. -/
def firstCipher (key : RSAKey) : Option ℕ :=
  key.texts.head?.bind (·.cipher)

/-- One step of the deduplication fold of `hastad` (`rsa.py` lines
354-363): keep a key only when its modulus and first ciphertext are both
unseen and its public exponent matches. -/
def hastadStep (e : ℕ) (acc : List ℕ × List ℕ × List RSAKey) (k : RSAKey) :
    List ℕ × List ℕ × List RSAKey :=
  if k.n ∉ acc.2.1 ∧ (firstCipher k).getD 0 ∉ acc.1 then
    if k.e = e then
      (acc.1 ++ [(firstCipher k).getD 0], acc.2.1 ++ [k.n], acc.2.2 ++ [k])
    else acc
  else acc

/-- Deduplication fold of `hastad` (`rsa.py` lines 353-363). -/
def hastadDedup (e : ℕ) (keys : List RSAKey) : List ℕ × List ℕ × List RSAKey :=
  keys.foldl (hastadStep e) ([], [], [])

/-- Write-back loop of `hastad` (`rsa.py` lines 391-392): set
`texts[0]['plain']` on every key of `correct_keys`.  Python mutates the
shared key objects inside the input list; in the value model the keys of
the input list are identified by their record value (input keys are
pairwise distinct records in every verified scenario). -/
def hastadWriteBack (keys correct : List RSAKey) (plaintext : ℕ) : List RSAKey :=
  keys.map fun k =>
    if k ∈ correct then
      { k with texts :=
          match k.texts with
          | [] => []
          | t :: ts => { t with plain := some plaintext } :: ts }
    else k

/-- `hastad(keys, ciphertexts=None)` (`rsa.py` lines 328-398).  Returns the
recovered plaintext (or `none` on a non-exact root) together with the
updated key list: when fewer than `e` unique `(modulus, ciphertext)` pairs
remain after deduplication, the `small_e_msg` fallback may return a
plaintext without writing anything back; otherwise the unique CRT residue
is root-extracted and, if exact, written into each deduplicated key's
first pair. -/
def hastad (keys : List RSAKey) : Except RsaErr (Option ℕ × List RSAKey) :=
  match keys.head? with
  | Option.none => .error .indexError
  | some k0 =>
    if keys.length < k0.e then .error .notEnoughKeys
    else if ¬keys.all (fun k => (firstCipher k).isSome) then .error .missingCipher
    else
      match hastadDedup k0.e keys with
      | (ciphertexts, modules, correct_keys) =>
        match (if modules.length < k0.e then
            correct_keys.findSome? (fun k => (small_e_msg k).head?)
          else Option.none) with
        | some m => .ok (some m, keys)
        | Option.none =>
          match crt (if ciphertexts.length > k0.e then ciphertexts.take k0.e
                     else ciphertexts)
                    (if modules.length > k0.e then modules.take k0.e else modules) with
          | Option.none => .error .crtFail
          | some result =>
            if (iroot result k0.e).2 then
              .ok (some (iroot result k0.e).1,
                   hastadWriteBack keys correct_keys (iroot result k0.e).1)
            else .ok (Option.none, keys)

/-- The per-convergent test of `wiener` (`rsa.py` lines 312-320): for a
convergent `(k, d)` of `e/n`, check `k ≠ 0`, `k ∣ ed - 1`, and that
`Δ = b² - 4n` (with `b = n - φ + 1`, computed in ℤ since `φ` may exceed
`n`) is positive, a perfect square and has an even square root. -/
def wienerPass (n e : ℕ) (kd : ℕ × ℕ) : Bool :=
  let k := kd.1
  let d := kd.2
  if k = 0 then false
  else if (e * d - 1) % k ≠ 0 then false
  else
    let phi := (e * d - 1) / k
    let b : ℤ := (n : ℤ) - (phi : ℤ) + 1
    let delta : ℤ := b * b - 4 * (n : ℤ)
    if delta > 0 then
      let s := isqrt delta.toNat
      s * s = delta.toNat ∧ s % 2 = 0
    else false

/-- `wiener(key)` (`rsa.py` lines 301-325): scan the convergents of `e/n`
and return the private key built from the first passing convergent
(`None` when the scan fails).  The construction runs the randomized
`factors_from_d`, so `rng` and `fuel` are injected. -/
def wiener (rng : ℕ → ℕ) (fuel : ℕ) (key : RSAKey) : Except RsaErr (Option RSAKey) :=
  match (convergents (contFrac key.e key.n)).find? (wienerPass key.n key.e) with
  | Option.none => .ok Option.none
  | some kd =>
    match RSAKey.constructD rng fuel key.n key.e kd.2 (key.identifier ++ "-private") with
    | Option.none => .error .constructDiverge
    | some nk => .ok (some { nk with texts := key.texts })

/-! ### Parity-oracle decryption (`rsa.py` lines 456-500) -/

/-- The bisection loop of `parity` for one ciphertext (`rsa.py` lines
480-496), with the oracle injected as a pure function.  Python 2 `/` on
integers is floor division.  Returns the final `upper_bound` (`rsa.py`
lines 497-499) and the number of oracle queries issued by the loop.  The
loop terminates when `lower_bound + 1 ≥ upper_bound`; `fuel` bounds the
iteration count (`⌈log₂ n⌉` always suffices, see `parityGo_stable`). -/
def parityGo (O : ℕ → ℕ) (n twoEnc : ℕ) :
    ℕ → ℕ → ℕ → ℕ → ℕ → ℕ × ℕ
  | 0, _, num, den, cnt => (n * (num + 1) / den, cnt)
  | fuel + 1, cipher, num, den, cnt =>
    if n * num / den + 1 < n * (num + 1) / den then
      parityGo O n twoEnc fuel (twoEnc * cipher % n)
        (if O (twoEnc * cipher % n) = 1 then num * 2 + 1 else num * 2)
        (den * 2) (cnt + 1)
    else (n * (num + 1) / den, cnt)

/-- Decryption of a single ciphertext by `parity` (`rsa.py` lines
476-499): initial state `num = counter = 0`, `den = 1`,
`two_encrypted = key.encrypt(2)`. -/
def parityOnCipher (O : ℕ → ℕ) (key : RSAKey) (fuel : ℕ) (cipher : ℕ) : ℕ × ℕ :=
  parityGo O key.n (key.encrypt 2) fuel cipher 0 1 0

/-- `parity(parity_oracle, key)` (`rsa.py` lines 456-500): decrypt every
text pair that has a ciphertext but no plaintext, write the recovered
value into the pair's `plain` field and also return it (the initial
`parity_oracle(1)` probe only detects an unimplemented oracle and is not
modelled).  Returns the recovered `(index, plaintext)` list together with
the updated key. -/
def parityStep (O : ℕ → ℕ) (key : RSAKey) (fuel : ℕ)
    (acc : List (ℕ × ℕ) × List TextPair) (it : ℕ × TextPair) :
    List (ℕ × ℕ) × List TextPair :=
  match it.2.cipher, it.2.plain with
  | some c, Option.none =>
    (acc.1 ++ [(it.1, (parityOnCipher O key fuel c).1)],
     acc.2 ++ [{ it.2 with plain := some (parityOnCipher O key fuel c).1 }])
  | _, _ => (acc.1, acc.2 ++ [it.2])

def parity (O : ℕ → ℕ) (key : RSAKey) (fuel : ℕ) : List (ℕ × ℕ) × RSAKey :=
  ((key.texts.enum.foldl (parityStep O key fuel) ([], [])).1,
   { key with texts := (key.texts.enum.foldl (parityStep O key fuel) ([], [])).2 })

/-! ### Bleichenbacher low-exponent signature forgery (`rsa.py` lines
581-673).  Hash digests are external (`hashlib`); the digest function `H`
is injected.  The ASN.1 DigestInfo constants are the literal byte tables
of `rsa.py` lines 594-600. -/

def hashAsn1 (h : String) : Option Bytes :=
  if h = "md5" then
    some [0x30, 0x20, 0x30, 0x0c, 0x06, 0x08, 0x2a, 0x86, 0x48, 0x86, 0xf7, 0x0d,
          0x02, 0x05, 0x05, 0x00, 0x04, 0x10]
  else if h = "sha1" then
    some [0x30, 0x21, 0x30, 0x09, 0x06, 0x05, 0x2b, 0x0e, 0x03, 0x02, 0x1a, 0x05,
          0x00, 0x04, 0x14]
  else if h = "sha256" then
    some [0x30, 0x31, 0x30, 0x0d, 0x06, 0x09, 0x60, 0x86, 0x48, 0x01, 0x65, 0x03,
          0x04, 0x02, 0x01, 0x05, 0x00, 0x04, 0x20]
  else if h = "sha384" then
    some [0x30, 0x41, 0x30, 0x0d, 0x06, 0x09, 0x60, 0x86, 0x48, 0x01, 0x65, 0x03,
          0x04, 0x02, 0x02, 0x05, 0x00, 0x04, 0x30]
  else if h = "sha512" then
    some [0x30, 0x51, 0x30, 0x0d, 0x06, 0x09, 0x60, 0x86, 0x48, 0x01, 0x65, 0x03,
          0x04, 0x02, 0x03, 0x05, 0x00, 0x04, 0x40]
  else Option.none

/-- Python's `pow(s, e, n)` for a possibly negative base (`signature +
round_error` can be negative): the result is the canonical residue. -/
def powModZ (b : ℤ) (e n : ℕ) : ℕ := powMod (b % (n : ℤ)).toNat e n

/-- The PKCS#1 v1.5 leading block built by the suffix variant
(`rsa.py` lines 615-617): `00 01 FF 00 ‖ ASN1(hash) ‖ H(m)`. -/
def bleichLeadBlock (H : Bytes → Bytes) (asn1 : Bytes) (plain : ℕ) : Bytes :=
  [0x00, 0x01, 0xff, 0x00] ++ asn1 ++ H (i2bMin plain)

/-- The candidate offsets tried by the suffix variant: Python
`range(-5, 5)`, i.e. `-5, -4, …, 4` (`rsa.py` line 621). -/
def bleichDeltas : List ℤ :=
  [-5, -4, -3, -2, -1, 0, 1, 2, 3, 4]

/-- One acceptance test of the suffix variant (`rsa.py` lines 622-625):
candidate `iroot(pt, e) + δ`; accept when `i2b(candᵉ mod n, size)`
begins with the leading block. -/
def bleichAccept (n e size : ℕ) (lead : Bytes) (ptInt : ℕ) (delta : ℤ) : Bool :=
  let s := (iroot ptInt e).1
  let cand : ℤ := (s : ℤ) + delta
  (i2bSized (powModZ cand e n) size).take lead.length = lead

/-- Signature search of the suffix variant for one plaintext
(`rsa.py` lines 615-632): build the padded block, then try the offsets of
`bleichDeltas` in order. -/
def bleichSuffixOne (H : Bytes → Bytes) (asn1 : Bytes) (key : RSAKey) (plain : ℕ) :
    Option ℤ :=
  let lead := bleichLeadBlock H asn1 plain
  let pt := lead ++ List.replicate (key.size / 8 - lead.length) 0
  let ptInt := b2i pt
  bleichDeltas.findSome? fun delta =>
    if bleichAccept key.n key.e key.size lead ptInt delta then
      some ((iroot ptInt key.e).1 + delta)
    else Option.none

/-- The `garbage='suffix'` path of `bleichenbacher_signature_forgery`
(`rsa.py` lines 610-633): for every pair with a plaintext and no
ciphertext, search a signature; on success store it in the pair's
`cipher` field and record it (accepted signatures are nonnegative
whenever the leading-block comparison can succeed, so storing `toNat` is
faithful); on failure only log. -/
def bleichSuffixForge (H : Bytes → Bytes) (hashName : String) (key : RSAKey) :
    Except RsaErr (List (ℕ × ℤ) × RSAKey) := do
  let asn1 ← match hashAsn1 hashName with
    | some a => .ok a
    | Option.none => .error .badArgument
  let step := fun (acc : List (ℕ × ℤ) × List TextPair) (it : ℕ × TextPair) =>
    let (sigs, ts) := acc
    let (idx, t) := it
    match t.plain, t.cipher with
    | some m, Option.none =>
      match bleichSuffixOne H asn1 key m with
      | some s => (sigs ++ [(idx, s)], ts ++ [{ t with cipher := some s.toNat }])
      | Option.none => (sigs, ts ++ [t])
    | _, _ => (sigs, ts ++ [t])
  let (sigs, ts) := key.texts.enum.foldl step ([], [])
  return (sigs, { key with texts := ts })

/-- The bit-building loop of the `garbage='middle'` variant (`rsa.py`
lines 647-650): starting from `0b1`, set bit `b` of the running value
whenever bit `b` of its cube disagrees with bit `b` of the target; the
exponent in the loop is the literal `3`, independent of `key.e`. -/
def bleichMiddleBitsGo (target : ℕ) : ℕ → ℕ → ℕ → ℕ
  | sig, _, 0 => sig
  | sig, b, rem + 1 =>
    let sig' :=
      if (sig ^ 3) &&& (1 <<< b) ≠ target &&& (1 <<< b) then sig ||| (1 <<< b)
      else sig
    bleichMiddleBitsGo target sig' (b + 1) rem

/-- `signature_suffix` as computed by the middle variant before byte
truncation (`rsa.py` lines 647-650), for a target of `L` bytes. -/
def bleichMiddleBits (target L : ℕ) : ℕ :=
  bleichMiddleBitsGo target 1 0 (L * 8)

/-! ### `common_primes` (`rsa.py` lines 275-298)

`common_primes` copies a source key's text list with the slice
`pair[key_no].texts[:]` (`rsa.py` line 294): the list object is new but
the text-pair dicts inside are shared with the source key.  To make that
sharing observable, keys here hold addresses into an explicit store of
text pairs; `texts[:]` copies the address list, and a `deepcopy` would
have allocated fresh addresses. -/

abbrev Store := List TextPair

/-- An RSA key whose `texts` are references into a `Store`. -/
structure RSAKeyRef where
  n : ℕ
  e : ℕ
  d : Option ℕ := Option.none
  texts : List ℕ := []
  identifier : String := ""
  deriving DecidableEq, Repr

/-- The text pairs a key actually sees through the store. -/
def keyViewTexts (σ : Store) (k : RSAKeyRef) : List TextPair :=
  k.texts.map fun a => σ.getD a {}

/-- Python mutation `pair['plain'] = v` through an address. -/
def storeSetPlain (σ : Store) (addr v : ℕ) : Store :=
  σ.set addr { σ.getD addr {} with plain := some v }

/-- Ordered pairs produced by `itertools.combinations(keys, 2)`. -/
def pairsComb : List α → List (α × α)
  | [] => []
  | x :: xs => xs.map (fun y => (x, y)) ++ pairsComb xs

/-- Derivation of one private key inside `common_primes` (`rsa.py` lines
291-294): `d = invmod(e, (prime-1)(n/prime-1))` (raising on non-coprime
inputs), a key constructed through the randomized `RSAKey.construct`
(whose `p`/`q` recovery is irrelevant to the fields read here, but whose
termination needs fuel), identifier suffixed with `-private`, and the
`texts[:]` address-list copy. -/
def commonPrimesDerive (rng : ℕ → ℕ) (fuel : ℕ) (prime : ℕ) (k : RSAKeyRef) :
    Except RsaErr RSAKeyRef := do
  let d ← match invmod k.e ((prime - 1) * (k.n / prime - 1)) with
    | some d => .ok d
    | Option.none => .error .invmodFail
  match factors_from_d rng k.n k.e d fuel 0 with
  | Option.none => .error .constructDiverge
  | some _ =>
    return { n := k.n, e := k.e, d := some d, texts := k.texts,
             identifier := k.identifier ++ "-private" }

/-- `common_primes(keys)` (`rsa.py` lines 275-298).  The guard
`pair[key_no] not in priv_keys` compares the source key object against the
freshly constructed keys in `priv_keys`; since `RSAKey` has no `__eq__`,
this is object identity and never holds, so it is not modelled. -/
def common_primes (rng : ℕ → ℕ) (fuel : ℕ) (keys : List RSAKeyRef) :
    Except RsaErr (List RSAKeyRef) :=
  (pairsComb keys).foldlM
    (fun priv (pair : RSAKeyRef × RSAKeyRef) => do
      let prime := Nat.gcd pair.1.n pair.2.n
      if prime ≠ 1 then
        let k1 ← commonPrimesDerive rng fuel prime pair.1
        let k2 ← commonPrimesDerive rng fuel prime pair.2
        return priv ++ [k1, k2]
      else
        return priv)
    []

/-! ## CBC padding-oracle engine (`Block/cbc.py`) -/

namespace CBC

/-- The distinct `log.critical_error` call sites of `decrypt` and
`fake_ciphertext` (each raises). -/
inductive Err where
  | invalidLength
  | invalidIvLength
  | invalidAmount
  | tooLongKnownPlaintext
  | oracleExhausted
  | badPadding
  | badArgument
  deriving DecidableEq, Repr

/-- A padding oracle: `(payload, iv, previous_resp) ↦ (correct, resp)`
(`cbc.py` lines 10-24); `σ` is the caller-state threaded between calls. -/
abbrev Oracle (σ : Type) := Bytes → Bytes → σ → Bool × σ

/-- The payload of the first-byte false-positive re-query (`cbc.py` lines
139-140): `payload[:-B-2] + 'A' + payload[-B-1:]` on the concatenation
`iv + payload`, i.e. the byte at position `B-2` of the second-to-last
block is overwritten with `'A'` (`0x41`). -/
def flipQueryPayload (B : ℕ) (full : Bytes) : Bytes :=
  full.set (full.length - B - 2) 0x41

/-- The 256-guess search at one position (`cbc.py` lines 100-155, with the
per-guess `continue` paths): returns the first guess that the oracle
accepts — skipping, in the `is_correct` branch, the guess replaying the
original byte (`cbc.py` line 118), and re-querying through
`flipQueryPayload` at the first position of the non-`is_correct` branch
(`cbc.py` lines 137-146) — together with the threaded oracle state. -/
def guessLoop (O : Oracle σ) (B : ℕ) (pre pm target : Bytes) (skipByte : ℕ)
    (position : ℕ) (isCorrect : Bool) : List ℕ → σ → Option ℕ × σ
  | [], resp => (Option.none, resp)
  | g :: gs, resp =>
    let modified := pm.set position g
    let full := pre ++ modified ++ target
    let iv := full.take B
    let payload := full.drop B
    let (correct, resp1) := O payload iv resp
    if correct then
      if isCorrect then
        if g = skipByte then guessLoop O B pre pm target skipByte position isCorrect gs resp1
        else (some g, resp1)
      else
        if position = B - 1 then
          let full2 := flipQueryPayload B (iv ++ payload)
          let (c2, resp2) := O (full2.drop B) (full2.take B) resp1
          if c2 then (some g, resp2)
          else guessLoop O B pre pm target skipByte position isCorrect gs resp2
        else (some g, resp1)
    else guessLoop O B pre pm target skipByte position isCorrect gs resp1

/-- The position loop over one block (`cbc.py` lines 95-164).  `posPlus1`
is `position + 1` (so `0` terminates the `while position >= 0` loop); it
strictly decreases, so `fuel ≥ posPlus1` suffices.  State: the working
copy `pm` of the preceding block, the accumulated plaintext, the
`is_correct` flag and the threaded oracle state.  Returns the final
plaintext accumulator, flag and state. -/
def posLoop (O : Oracle σ) (B : ℕ) (pre target : Bytes) (skipByte : ℕ) :
    ℕ → ℕ → Bytes → Bytes → Bool → σ → Except Err (Bytes × Bool) × σ
  | 0, _, _, pl, isC, resp => (.ok (pl, isC), resp)
  | _ + 1, 0, _, pl, isC, resp => (.ok (pl, isC), resp)
  | fuel + 1, posPlus1, pm, pl, isC, resp =>
    let position := posPlus1 - 1
    match guessLoop O B pre pm target skipByte position isC (List.range 256) resp with
    | (some g, resp1) =>
      let padding := B - position
      let dc := pm.getD position 0 ^^^ g ^^^ padding
      if isC then
        if dc = 0 ∨ dc > B then (.error .badPadding, resp1)
        else
          let pm' := pm.take (pm.length - dc) ++
            xor3 (pm.drop (pm.length - dc)) [dc] [dc + 1]
          posLoop O B pre target skipByte fuel (posPlus1 - dc) pm'
            (List.replicate dc dc) false resp1
      else
        let pm' := pm.take position ++
          xor3 (g :: pm.drop (position + 1)) [padding] [padding + 1]
        posLoop O B pre target skipByte fuel (posPlus1 - 1) pm' (dc :: pl) isC resp1
    | (Option.none, resp1) =>
      if isC then
        let pm' := pm.take position ++ xor3 (pm.drop position) [1] [2]
        posLoop O B pre target skipByte fuel (posPlus1 - 1) pm' [1] false resp1
      else (.error .oracleExhausted, resp1)

/-- The block loop (`cbc.py` lines 85-164): `count_block` runs from
`len(blocks) - 1` down to `amount + 1`; `skipByte` is `blocks[-2][-1]`
(only read in the `is_correct` branch, which can only fire on the last
block). -/
def blockLoop (O : Oracle σ) (B : ℕ) (blocks : List Bytes) (skipByte amount : ℕ) :
    ℕ → ℕ → Bytes → Bool → σ → Except Err Bytes × σ
  | 0, _, pl, _, resp => (.ok pl, resp)
  | cb + 1, posKnown, pl, isC, resp =>
    if cb + 1 ≤ amount then (.ok pl, resp)
    else
      let pre := (blocks.take cb).foldr (· ++ ·) []
      let pm := blocks.getD cb []
      let target := blocks.getD (cb + 1) []
      match posLoop O B pre target skipByte B (B - posKnown) pm pl isC resp with
      | (.error e, resp') => (.error e, resp')
      | (.ok (pl', isC'), resp') => blockLoop O B blocks skipByte amount cb 0 pl' isC' resp'

/-- `PaddingOracle.decrypt` (`cbc.py` lines 26-166), with the oracle and
its initial state injected.  Returns the recovered plaintext (or the
raised error) together with the final threaded oracle state. -/
def decrypt (O : Oracle σ) (B : ℕ) (ciphertext : Bytes) (iv : Option Bytes)
    (is_correct : Bool) (amount : ℕ) (known_plaintext : Option Bytes) (s₀ : σ) :
    Except Err Bytes × σ :=
  if ciphertext.length % B ≠ 0 then (.error .invalidLength, s₀)
  else
    let blocks := chunks ciphertext B
    let ivv := iv.getD []
    if ivv ≠ [] ∧ ivv.length % B ≠ 0 then (.error .invalidIvLength, s₀)
    else
      let blocks := if ivv ≠ [] then ivv :: blocks else blocks
      let amountZ : ℤ :=
        if amount ≠ 0 then (blocks.length : ℤ) - amount - 1 else 0
      if amountZ < 0 ∨ amountZ ≥ (blocks.length : ℤ) then (.error .invalidAmount, s₀)
      else
        let amountN := amountZ.toNat
        let kp := known_plaintext.getD []
        if kp ≠ [] then
          let blocksDecoded := kp.length / B
          let charsDecoded := kp.length % B
          if blocksDecoded = blocks.length then (.ok kp, s₀)
          else if blocksDecoded > blocks.length - 1 then
            (.error .tooLongKnownPlaintext, s₀)
          else
            let blocks :=
              if blocksDecoded ≠ 0 then blocks.take (blocks.length - blocksDecoded)
              else blocks
            let blocks :=
              if charsDecoded ≠ 0 then
                let b2 := blocks.getD (blocks.length - 2) []
                blocks.set (blocks.length - 2)
                  (b2.take (b2.length - charsDecoded) ++
                   xor3 (kp.take charsDecoded) (b2.drop (b2.length - charsDecoded))
                     [charsDecoded + 1])
              else blocks
            let skipByte := (blocks.getD (blocks.length - 2) []).getLastD 0
            blockLoop O B blocks skipByte amountN (blocks.length - 1)
              charsDecoded kp false s₀
        else
          let skipByte := (blocks.getD (blocks.length - 2) []).getLastD 0
          blockLoop O B blocks skipByte amountN (blocks.length - 1)
            0 [] is_correct s₀

/-- The main loop of `fake_ciphertext` (`cbc.py` lines 214-231):
`count_block` from `len(blocks) - 1` down to `1`; each iteration recovers
the plaintext of block `count_block` by one of three `decrypt` calls
(distinguished by whether `original_plaintext` / `original_ciphertext`
are still present — both are reset afterwards), then rewrites block
`count_block - 1`.  Each `decrypt` call starts from a fresh
`previous_resp` (`resp` is local to `decrypt`), modelled by `s₀`. -/
def fakeLoop (O : Oracle σ) (B : ℕ) (s₀ : σ) (blocks npl : List Bytes) :
    ℕ → List Bytes → Option Bytes → Option Bytes → Except Err (List Bytes)
  | 0, ncb, _, _ => .ok ncb
  | cb + 1, ncb, origPlain, origCipher =>
    let ct := ((ncb.take (cb + 2)).foldr (· ++ ·) [])
    let res :=
      match origPlain, origCipher with
      | Option.none, Option.none => (decrypt O B ct Option.none false 1 Option.none s₀).1
      | some op, some oc =>
        if op ≠ [] ∧ oc ≠ [] then (decrypt O B ct Option.none true 1 (some op) s₀).1
        else (decrypt O B ct Option.none true 1 Option.none s₀).1
      | _, _ => (decrypt O B ct Option.none true 1 Option.none s₀).1
    match res with
    | .error e => .error e
    | .ok opl =>
      let ncb' := ncb.set cb (xor3 (blocks.getD cb []) opl (npl.getD cb []))
      fakeLoop O B s₀ blocks npl cb ncb' Option.none Option.none

/-- `PaddingOracle.fake_ciphertext` (`cbc.py` lines 168-235).  The Python
comparison `original_plaintext > self.block_size` (line 210) compares a
`str` with an `int`, which in Python 2 is always true, so a present
`original_plaintext` is always cut to its last `block_size` bytes. -/
def fake_ciphertext (O : Oracle σ) (B : ℕ) (new_plaintext : Bytes)
    (original_ciphertext iv original_plaintext : Option Bytes) (s₀ : σ) :
    Except Err Bytes :=
  let ocGiven := original_ciphertext.isSome
  let opv := original_plaintext.getD []
  let ivv := iv.getD []
  if ¬ocGiven ∧ opv ≠ [] then .error .badArgument
  else if ¬ocGiven ∧ ivv ≠ [] then .error .badArgument
  else
    let ciphertext :=
      match original_ciphertext with
      | Option.none => List.replicate (new_plaintext.length + B) 0x41
      | some oc => oc
    if ocGiven ∧ ciphertext.length % B ≠ 0 then .error .invalidLength
    else if new_plaintext.length % B ≠ 0 then .error .invalidLength
    else
      let blocks := chunks ciphertext B
      let nplBlocks := chunks new_plaintext B
      let blocks := if ivv ≠ [] then ivv :: blocks else blocks
      if nplBlocks.length ≠ blocks.length - 1 then .error .badArgument
      else
        let op' :=
          if opv ≠ [] then some (opv.drop (opv.length - B)) else original_plaintext
        (fakeLoop O B s₀ blocks nplBlocks (blocks.length - 1) blocks op'
            original_ciphertext).map
          fun ncb => ncb.foldr (· ++ ·) []

/-! ### CBC semantics and oracle consistency (for the specification's
correctness statements; `D` is the block-decryption direction of the
cipher under the unknown key) -/

/-- CBC decryption of `payload` with initial vector `iv`: block `cᵢ`
decrypts to `D(cᵢ) ⊕ cᵢ₋₁` (with `c₀ = iv`). -/
def cbcDecGo (D : Bytes → Bytes) (prev : Bytes) : List Bytes → Bytes
  | [] => []
  | c :: cs => xor2 (D c) prev ++ cbcDecGo D c cs

def cbcDecrypt (D : Bytes → Bytes) (B : ℕ) (iv payload : Bytes) : Bytes :=
  cbcDecGo D iv (chunks payload B)

/-- Validity of PKCS#7 padding: the last byte `k` satisfies `1 ≤ k ≤ B`
and the last `k` bytes all equal `k`. -/
def pkcs7Valid (pl : Bytes) (B : ℕ) : Bool :=
  match pl.getLast? with
  | Option.none => false
  | some k =>
    1 ≤ k ∧ k ≤ B ∧ k ≤ pl.length ∧ (pl.drop (pl.length - k)).all (· = k)

/-- A padding oracle is consistent with block decryption `D` when its
boolean answer on `(payload, iv)` is exactly PKCS#7 validity of the CBC
decryption of `iv ‖ payload` (spec section 3.3), for every threaded
state. -/
def consistentOracle (D : Bytes → Bytes) (B : ℕ) (O : Oracle σ) : Prop :=
  ∀ p iv s, (O p iv s).1 = pkcs7Valid (cbcDecrypt D B iv p) B

/-- The target blocks successively decrypted by `fake_ciphertext` when no
original ciphertext is supplied: `g 0` is the synthetic last block
`'A' * B`, and `g (j+1)` is the value written into block `N - j - 1`,
namely `D(g j) ⊕ new_plaintext_block (N - j - 1)`. -/
def fakeChain (D : Bytes → Bytes) (B N : ℕ) (npl : List Bytes) : ℕ → Bytes
  | 0 => List.replicate B 0x41
  | j + 1 => xor2 (D (fakeChain D B N npl j)) (npl.getD (N - (j + 1)) [])

/-- A fake padding pattern on the pair `(pm, target)`: the decryption of
`target` xored with `pm` ends (positions `B-k` to `B-2`) with `k - 1`
copies of `k`, so that the oracle also accepts a last-byte guess
decrypting to `k`. -/
def fakePattern (D : Bytes → Bytes) (B : ℕ) (pm target : Bytes) (k : ℕ) : Prop :=
  ∀ j ∈ Finset.Ico (B - k) (B - 1), (D target).getD j 0 ^^^ pm.getD j 0 = k

/-- No false positive at the first position of a block survives the
engine's re-query filter: when the working block carries `'A'` at
position `B - 2` (making the filter's overwrite a no-op), no fake
padding pattern may be present. -/
def noSurvFP (D : Bytes → Bytes) (B : ℕ) (pm target : Bytes) : Prop :=
  pm.getD (B - 2) 0 = 0x41 →
    ∀ k ∈ Finset.Icc 2 B, ¬ fakePattern D B pm target k

end CBC

instance instDecEqExcept {ε α : Type} [DecidableEq ε] [DecidableEq α] :
    DecidableEq (Except ε α) := fun x y =>
  match x, y with
  | .ok a, .ok b =>
    if h : a = b then .isTrue (by rw [h])
    else .isFalse (by intro hh; injection hh; exact h (by assumption))
  | .error a, .error b =>
    if h : a = b then .isTrue (by rw [h])
    else .isFalse (by intro hh; injection hh; exact h (by assumption))
  | .ok _, .error _ => .isFalse (by intro hh; exact Except.noConfusion hh)
  | .error _, .ok _ => .isFalse (by intro hh; exact Except.noConfusion hh)

/-- Concrete keys for the C4 counterexample: `e = 3`, `m = 2`, moduli
`9, 10, 11` (pairwise distinct, pairwise coprime, each `> m³ = 8`), each
key holding the single ciphertext `m³ mod nᵢ = 8` and no plaintext. -/
def hastadCexKey (n : ℕ) : RSAKey :=
  { n := n, e := 3, texts := [{ cipher := some 8 }] }

/-- Concrete key and oracle for the C2 counterexample and witness:
`n = 15 = 3·5`, `e = d = 3`. -/
def parityKey15 (c : ℕ) : RSAKey := { n := 15, e := 3, texts := [{ cipher := some c }] }

def parityOracle15 : ℕ → ℕ := fun c => powMod c 3 15 % 2

def bleichCexH : Bytes → Bytes := fun _ => List.replicate 20 0

def bleichCexAsn1 : Bytes :=
  [0x30, 0x21, 0x30, 0x09, 0x06, 0x05, 0x2b, 0x0e, 0x03, 0x02, 0x1a, 0x05,
   0x00, 0x04, 0x14]

def bleichCexLead : Bytes := bleichLeadBlock bleichCexH bleichCexAsn1 5

def bleichCexPtInt : ℕ := b2i (bleichCexLead ++ List.replicate 9 0)

def bleichCexKey : RSAKey :=
  { n := 59 ^ 64 - bleichCexPtInt, e := 64, texts := [{ plain := some 5 }] }

def bleichWitKey : RSAKey := { n := 3233, e := 17, texts := [{ plain := some 7 }] }

def c6Oracle : CBC.Oracle (List (Bytes × Bytes)) := fun p iv s =>
  (CBC.pkcs7Valid (CBC.cbcDecrypt (fun b => b) 8 iv p) 8, (p, iv) :: s)

def c6Run : Except CBC.Err Bytes × List (Bytes × Bytes) :=
  CBC.decrypt c6Oracle 8 (List.replicate 16 0x41) Option.none false 0 Option.none []

def c6CountOracle : CBC.Oracle ℕ := fun _ _ s => (true, s + 1)

/-- The key `commonPrimesDerive` builds from source `k` and exponent `d`. -/
def commonPrimesKey (k : RSAKeyRef) (d : ℕ) : RSAKeyRef :=
  { n := k.n, e := k.e, d := some d, texts := k.texts,
    identifier := k.identifier ++ "-private" }

def c8Store : Store := [{ cipher := some 11 }, { cipher := some 13 }]

def c8K1 : RSAKeyRef := { n := 15, e := 5, texts := [0], identifier := "k1" }

def c8K2 : RSAKeyRef := { n := 21, e := 5, texts := [1], identifier := "k2" }

/-- Block decryption for the C1 counterexample: reduce bytes mod 256 and
xor with a fixed mask whose bytes at positions 6 and 7 plant, on the
synthetic last block `'A' * 8`, a length-2 fake padding pattern that
survives the engine's re-query filter. -/
def c1CexD (b : Bytes) : Bytes := xor2 (b.map (· % 256)) [0, 0, 0, 0, 0, 0, 2, 0x43]

def c1CexO : CBC.Oracle Unit :=
  fun p iv _ => (CBC.pkcs7Valid (CBC.cbcDecrypt c1CexD 8 iv p) 8, ())

/-- Block decryption for the C1 witness: reduce each byte mod 256. -/
def c1WitD (b : Bytes) : Bytes := b.map (· % 256)

def c1WitO : CBC.Oracle Unit :=
  fun p iv _ => (CBC.pkcs7Valid (CBC.cbcDecrypt c1WitD 8 iv p) 8, ())

/-- Convergent of `a/b` at index `i` read off the modelled `convergents`
list, extended past the end by the exact value `a/b`. -/
def cfConv (a b i : ℕ) : ℚ :=
  match (convergents (contFrac a b))[i]? with
  | some pr => (pr.1 : ℚ) / pr.2
  | Option.none => (a : ℚ) / b

def wienerCexKey : RSAKey := { n := 6621, e := 1471 }

def wienerWitKey : RSAKey := { n := 8023, e := 5227 }

/-! ## Helper lemmas on the math substrate -/

theorem clog2Go_eq_clog : ∀ fuel n, n ≤ fuel → clog2Go fuel n = Nat.clog 2 n := by
  intro fuel
  induction fuel with
  | zero =>
    intro n hn
    interval_cases n
    simp [clog2Go]
  | succ fuel ih =>
    intro n hn
    by_cases h1 : n ≤ 1
    · simp [clog2Go, h1, Nat.clog_of_right_le_one h1]
    · have h2 : 2 ≤ n := by omega
      have hrec : (n + 1) / 2 ≤ fuel := by omega
      simp only [clog2Go, if_neg (by omega : ¬ n ≤ 1)]
      rw [ih _ hrec, Nat.clog_of_two_le (by norm_num) h2]
      norm_num

theorem clog2_eq_clog (n : ℕ) : clog2 n = Nat.clog 2 n :=
  clog2Go_eq_clog n n le_rfl

/-- The key's bit size, written with `Nat.clog`. -/
theorem RSAKey.size_eq (k : RSAKey) :
    k.size = 8 * ((Nat.clog 2 k.n + 7) / 8) := by
  rw [RSAKey.size, clog2_eq_clog]

theorem powModGo_eq (m : ℕ) :
    ∀ fuel b e, e < 2 ^ fuel → powModGo m fuel b e = b ^ e % m := by
  intro fuel
  induction fuel with
  | zero =>
    intro b e he
    have : e = 0 := by simpa using Nat.lt_one_iff.mp (by simpa using he)
    subst this; rfl
  | succ f ih =>
    intro b e he
    match e with
    | 0 => rfl
    | e' + 1 =>
      have hdiv : (e' + 1) / 2 < 2 ^ f := by
        have h2 : (2:ℕ) ^ (f + 1) = 2 * 2 ^ f := by ring
        rw [h2] at he
        omega
      have hrec := ih (b * b % m) ((e' + 1) / 2) hdiv
      simp only [powModGo]
      rw [hrec, ← Nat.pow_mod, ← pow_two, ← pow_mul]
      rcases Nat.even_or_odd (e' + 1) with hev | hod
      · have hm2 : (e' + 1) % 2 = 0 := Nat.even_iff.mp hev
        have hexp : 2 * ((e' + 1) / 2) = e' + 1 := by omega
        rw [hexp]
        simp [hm2]
      · have hm2 : (e' + 1) % 2 = 1 := Nat.odd_iff.mp hod
        have hexp : 2 * ((e' + 1) / 2) + 1 = e' + 1 := by omega
        rw [if_pos hm2, Nat.mul_mod_mod, ← pow_succ', hexp]

theorem powMod_eq (b e m : ℕ) : powMod b e m = b ^ e % m :=
  powModGo_eq m (e + 1) b e (Nat.lt_of_lt_of_le (Nat.lt_two_pow e)
    (Nat.pow_le_pow_right (by norm_num) (Nat.le_succ e)))

theorem irootGo_spec (x k : ℕ) (hk : 0 < k) :
    ∀ fuel lo hi, lo ^ k ≤ x → x < hi ^ k → lo < hi → hi - lo ≤ 2 ^ fuel →
      (irootGo x k fuel lo hi) ^ k ≤ x ∧ x < (irootGo x k fuel lo hi + 1) ^ k := by
  intro fuel
  induction fuel with
  | zero =>
    intro lo hi hlo hhi hlt hgap
    have : hi = lo + 1 := by simpa using Nat.le_antisymm (by omega) hlt
    subst this
    exact ⟨hlo, by simpa using hhi⟩
  | succ f ih =>
    intro lo hi hlo hhi hlt hgap
    simp only [irootGo]
    by_cases hc : lo + 1 < hi
    · have hmidlo : lo < (lo + hi) / 2 := by omega
      have hmidhi : (lo + hi) / 2 < hi := by omega
      have hp : (2:ℕ) ^ (f + 1) = 2 * 2 ^ f := by ring
      rw [hp] at hgap
      by_cases hm : ((lo + hi) / 2) ^ k ≤ x
      · simp only [if_pos hc, if_pos hm]
        exact ih ((lo + hi) / 2) hi hm hhi hmidhi (by omega)
      · simp only [if_pos hc, if_neg hm]
        refine ih lo ((lo + hi) / 2) hlo ?_ hmidlo (by omega)
        omega
    · simp only [if_neg hc]
      have : hi = lo + 1 := by omega
      subst this
      exact ⟨hlo, by simpa using hhi⟩

theorem iroot_spec (x k : ℕ) (hk : 0 < k) :
    (iroot x k).1 ^ k ≤ x ∧ x < ((iroot x k).1 + 1) ^ k := by
  have h0 : (0:ℕ) ^ k ≤ x := by
    rw [Nat.zero_pow (by omega)]; exact Nat.zero_le x
  have h1 : x < (x + 1) ^ k := Nat.lt_of_lt_of_le (Nat.lt_succ_self x)
    (Nat.le_self_pow (by omega) (x + 1))
  have h2 : x + 1 - 0 ≤ 2 ^ (x + 2) := by
    have := Nat.lt_two_pow x
    have : (2:ℕ) ^ x ≤ 2 ^ (x + 2) := Nat.pow_le_pow_right (by norm_num) (by omega)
    omega
  exact irootGo_spec x k hk (x + 2) 0 (x + 1) h0 h1 (by omega) h2

theorem iroot_exact_iff (x k : ℕ) :
    (iroot x k).2 = true ↔ (iroot x k).1 ^ k = x := by
  simp [iroot]

/-- The floor root of a perfect power is its base, exactly. -/
theorem iroot_pow_self (m k : ℕ) (hk : 0 < k) : iroot (m ^ k) k = (m, true) := by
  obtain ⟨h1, h2⟩ := iroot_spec (m ^ k) k hk
  have hle : (iroot (m ^ k) k).1 ≤ m :=
    (Nat.pow_le_pow_iff_left (by omega)).mp h1
  have hge : m ≤ (iroot (m ^ k) k).1 := by
    have := (Nat.pow_lt_pow_iff_left (by omega)).mp h2
    omega
  have hr : (iroot (m ^ k) k).1 = m := le_antisymm hle hge
  have hb : (iroot (m ^ k) k).2 = true := by
    rw [iroot_exact_iff, hr]
  exact Prod.ext hr hb

/-! ## Bitwise helper lemmas (for claim C10) -/

theorem lor_two_pow_of_lt {c b : ℕ} (h : c < 2 ^ b) : c ||| 2 ^ b = c + 2 ^ b := by
  apply Nat.eq_of_testBit_eq
  intro i
  have hsum : c + 2 ^ b = 2 ^ b * 1 + c := by ring
  rw [Nat.testBit_lor, hsum, Nat.testBit_mul_pow_two_add 1 h i]
  rcases lt_trichotomy i b with hib | hib | hib
  · rw [Nat.testBit_two_pow_of_ne (by omega), if_pos hib]
    simp
  · subst hib
    rw [Nat.testBit_two_pow_self, if_neg (lt_irrefl i)]
    simp
  · rw [Nat.testBit_two_pow_of_ne (by omega), if_neg (by omega)]
    have h1 : Nat.testBit 1 (i - b) = false := by
      apply Nat.testBit_eq_false_of_lt
      have : (2:ℕ) ^ 1 ≤ 2 ^ (i - b) := Nat.pow_le_pow_right (by norm_num) (by omega)
      omega
    have hc : Nat.testBit c i = false := by
      apply Nat.testBit_eq_false_of_lt
      exact Nat.lt_of_lt_of_le h (Nat.pow_le_pow_right (by norm_num) (by omega))
    simp [h1, hc]

theorem mod_pow_succ_eq_iff {u v b : ℕ} (h : u % 2 ^ b = v % 2 ^ b) :
    u % 2 ^ (b + 1) = v % 2 ^ (b + 1) ↔ u / 2 ^ b % 2 = v / 2 ^ b % 2 := by
  rw [Nat.mod_pow_succ, Nat.mod_pow_succ, h]
  constructor
  · intro he
    have h2 := Nat.add_left_cancel he
    exact Nat.eq_of_mul_eq_mul_left (by positivity) h2
  · intro he; rw [he]

theorem and_two_pow_eq_iff (u v b : ℕ) :
    u &&& 2 ^ b = v &&& 2 ^ b ↔ u / 2 ^ b % 2 = v / 2 ^ b % 2 := by
  rw [Nat.and_two_pow, Nat.and_two_pow]
  constructor
  · intro h
    have := Nat.eq_of_mul_eq_mul_right (m := 2 ^ b) (by positivity) h
    rw [Nat.testBit_to_div_mod, Nat.testBit_to_div_mod] at this
    have hu := Nat.mod_two_eq_zero_or_one (u / 2 ^ b)
    have hv := Nat.mod_two_eq_zero_or_one (v / 2 ^ b)
    rcases hu with hu | hu <;> rcases hv with hv | hv <;> simp [hu, hv] at this ⊢
  · intro h
    rw [Nat.testBit_to_div_mod, Nat.testBit_to_div_mod, h]

/-- Adding `2^b` to an odd number flips bit `b` of its cube and keeps the
lower bits (for `b ≥ 1`). -/
theorem cube_add_two_pow_mod (sig b : ℕ) (hb : 1 ≤ b) (hodd : sig % 2 = 1) :
    (sig + 2 ^ b) ^ 3 % 2 ^ (b + 1) = (sig ^ 3 + 2 ^ b) % 2 ^ (b + 1) := by
  have hexp : (sig + 2 ^ b) ^ 3 =
      sig ^ 3 + 2 ^ b * (3 * sig ^ 2) + 2 ^ (2 * b) * (3 * sig) + 2 ^ (3 * b) := by
    ring
  have h2b : (2:ℕ) ^ (b + 1) ∣ 2 ^ (2 * b) := pow_dvd_pow 2 (by omega)
  have h3b : (2:ℕ) ^ (b + 1) ∣ 2 ^ (3 * b) := pow_dvd_pow 2 (by omega)
  have hsq : 3 * sig ^ 2 % 2 = 1 := by
    rcases Nat.even_or_odd sig with he | ho
    · exfalso; rw [Nat.even_iff] at he; omega
    · have h3 : Odd 3 := by decide
      have : Odd (3 * sig ^ 2) := Odd.mul h3 ho.pow
      exact Nat.odd_iff.mp this
  obtain ⟨t, ht⟩ : ∃ t, 3 * sig ^ 2 = 2 * t + 1 := ⟨3 * sig ^ 2 / 2, by omega⟩
  have hfold : 2 ^ b * (3 * sig ^ 2) = 2 ^ (b + 1) * t + 2 ^ b := by
    rw [ht]; ring
  rw [hexp, hfold]
  have hre : sig ^ 3 + (2 ^ (b + 1) * t + 2 ^ b) + 2 ^ (2 * b) * (3 * sig) + 2 ^ (3 * b)
      = (sig ^ 3 + 2 ^ b) +
        (2 ^ (b + 1) * t + 2 ^ (2 * b) * (3 * sig) + 2 ^ (3 * b)) := by ring
  rw [hre]
  obtain ⟨u2, hu2⟩ := h2b
  obtain ⟨u3, hu3⟩ := h3b
  rw [hu2, hu3]
  have : 2 ^ (b + 1) * u2 * (3 * sig) = 2 ^ (b + 1) * (u2 * (3 * sig)) := by ring
  rw [this, ← Nat.add_mul_mod_self_left (sig ^ 3 + 2 ^ b) (2 ^ (b + 1))
    (t + u2 * (3 * sig) + u3)]
  congr 1
  ring

/-- Invariant proof for the bit-building loop of the middle variant:
starting at bit `b ≥ 1` with an odd partial value below `2^b` whose cube
already matches the target modulo `2^b`, the loop extends the match over
`rem` more bits. -/
theorem bleichMiddleBitsGo_inv (target : ℕ) :
    ∀ rem b sig, 1 ≤ b → sig % 2 = 1 → sig < 2 ^ b →
      sig ^ 3 % 2 ^ b = target % 2 ^ b →
      (bleichMiddleBitsGo target sig b rem) ^ 3 % 2 ^ (b + rem) =
        target % 2 ^ (b + rem) := by
  intro rem
  induction rem with
  | zero => intro b sig _ _ _ h; simpa using h
  | succ r ih =>
    intro b sig hb hodd hlt hinv
    simp only [bleichMiddleBitsGo]
    have harith : b + (r + 1) = (b + 1) + r := by omega
    rw [harith]
    by_cases hc : sig ^ 3 &&& 1 <<< b = target &&& 1 <<< b
    · rw [if_neg (by simpa using hc)]
      rw [Nat.one_shiftLeft] at hc
      have hbits := (and_two_pow_eq_iff (sig ^ 3) target b).mp hc
      have hnext : sig ^ 3 % 2 ^ (b + 1) = target % 2 ^ (b + 1) :=
        (mod_pow_succ_eq_iff hinv).mpr hbits
      exact ih (b + 1) sig (by omega) hodd
        (Nat.lt_of_lt_of_le hlt (Nat.pow_le_pow_right (by norm_num) (by omega))) hnext
    · rw [if_pos (by simpa using hc)]
      rw [Nat.one_shiftLeft] at hc ⊢
      have hbits : ¬ sig ^ 3 / 2 ^ b % 2 = target / 2 ^ b % 2 := by
        intro h; exact hc ((and_two_pow_eq_iff (sig ^ 3) target b).mpr h)
      rw [lor_two_pow_of_lt hlt]
      have hflip : (sig + 2 ^ b) ^ 3 % 2 ^ (b + 1) = (sig ^ 3 + 2 ^ b) % 2 ^ (b + 1) :=
        cube_add_two_pow_mod sig b hb hodd
      have hlow : (sig ^ 3 + 2 ^ b) % 2 ^ b = target % 2 ^ b := by
        rw [Nat.add_mod, Nat.mod_self, Nat.add_zero, Nat.mod_mod]
        exact hinv
      have hbitflip : (sig ^ 3 + 2 ^ b) / 2 ^ b % 2 = target / 2 ^ b % 2 := by
        have hdiv : (sig ^ 3 + 2 ^ b) / 2 ^ b = sig ^ 3 / 2 ^ b + 1 :=
          Nat.add_div_right _ (by positivity)
        rw [hdiv]
        have h1 := Nat.mod_two_eq_zero_or_one (sig ^ 3 / 2 ^ b)
        have h2 := Nat.mod_two_eq_zero_or_one (target / 2 ^ b)
        rcases h1 with h1 | h1 <;> rcases h2 with h2 | h2 <;> omega
      have hnext : (sig + 2 ^ b) ^ 3 % 2 ^ (b + 1) = target % 2 ^ (b + 1) := by
        rw [hflip]
        exact (mod_pow_succ_eq_iff hlow).mpr hbitflip
      refine ih (b + 1) (sig + 2 ^ b) (by omega) ?_ ?_ hnext
      · have : (2:ℕ) ^ b % 2 = 0 := by
          have : (2:ℕ) ∣ 2 ^ b := dvd_pow_self 2 (by omega)
          omega
        omega
      · have : (2:ℕ) ^ (b + 1) = 2 ^ b + 2 ^ b := by ring
        omega

/-- The first bit (`b = 0`) never flips when the target is odd, since the
cube of the odd initial value `1` already matches an odd target at bit 0. -/
theorem bleichMiddleBits_eq_from_one (target L : ℕ) (ht : target % 2 = 1)
    (hL : 1 ≤ L) :
    bleichMiddleBits target L = bleichMiddleBitsGo target 1 1 (L * 8 - 1) := by
  have h8 : L * 8 = (L * 8 - 1) + 1 := by omega
  rw [bleichMiddleBits, h8]
  simp only [bleichMiddleBitsGo]
  have hc : ¬ (1:ℕ) ^ 3 &&& 1 <<< 0 ≠ target &&& 1 <<< 0 := by
    simp only [Nat.one_shiftLeft, pow_zero, pow_succ, pow_mul]
    rw [Nat.and_one_is_mod, Nat.and_one_is_mod, ht]
    simp
  rw [if_neg hc]
  norm_num

/-- General form of the middle-variant congruence: for any odd target of
`L ≥ 1` bytes, the loop's result cubes to the target modulo `2^(8L)`. -/
theorem bleichMiddleBits_cube (s L : ℕ) (hs : s % 2 = 1) (hL : 1 ≤ L) :
    (bleichMiddleBits s L) ^ 3 % 2 ^ (L * 8) = s % 2 ^ (L * 8) := by
  rw [bleichMiddleBits_eq_from_one s L hs hL]
  have hbase : (1:ℕ) ^ 3 % 2 ^ 1 = s % 2 ^ 1 := by
    simpa using hs.symm
  have h := bleichMiddleBitsGo_inv s (L * 8 - 1) 1 1 (le_refl 1) rfl (by norm_num) hbase
  have harith : 1 + (L * 8 - 1) = L * 8 := by omega
  rwa [harith] at h

/-- Claim C10 (confirmed): in the middle variant of
`bleichenbacher_signature_forgery`, for every plaintext whose suffix block
`00 ‖ ASN1(hash) ‖ H(m)` has odd integer value `s`, the bit-building loop
(initialized to `1`, iterating over `8·|suffix|` bits) produces an integer
`signature_suffix` with `signature_suffix³ ≡ s (mod 2^(8·|suffix|))`; the
exponent in the loop is the literal `3` (see `bleichMiddleBitsGo`),
independent of the key's public exponent `e`. -/
theorem bleichMiddle_loop_cube_root (H : Bytes → Bytes) (asn1 : Bytes) (m : ℕ)
    (hodd : b2i (0x00 :: (asn1 ++ H (i2bMin m))) % 2 = 1) :
    (bleichMiddleBits (b2i (0x00 :: (asn1 ++ H (i2bMin m))))
        (0x00 :: (asn1 ++ H (i2bMin m))).length) ^ 3 %
        2 ^ ((0x00 :: (asn1 ++ H (i2bMin m))).length * 8) =
      b2i (0x00 :: (asn1 ++ H (i2bMin m))) % 2 ^
        ((0x00 :: (asn1 ++ H (i2bMin m))).length * 8) := by
  apply bleichMiddleBits_cube _ _ hodd
  simp

/-- Witness for C10 at a concrete instance (`asn1 = []`, a hash function
returning the single byte `1`, plaintext `0`). -/
theorem bleichMiddle_loop_cube_root_witness :
    b2i (0x00 :: (([] : Bytes) ++ (fun _ => [1]) (i2bMin 0))) % 2 = 1 ∧
    (bleichMiddleBits (b2i (0x00 :: (([] : Bytes) ++ (fun _ => [1]) (i2bMin 0))))
        (0x00 :: (([] : Bytes) ++ (fun _ => [1]) (i2bMin 0))).length) ^ 3 %
        2 ^ ((0x00 :: (([] : Bytes) ++ (fun _ => [1]) (i2bMin 0))).length * 8) =
      b2i (0x00 :: (([] : Bytes) ++ (fun _ => [1]) (i2bMin 0))) % 2 ^
        ((0x00 :: (([] : Bytes) ++ (fun _ => [1]) (i2bMin 0))).length * 8) :=
  ⟨by decide, bleichMiddle_loop_cube_root (fun _ => [1]) [] 0 (by decide)⟩

/-- Claim C9 (code bug): `add_text_pair` called with a truthy non-number
ciphertext (the string `"abc"`) and no plaintext logs an error for the
bad field but still appends the — now empty — text pair, violating the
data-model invariant that every stored pair has at least one field
present (spec section 3.2). -/
theorem add_text_pair_appends_empty_pair (k : RSAKey) :
    (k.add_text_pair (.str [0x61, 0x62, 0x63]) .none).texts =
      k.texts ++ [{ cipher := Option.none, plain := Option.none }] ∧
    ¬ TextPair.nonEmpty { cipher := Option.none, plain := Option.none } := by
  constructor
  · rfl
  · decide

/-! ## Claim C4: Håstad broadcast with per-key moduli above `m^e` -/

theorem hastadDedup_stall (e c : ℕ) :
    ∀ (rest : List RSAKey) (cs ms : List ℕ) (ck : List RSAKey), c ∈ cs →
      (∀ k ∈ rest, firstCipher k = some c) →
      rest.foldl (hastadStep e) (cs, ms, ck) = (cs, ms, ck) := by
  intro rest
  induction rest with
  | nil => intro cs ms ck _ _; rfl
  | cons k rest ih =>
    intro cs ms ck hmem hall
    have hk : firstCipher k = some c := hall k (by simp)
    have hstep : hastadStep e (cs, ms, ck) k = (cs, ms, ck) := by
      unfold hastadStep
      rw [if_neg]
      simp only [hk, Option.getD_some]
      intro h
      exact h.2 hmem
    rw [List.foldl_cons, hstep]
    exact ih cs ms ck hmem (fun k hk => hall k (by simp [hk]))

theorem hastadDedup_collapse (e : ℕ) (k0 : RSAKey) (rest : List RSAKey) (c : ℕ)
    (hc0 : firstCipher k0 = some c) (he0 : k0.e = e)
    (hcrest : ∀ k ∈ rest, firstCipher k = some c) :
    hastadDedup e (k0 :: rest) = ([c], [k0.n], [k0]) := by
  unfold hastadDedup
  rw [List.foldl_cons]
  have hstep : hastadStep e ([], [], []) k0 = ([c], [k0.n], [k0]) := by
    unfold hastadStep
    rw [if_pos (by simp)]
    rw [if_pos he0]
    simp [hc0]
  rw [hstep]
  exact hastadDedup_stall e c rest [c] [k0.n] [k0] (by simp) hcrest

theorem small_e_msg_one_pow (n e m : ℕ) (he : 0 < e) (hlt : m ^ e < n) :
    small_e_msg_one n e 100 (m ^ e) = some m := by
  unfold small_e_msg_one
  have h100 : List.range 100 = 0 :: List.map (· + 1) (List.range 99) := by
    rw [List.range_succ_eq_map]
  rw [h100, List.findSome?_cons]
  have hz : m ^ e + 0 * n = m ^ e := by ring
  rw [hz, iroot_pow_self m e he]
  have hpow : powMod m e n = m ^ e := by
    rw [powMod_eq]; exact Nat.mod_eq_of_lt hlt
  simp [hpow]

/-- Claim C4 amended (the original claim's write-back clause fails): if
`keys` is a list of exactly `e ≥ 2` RSA keys, all with public exponent
`e`, with pairwise distinct and pairwise coprime moduli each greater than
`m^e`, and each key's texts hold exactly one pair with
`cipher = m^e mod nᵢ` and no plain, then all deduplicated ciphertexts
collapse to the single value `m^e`, the `small_e_msg` fallback recovers
`m`, and `hastad(keys)` returns `m` while leaving every key's texts
unchanged — no `plain` field is written. -/
theorem hastad_smallroot_returns_m_without_write
    (keys : List RSAKey) (e m : ℕ) (he : 2 ≤ e)
    (hlen : keys.length = e)
    (hsame : ∀ k ∈ keys, k.e = e)
    (hdistinct : keys.Pairwise (fun a b => a.n ≠ b.n))
    (hcop : keys.Pairwise (fun a b => Nat.Coprime a.n b.n))
    (hbig : ∀ k ∈ keys, m ^ e < k.n)
    (htexts : ∀ k ∈ keys, k.texts = [{ cipher := some (m ^ e % k.n) }]) :
    hastad keys = .ok (some m, keys) := by
  match keys, hlen with
  | [], hlen => simp at hlen; omega
  | k0 :: rest, hlen =>
  have hk0mem : k0 ∈ k0 :: rest := by simp
  have hc : ∀ k ∈ k0 :: rest, firstCipher k = some (m ^ e) := by
    intro k hk
    have ht := htexts k hk
    have hb := hbig k hk
    unfold firstCipher
    rw [ht]
    simp [Nat.mod_eq_of_lt hb]
  have he0 : k0.e = e := hsame k0 hk0mem
  unfold hastad
  simp only [List.head?_cons]
  rw [if_neg (by omega)]
  rw [if_neg (by
    simp only [not_not, List.all_eq_true]
    intro k hk
    rw [hc k hk]
    rfl)]
  rw [he0, hastadDedup_collapse e k0 rest (m ^ e) (hc k0 hk0mem) he0
      (fun k hk => hc k (by simp [hk]))]
  have hfall : (if ([k0.n] : List ℕ).length < e then
      ([k0] : List RSAKey).findSome? (fun k => (small_e_msg k).head?)
    else Option.none) = some m := by
    rw [if_pos (by simp only [List.length_singleton]; omega)]
    have hgm : get_mutable_texts k0 = [m ^ e] := by
      unfold get_mutable_texts
      rw [htexts k0 hk0mem]
      simp [Nat.mod_eq_of_lt (hbig k0 hk0mem)]
    have hsmall : small_e_msg k0 = [m] := by
      unfold small_e_msg
      rw [hgm, he0, List.filterMap_cons,
        small_e_msg_one_pow k0.n e m (by omega) (hbig k0 hk0mem)]
      rfl
    simp [hsmall]
  rw [hfall]

/-- Claim C4 counterexample: under the claim's own hypotheses the
ciphertexts are forced to be equal, the deduplication keeps only one
pair, and `hastad` returns `m = 2` through the `small_e_msg` fallback
with every key's texts unchanged — `plain` is never written, contradicting
the claim's write-back clause. -/
theorem hastad_counterexample_no_write :
    hastad [hastadCexKey 9, hastadCexKey 10, hastadCexKey 11] =
      .ok (some 2, [hastadCexKey 9, hastadCexKey 10, hastadCexKey 11]) ∧
    (hastadCexKey 9).texts = [{ cipher := some 8, plain := Option.none }] ∧
    (2 : ℕ) ^ 3 % 9 = 8 ∧ (2 : ℕ) ^ 3 % 10 = 8 ∧ (2 : ℕ) ^ 3 % 11 = 8 ∧
    Nat.Coprime 9 10 ∧ Nat.Coprime 9 11 ∧ Nat.Coprime 10 11 := by
  refine ⟨?_, rfl, by norm_num, by norm_num, by norm_num, by decide, by decide, by decide⟩
  decide

/-- Witness for the amended C4 theorem at the concrete `e = 3`, `m = 2`
instance. -/
theorem hastad_smallroot_witness :
    hastad [hastadCexKey 9, hastadCexKey 10, hastadCexKey 11] =
      .ok (some 2, [hastadCexKey 9, hastadCexKey 10, hastadCexKey 11]) :=
  hastad_smallroot_returns_m_without_write
    [hastadCexKey 9, hastadCexKey 10, hastadCexKey 11] 3 2
    (by norm_num) rfl (by decide) (by decide) (by decide) (by decide) (by decide)

/-! ## Claim C2: parity-oracle decryption -/

/-- Fermat direction of RSA correctness for one prime factor. -/
theorem pow_ed_modEq_prime (p : ℕ) (hp : p.Prime) (kq : ℕ) (a : ℕ) :
    a ^ (kq * (p - 1) + 1) ≡ a [MOD p] := by
  haveI : Fact p.Prime := ⟨hp⟩
  rw [← ZMod.natCast_eq_natCast_iff]
  push_cast
  by_cases ha : (a : ZMod p) = 0
  · rw [ha]
    rw [zero_pow (by omega)]
  · rw [pow_succ, mul_comm kq (p - 1), pow_mul, ZMod.pow_card_sub_one_eq_one ha,
      one_pow, one_mul]

/-- RSA correctness: with `n = p·q` a product of two distinct primes and
`e·d ≡ 1 (mod (p-1)(q-1))`, every `a` satisfies `a^(ed) ≡ a (mod n)`. -/
theorem rsa_pow_ed (p q e d : ℕ) (hp : p.Prime) (hq : q.Prime) (hpq : p ≠ q)
    (hed : e * d % ((p - 1) * (q - 1)) = 1) (a : ℕ) :
    a ^ (e * d) % (p * q) = a % (p * q) := by
  have hphi : 0 < (p - 1) * (q - 1) := by
    have := hp.two_le; have := hq.two_le
    have h1 : 1 ≤ p - 1 := by omega
    have h2 : 1 ≤ q - 1 := by omega
    exact Nat.mul_pos h1 h2
  obtain ⟨k, hk⟩ : ∃ k, e * d = (p - 1) * (q - 1) * k + 1 := by
    refine ⟨e * d / ((p - 1) * (q - 1)), ?_⟩
    have := Nat.div_add_mod (e * d) ((p - 1) * (q - 1))
    omega
  have hmp : a ^ (e * d) ≡ a [MOD p] := by
    have h1 : e * d = (k * (q - 1)) * (p - 1) + 1 := by rw [hk]; ring
    rw [h1]
    exact pow_ed_modEq_prime p hp (k * (q - 1)) a
  have hmq : a ^ (e * d) ≡ a [MOD q] := by
    have h1 : e * d = (k * (p - 1)) * (q - 1) + 1 := by rw [hk]; ring
    rw [h1]
    exact pow_ed_modEq_prime q hq (k * (p - 1)) a
  have hcop : Nat.Coprime p q := (Nat.coprime_primes hp hq).mpr hpq
  exact (Nat.modEq_and_modEq_iff_modEq_mul hcop).mp ⟨hmp, hmq⟩

/-- Doubling step of the bisection: for odd `n`, doubling `x` doubles the
quotient `x / n` and adds the parity bit of the new remainder. -/
theorem two_mul_div_parity (n x : ℕ) (hn : 0 < n) (hodd : n % 2 = 1) :
    2 * x / n = 2 * (x / n) + 2 * x % n % 2 ∧ 2 * x % n % 2 ≤ 1 := by
  have hdm := Nat.div_add_mod x n
  have hr : x % n < n := Nat.mod_lt x hn
  by_cases hcase : 2 * (x % n) < n
  · have hmul : n * (2 * (x / n)) = 2 * (n * (x / n)) := by ring
    have heq : 2 * x = n * (2 * (x / n)) + 2 * (x % n) := by omega
    have h1 : 2 * x / n = 2 * (x / n) := by
      rw [heq, Nat.mul_add_div hn, Nat.div_eq_of_lt hcase, Nat.add_zero]
    have h2 : 2 * x % n = 2 * (x % n) := by
      rw [heq, Nat.mul_add_mod, Nat.mod_eq_of_lt hcase]
    rw [h1, h2]
    omega
  · have hlt2 : 2 * (x % n) - n < n := by omega
    have hmul : n * (2 * (x / n) + 1) = 2 * (n * (x / n)) + n := by ring
    have heq : 2 * x = n * (2 * (x / n) + 1) + (2 * (x % n) - n) := by omega
    have h1 : 2 * x / n = 2 * (x / n) + 1 := by
      rw [heq, Nat.mul_add_div hn, Nat.div_eq_of_lt hlt2, Nat.add_zero]
    have h2 : 2 * x % n = 2 * (x % n) - n := by
      rw [heq, Nat.mul_add_mod, Nat.mod_eq_of_lt hlt2]
    rw [h1, h2]
    omega

/-- Superadditivity of natural division. -/
theorem div_add_div_le (a b c : ℕ) (hc : 0 < c) : a / c + b / c ≤ (a + b) / c := by
  rw [Nat.le_div_iff_mul_le hc, Nat.add_mul]
  have ha := Nat.div_mul_le_self a c
  have hb := Nat.div_mul_le_self b c
  omega

/-- Once the denominator reaches `n`, the bracket width is at most 1. -/
theorem gap_le_one_of_le (n q D : ℕ) (hD : 0 < D) (hnD : n ≤ D) :
    n * (q + 1) / D ≤ n * q / D + 1 := by
  have h1 : n * (q + 1) = n * q + n := by ring
  calc n * (q + 1) / D = (n * q + n) / D := by rw [h1]
    _ ≤ (n * q + D) / D := Nat.div_le_div_right (by omega)
    _ = n * q / D + 1 := by rw [Nat.add_div_right _ hD]

/-- Conversely, an open bracket forces the denominator below `n`. -/
theorem lt_of_gap_open (n q D : ℕ) (hD : 0 < D)
    (hgap : n * q / D + 1 < n * (q + 1) / D) : D < n := by
  by_contra h
  have := gap_le_one_of_le n q D hD (by omega)
  omega

/-- At loop exit the denominator has nearly caught up with `n`. -/
theorem exit_denominator_bound (n q D : ℕ) (hD : 0 < D) (hn : 0 < n)
    (hexit : ¬ n * q / D + 1 < n * (q + 1) / D) : n < 2 * D := by
  have hsup : n * q / D + n / D ≤ n * (q + 1) / D := by
    have h1 : n * (q + 1) = n * q + n := by ring
    rw [h1]
    exact div_add_div_le (n * q) n D hD
  have hnd : n / D ≤ 1 := by omega
  have := Nat.div_add_mod n D
  have hmod : n % D < D := Nat.mod_lt n hD
  by_contra hcon
  have h2 : 2 ≤ n / D := by
    rw [Nat.le_div_iff_mul_le hD]; omega
  omega

/-- Full characterization of the bisection loop: starting at step `i` in
the invariant state, the loop runs to the first step `T` at which the
bracket has closed and returns the upper bound there, provided the fuel
suffices (`n ≤ 2^(i+fuel)` guarantees the exit is reached). -/
theorem parityGo_inv (O : ℕ → ℕ) (n twoEnc m : ℕ) (hn : 2 ≤ n) (hodd : n % 2 = 1)
    (Inv : ℕ → ℕ → Prop)
    (hO : ∀ i c, Inv i c →
      O (twoEnc * c % n) = 2 ^ (i + 1) * m % n % 2 ∧ Inv (i + 1) (twoEnc * c % n)) :
    ∀ fuel i c, Inv i c → n ≤ 2 ^ (i + fuel) →
      ∃ T, parityGo O n twoEnc fuel c (2 ^ i * m / n) (2 ^ i) i =
            (n * (2 ^ T * m / n + 1) / 2 ^ T, T) ∧
          i ≤ T ∧
          (∀ j, i ≤ j → j < T →
            n * (2 ^ j * m / n) / 2 ^ j + 1 < n * (2 ^ j * m / n + 1) / 2 ^ j) ∧
          ¬ (n * (2 ^ T * m / n) / 2 ^ T + 1 < n * (2 ^ T * m / n + 1) / 2 ^ T) := by
  intro fuel
  induction fuel with
  | zero =>
    intro i c _ hle
    refine ⟨i, rfl, le_refl i, by omega, ?_⟩
    have := gap_le_one_of_le n (2 ^ i * m / n) (2 ^ i) (by positivity) (by simpa using hle)
    omega
  | succ f ih =>
    intro i c hInv hle
    simp only [parityGo]
    by_cases hcond :
        n * (2 ^ i * m / n) / 2 ^ i + 1 < n * (2 ^ i * m / n + 1) / 2 ^ i
    · rw [if_pos hcond]
      obtain ⟨hOc, hInv'⟩ := hO i c hInv
      have hb := two_mul_div_parity n (2 ^ i * m) (by omega) hodd
      have hx : 2 * (2 ^ i * m) = 2 ^ (i + 1) * m := by ring
      rw [hx] at hb
      have hnum : (if O (twoEnc * c % n) = 1 then 2 ^ i * m / n * 2 + 1
          else 2 ^ i * m / n * 2) = 2 ^ (i + 1) * m / n := by
        rw [hOc]
        rcases hb with ⟨hb1, hb2⟩
        by_cases hbit : 2 ^ (i + 1) * m % n % 2 = 1
        · rw [if_pos hbit]; omega
        · rw [if_neg hbit]; omega
      have hden : 2 ^ i * 2 = 2 ^ (i + 1) := by ring
      rw [hnum, hden]
      have hle' : n ≤ 2 ^ (i + 1 + f) := by
        have : i + 1 + f = i + (f + 1) := by omega
        rw [this]; exact hle
      obtain ⟨T, hrun, hiT, hmid, hexit⟩ := ih (i + 1) (twoEnc * c % n) hInv' hle'
      refine ⟨T, hrun, by omega, ?_, hexit⟩
      intro j hij hjT
      rcases Nat.eq_or_lt_of_le hij with rfl | hij'
      · exact hcond
      · exact hmid j (by omega) hjT
    · rw [if_neg hcond]
      exact ⟨i, rfl, le_refl i, by omega, hcond⟩

/-- At the exit step `T` of the bisection, the returned upper bound equals
the true plaintext `m` whenever `1 ≤ m < n` (for odd `n`). -/
theorem parity_exit_value (n m T : ℕ) (hn : 2 ≤ n) (hodd : n % 2 = 1)
    (hm1 : 1 ≤ m) (hm : m < n)
    (hexit : ¬ (n * (2 ^ T * m / n) / 2 ^ T + 1 < n * (2 ^ T * m / n + 1) / 2 ^ T)) :
    n * (2 ^ T * m / n + 1) / 2 ^ T = m := by
  set D := (2:ℕ) ^ T with hD
  have hDpos : 0 < D := by positivity
  set Q := D * m / n with hQ
  have hQle : n * Q ≤ D * m := by
    rw [hQ]
    calc n * (D * m / n) ≤ n * (D * m) / n := Nat.mul_div_le_mul_div_assoc n (D * m) n
      _ = D * m := Nat.mul_div_cancel_left _ (by omega)
  have hQlt : D * m < n * (Q + 1) := by
    have hdm := Nat.div_add_mod (D * m) n
    rw [← hQ] at hdm
    have hmod : D * m % n < n := Nat.mod_lt _ (by omega)
    have hmul : n * (Q + 1) = n * Q + n := by ring
    omega
  have hlo : n * Q / D ≤ m := by
    have h1 : n * Q / D ≤ D * m / D := Nat.div_le_div_right hQle
    rwa [Nat.mul_div_cancel_left m hDpos] at h1
  have hhi : m ≤ n * (Q + 1) / D := by
    rw [Nat.le_div_iff_mul_le hDpos]
    calc m * D = D * m := by ring
      _ ≤ n * (Q + 1) := by omega
  have hstrict : n * Q / D < m := by
    rcases Nat.lt_or_ge (n * Q) (D * m) with hlt | hge
    · rw [Nat.div_lt_iff_lt_mul hDpos]
      calc n * Q < D * m := hlt
        _ = m * D := by ring
    · have heq : n * Q = D * m := by omega
      have hdvd : D ∣ n * Q := ⟨m, heq⟩
      have h2n : Nat.Coprime 2 n := by
        rw [Nat.prime_two.coprime_iff_not_dvd, Nat.two_dvd_ne_zero]; exact hodd
      have hcop : Nat.Coprime D n := by rw [hD]; exact Nat.Coprime.pow_left T h2n
      have hdq : D ∣ Q := (Nat.Coprime.dvd_of_dvd_mul_left hcop) hdvd
      have hQltD : Q < D := by
        rw [hQ, Nat.div_lt_iff_lt_mul (by omega : 0 < n)]
        calc D * m < D * n := mul_lt_mul_of_pos_left hm hDpos
          _ = D * n := rfl
      have hQ0 : Q = 0 := by
        by_contra hne
        have hQpos : 0 < Q := Nat.pos_of_ne_zero hne
        have hle := Nat.le_of_dvd hQpos hdq
        omega
      rw [hQ0] at heq
      simp at heq
      omega
  omega

/-- The number of loop iterations is pinned to `⌈log₂ n⌉` within one. -/
theorem parity_count_bounds (n m T : ℕ) (hn : 2 ≤ n)
    (hmid : ∀ j, 0 ≤ j → j < T →
      n * (2 ^ j * m / n) / 2 ^ j + 1 < n * (2 ^ j * m / n + 1) / 2 ^ j)
    (hexit : ¬ (n * (2 ^ T * m / n) / 2 ^ T + 1 < n * (2 ^ T * m / n + 1) / 2 ^ T)) :
    Nat.clog 2 n - 1 ≤ T ∧ T ≤ Nat.clog 2 n := by
  constructor
  · have hlt : n < 2 * 2 ^ T :=
      exit_denominator_bound n (2 ^ T * m / n) (2 ^ T) (by positivity) (by omega) hexit
    have h2 : n ≤ 2 ^ (T + 1) := by
      have : (2:ℕ) ^ (T + 1) = 2 * 2 ^ T := by ring
      omega
    have := (Nat.le_pow_iff_clog_le (by norm_num)).mp h2
    omega
  · match T with
    | 0 => exact Nat.zero_le _
    | T' + 1 =>
      have hopen := hmid T' (by omega) (by omega)
      have hlt : 2 ^ T' < n :=
        lt_of_gap_open n (2 ^ T' * m / n) (2 ^ T') (by positivity) hopen
      have := (Nat.pow_lt_iff_lt_clog (by norm_num)).mp hlt
      omega

/-- Full correctness of the per-ciphertext bisection under a genuine
LSB-of-decryption oracle: the loop terminates within the fuel, makes
`⌈log₂ n⌉` oracle queries up to one, and returns exactly `m`. -/
theorem parityOnCipher_correct (p q e d m : ℕ)
    (hp : p.Prime) (hq : q.Prime) (hpq : p ≠ q) (hp2 : p ≠ 2) (hq2 : q ≠ 2)
    (hed : e * d % ((p - 1) * (q - 1)) = 1)
    (hm1 : 1 ≤ m) (hm : m < p * q)
    (O : ℕ → ℕ) (hO : ∀ x, O x = powMod x d (p * q) % 2)
    (key : RSAKey) (hkn : key.n = p * q) (hke : key.e = e)
    (fuel : ℕ) (hfuel : Nat.clog 2 (p * q) ≤ fuel) :
    (parityOnCipher O key fuel (powMod m e (p * q))).1 = m ∧
    Nat.clog 2 (p * q) - 1 ≤ (parityOnCipher O key fuel (powMod m e (p * q))).2 ∧
    (parityOnCipher O key fuel (powMod m e (p * q))).2 ≤ Nat.clog 2 (p * q) := by
  have hp2' := hp.two_le
  have hq2' := hq.two_le
  have hn2 : 2 ≤ p * q := by nlinarith
  have hodd : (p * q) % 2 = 1 := by
    have hop : Odd p := hp.odd_of_ne_two hp2
    have hoq : Odd q := hq.odd_of_ne_two hq2
    exact Nat.odd_iff.mp (hop.mul hoq)
  have htwoEnc : key.encrypt 2 = 2 ^ e % (p * q) := by
    rw [RSAKey.encrypt, hkn, hke, powMod_eq]
  have hOspec : ∀ i c, c = (2 ^ i * m) ^ e % (p * q) →
      O (key.encrypt 2 * c % (p * q)) = 2 ^ (i + 1) * m % (p * q) % 2 ∧
      key.encrypt 2 * c % (p * q) = (2 ^ (i + 1) * m) ^ e % (p * q) := by
    intro i c hc
    have hc' : key.encrypt 2 * c % (p * q) = (2 ^ (i + 1) * m) ^ e % (p * q) := by
      rw [htwoEnc, hc, ← Nat.mul_mod, ← mul_pow]
      congr 2
      ring
    refine ⟨?_, hc'⟩
    rw [hO, hc', powMod_eq, Nat.pow_mod, Nat.mod_mod_of_dvd _ (dvd_refl (p * q)),
      ← Nat.pow_mod, ← pow_mul]
    rw [rsa_pow_ed p q e d hp hq hpq hed]
  have hrun := parityGo_inv O (p * q) (key.encrypt 2) m hn2 hodd
    (fun i c => c = (2 ^ i * m) ^ e % (p * q)) hOspec fuel 0 ((2 ^ 0 * m) ^ e % (p * q))
    rfl (by
      have h1 : p * q ≤ 2 ^ Nat.clog 2 (p * q) := Nat.le_pow_clog (by norm_num) (p * q)
      have h2 : (2:ℕ) ^ Nat.clog 2 (p * q) ≤ 2 ^ (0 + fuel) :=
        Nat.pow_le_pow_right (by norm_num) (by omega)
      omega)
  obtain ⟨T, hrun, hT0, hmid, hexit⟩ := hrun
  have hc0 : powMod m e (p * q) = (2 ^ 0 * m) ^ e % (p * q) := by
    rw [powMod_eq]
    norm_num
  have hstart : parityOnCipher O key fuel (powMod m e (p * q)) =
      parityGo O (p * q) (key.encrypt 2) fuel ((2 ^ 0 * m) ^ e % (p * q))
        (2 ^ 0 * m / (p * q)) (2 ^ 0) 0 := by
    rw [parityOnCipher, hkn, hc0]
    congr 1
    norm_num
    exact (Nat.div_eq_of_lt hm).symm
  rw [hstart, hrun]
  have hval := parity_exit_value (p * q) m T hn2 hodd hm1 hm hexit
  have hcnt := parity_count_bounds (p * q) m T hn2 (fun j h0 hj => hmid j (by omega) hj)
    hexit
  exact ⟨hval, hcnt.1, hcnt.2⟩

/-- Claim C2 amended (the original claim fails at `m = 0`): for every
valid RSA private key `(n, e, d)` with `n = p·q` a product of two distinct
odd primes and `e·d ≡ 1 (mod (p-1)(q-1))`, and every plaintext
`1 ≤ m < n`, running `parity` on a key whose texts hold one pair with
`cipher = m^e mod n` and no `plain`, with the oracle returning the least
significant bit of the decryption of its argument, terminates within
`⌈log₂ n⌉` loop iterations, issues `⌈log₂ n⌉` oracle queries up to one,
returns the final upper bound of its bounding interval as the recovered
plaintext, writes that value into the pair's `plain` field — and that
value equals `m`. -/
theorem parity_recovers_plaintext (p q e d m : ℕ)
    (hp : p.Prime) (hq : q.Prime) (hpq : p ≠ q) (hp2 : p ≠ 2) (hq2 : q ≠ 2)
    (hed : e * d % ((p - 1) * (q - 1)) = 1)
    (hm1 : 1 ≤ m) (hm : m < p * q)
    (O : ℕ → ℕ) (hO : ∀ x, O x = powMod x d (p * q) % 2)
    (key : RSAKey) (hkn : key.n = p * q) (hke : key.e = e)
    (htexts : key.texts = [{ cipher := some (powMod m e (p * q)) }])
    (fuel : ℕ) (hfuel : Nat.clog 2 (p * q) ≤ fuel) :
    parity O key fuel =
      ([(0, m)],
       { key with texts :=
          [{ cipher := some (powMod m e (p * q)), plain := some m }] }) ∧
    Nat.clog 2 (p * q) - 1 ≤ (parityOnCipher O key fuel (powMod m e (p * q))).2 ∧
    (parityOnCipher O key fuel (powMod m e (p * q))).2 ≤ Nat.clog 2 (p * q) := by
  obtain ⟨hval, hlb, hub⟩ := parityOnCipher_correct p q e d m hp hq hpq hp2 hq2 hed
    hm1 hm O hO key hkn hke fuel hfuel
  refine ⟨?_, hlb, hub⟩
  rw [parity, htexts]
  have henum : ([{ cipher := some (powMod m e (p * q)) }] : List TextPair).enum =
      [(0, { cipher := some (powMod m e (p * q)) })] := rfl
  rw [henum, List.foldl_cons, List.foldl_nil]
  have hstep : parityStep O key fuel ([], [])
      (0, { cipher := some (powMod m e (p * q)) }) =
      ([(0, m)], [{ cipher := some (powMod m e (p * q)), plain := some m }]) := by
    rw [parityStep]
    simp only [hval]
    rfl
  rw [hstep]

/-- Claim C2 counterexample: for the valid key `(n, e, d) = (15, 3, 3)`
and plaintext `m = 0` (allowed by the claim's `0 ≤ m < n`), the parity
attack returns the upper bound `1`, not `m = 0`: the recovered and
written value differs from the plaintext. -/
theorem parity_counterexample_m_zero :
    Nat.Prime 3 ∧ Nat.Prime 5 ∧ (3 * 3) % ((3 - 1) * (5 - 1)) = 1 ∧
    powMod 0 3 15 = 0 ∧
    parity parityOracle15 (parityKey15 0) 10 =
      ([(0, 1)], { parityKey15 0 with
        texts := [{ cipher := some 0, plain := some 1 }] }) ∧
    (1 : ℕ) ≠ 0 := by
  refine ⟨by norm_num, by norm_num, by norm_num, rfl, ?_, by norm_num⟩
  decide

/-- Witness for the amended C2 theorem: `(p, q, e, d, m) = (3, 5, 3, 3, 7)`
with fuel `⌈log₂ 15⌉ = 4`. -/
theorem parity_recovers_plaintext_witness :
    parity parityOracle15 (parityKey15 (powMod 7 3 15)) 4 =
      ([(0, 7)], { parityKey15 (powMod 7 3 15) with texts :=
        [{ cipher := some (powMod 7 3 15), plain := some 7 }] }) ∧
    Nat.clog 2 (3 * 5) - 1 ≤
      (parityOnCipher parityOracle15 (parityKey15 (powMod 7 3 15)) 4
        (powMod 7 3 (3 * 5))).2 ∧
    (parityOnCipher parityOracle15 (parityKey15 (powMod 7 3 15)) 4
        (powMod 7 3 (3 * 5))).2 ≤ Nat.clog 2 (3 * 5) := by
  have h := parity_recovers_plaintext 3 5 3 3 7 (by norm_num) (by norm_num)
    (by norm_num) (by norm_num) (by norm_num) (by norm_num) (by norm_num)
    (by norm_num) parityOracle15 (fun x => rfl) (parityKey15 (powMod 7 3 15))
    rfl rfl rfl 4 ((Nat.le_pow_iff_clog_le (by norm_num)).mp (by norm_num))
  exact h


/-! ## Claim C5: Bleichenbacher suffix forgery offset range -/

theorem findSome_guard {α β : Type} (p : α → Bool) (f : α → β) (l : List α) :
    (l.findSome? fun a => if p a then some (f a) else Option.none) =
      (l.find? p).map f := by
  induction l with
  | nil => rfl
  | cons x xs ih =>
    by_cases h : p x <;> simp [List.findSome?_cons, List.find?_cons, h, ih]

theorem RSAKey.set_texts_self (k : RSAKey) (ts : List TextPair) (h : k.texts = ts) :
    { k with texts := ts } = k := by
  cases k
  cases h
  rfl

theorem bleichSuffixOne_find (H : Bytes → Bytes) (asn1 : Bytes) (key : RSAKey)
    (m : ℕ) :
    bleichSuffixOne H asn1 key m =
      (bleichDeltas.find? fun delta =>
          bleichAccept key.n key.e key.size (bleichLeadBlock H asn1 m)
            (b2i (bleichLeadBlock H asn1 m ++
              List.replicate (key.size / 8 - (bleichLeadBlock H asn1 m).length) 0))
            delta).map
        (fun delta =>
          ((iroot (b2i (bleichLeadBlock H asn1 m ++
            List.replicate (key.size / 8 - (bleichLeadBlock H asn1 m).length) 0))
            key.e).1 : ℤ) + delta) := by
  simp only [bleichSuffixOne]
  exact findSome_guard _ _ _

theorem bleichSuffixForge_single (H : Bytes → Bytes) (hashName : String)
    (asn1 : Bytes) (hasn : hashAsn1 hashName = some asn1) (key : RSAKey) (m : ℕ)
    (htexts : key.texts = [{ cipher := Option.none, plain := some m }]) :
    bleichSuffixForge H hashName key =
      match bleichSuffixOne H asn1 key m with
      | some s => .ok ([(0, s)], { key with texts :=
          [{ cipher := some s.toNat, plain := some m }] })
      | Option.none => .ok ([], key) := by
  rw [bleichSuffixForge, hasn, htexts]
  cases h : bleichSuffixOne H asn1 key m with
  | none =>
    simp only [List.enum, List.foldl, Bind.bind, Except.bind, h]
    rw [← htexts]
    rfl
  | some s =>
    simp only [List.enum, List.foldl, Bind.bind, Except.bind, h]
    rfl


/-- Claim C5 (corrected): the suffix variant tries the offsets `δ ∈ [-5, 4]`
(Python `range(-5, 5)`), not `[-5, 5]` as claimed; it accepts — returns
and stores into the pair's `cipher` field — the first candidate
`iroot(pt, e) + δ` whose `e`-th power mod `n`, encoded big-endian in
`size/8` bytes, begins with the built leading block. -/
theorem bleich_suffix_tries_deltas (H : Bytes → Bytes) (hashName : String)
    (asn1 : Bytes) (hasn : hashAsn1 hashName = some asn1) (key : RSAKey) (m : ℕ)
    (htexts : key.texts = [{ cipher := Option.none, plain := some m }]) :
    bleichDeltas = [-5, -4, -3, -2, -1, 0, 1, 2, 3, 4] ∧
    bleichSuffixOne H asn1 key m =
      (bleichDeltas.find? fun delta =>
          bleichAccept key.n key.e key.size (bleichLeadBlock H asn1 m)
            (b2i (bleichLeadBlock H asn1 m ++
              List.replicate (key.size / 8 - (bleichLeadBlock H asn1 m).length) 0))
            delta).map
        (fun delta =>
          ((iroot (b2i (bleichLeadBlock H asn1 m ++
            List.replicate (key.size / 8 - (bleichLeadBlock H asn1 m).length) 0))
            key.e).1 : ℤ) + delta) ∧
    bleichSuffixForge H hashName key =
      match bleichSuffixOne H asn1 key m with
      | some s => .ok ([(0, s)], { key with texts :=
          [{ cipher := some s.toNat, plain := some m }] })
      | Option.none => .ok ([], key) :=
  ⟨rfl, bleichSuffixOne_find H asn1 key m,
    bleichSuffixForge_single H hashName asn1 hasn key m htexts⟩

/-- Claim C5 counterexample: a key (`n = 59⁶⁴ - pt`, `e = 64`, SHA-1, a
hash function returning 20 zero bytes) for which the offset `δ = 5` is
accepted by the acceptance test but every offset the code actually tries
(`range(-5, 5) = [-5, 4]`) is rejected, so the code stores nothing and
returns no signature, while under the claimed range `[-5, 5]` the search
would have succeeded. -/
theorem bleich_suffix_misses_delta_five :
    hashAsn1 "sha1" = some bleichCexAsn1 ∧
    bleichCexPtInt = b2i (bleichLeadBlock bleichCexH bleichCexAsn1 5 ++
      List.replicate (bleichCexKey.size / 8 -
        (bleichLeadBlock bleichCexH bleichCexAsn1 5).length) 0) ∧
    bleichAccept bleichCexKey.n bleichCexKey.e bleichCexKey.size
      (bleichLeadBlock bleichCexH bleichCexAsn1 5) bleichCexPtInt 5 = true ∧
    (∀ delta ∈ bleichDeltas,
      bleichAccept bleichCexKey.n bleichCexKey.e bleichCexKey.size
        (bleichLeadBlock bleichCexH bleichCexAsn1 5) bleichCexPtInt delta = false) ∧
    bleichSuffixOne bleichCexH bleichCexAsn1 bleichCexKey 5 = Option.none ∧
    bleichSuffixForge bleichCexH "sha1" bleichCexKey = .ok ([], bleichCexKey) := by
  refine ⟨rfl, rfl, rfl, by decide, rfl, ?_⟩
  rw [bleichSuffixForge_single bleichCexH "sha1" bleichCexAsn1 rfl bleichCexKey 5 rfl]
  rfl

/-- Witness for the amended C5 theorem at a small concrete key
(`n = 3233`, `e = 17`, one pair with plaintext `7` and no ciphertext). -/
theorem bleich_suffix_tries_deltas_witness :
    bleichDeltas = [-5, -4, -3, -2, -1, 0, 1, 2, 3, 4] ∧
    bleichSuffixOne bleichCexH bleichCexAsn1 bleichWitKey 7 =
      (bleichDeltas.find? fun delta =>
          bleichAccept bleichWitKey.n bleichWitKey.e bleichWitKey.size
            (bleichLeadBlock bleichCexH bleichCexAsn1 7)
            (b2i (bleichLeadBlock bleichCexH bleichCexAsn1 7 ++
              List.replicate (bleichWitKey.size / 8 -
                (bleichLeadBlock bleichCexH bleichCexAsn1 7).length) 0))
            delta).map
        (fun delta =>
          ((iroot (b2i (bleichLeadBlock bleichCexH bleichCexAsn1 7 ++
            List.replicate (bleichWitKey.size / 8 -
              (bleichLeadBlock bleichCexH bleichCexAsn1 7).length) 0))
            bleichWitKey.e).1 : ℤ) + delta) ∧
    bleichSuffixForge bleichCexH "sha1" bleichWitKey =
      match bleichSuffixOne bleichCexH bleichCexAsn1 bleichWitKey 7 with
      | some s => .ok ([(0, s)], { bleichWitKey with texts :=
          [{ cipher := some s.toNat, plain := some 7 }] })
      | Option.none => .ok ([], bleichWitKey) :=
  bleich_suffix_tries_deltas bleichCexH "sha1" bleichCexAsn1 rfl bleichWitKey 7 rfl


/-! ## Claim C6: the first-position false-positive re-query -/

/-- Claim C6 (corrected): in the non-`is_correct` path, when the oracle
accepts a guess at the first position of a block (`position = B - 1`),
the engine re-queries after overwriting the byte at position `B - 2` of
the modified block with the constant `'A' = 0x41` — not with "a value
distinct from that byte's current value" — and accepts the guess exactly
when the second query returns true, continuing the search over the
remaining guesses when it returns false. -/
theorem guessLoop_firstpos_requery {σ : Type} (O : CBC.Oracle σ) (B : ℕ)
    (pre pm target : Bytes) (skipByte g : ℕ) (gs : List ℕ) (resp r1 r2 : σ)
    (c2 : Bool)
    (h1 : O ((pre ++ pm.set (B - 1) g ++ target).drop B)
            ((pre ++ pm.set (B - 1) g ++ target).take B) resp = (true, r1))
    (h2 : O ((CBC.flipQueryPayload B (pre ++ pm.set (B - 1) g ++ target)).drop B)
            ((CBC.flipQueryPayload B (pre ++ pm.set (B - 1) g ++ target)).take B) r1
          = (c2, r2)) :
    CBC.guessLoop O B pre pm target skipByte (B - 1) false (g :: gs) resp =
      (if c2 then (some g, r2)
       else CBC.guessLoop O B pre pm target skipByte (B - 1) false gs r2) ∧
    CBC.flipQueryPayload B (pre ++ pm.set (B - 1) g ++ target) =
      (pre ++ pm.set (B - 1) g ++ target).set
        ((pre ++ pm.set (B - 1) g ++ target).length - B - 2) 0x41 := by
  refine ⟨?_, rfl⟩
  rw [CBC.guessLoop]
  simp only [List.take_append_drop, h1, h2, if_pos rfl]
  cases c2 <;> simp

/-- Witness for the amended C6 theorem: an always-true counting oracle at
`B = 8`, an all-`'A'` working block and guess `0`: the loop issues the
re-query and accepts after two oracle calls. -/
theorem guessLoop_firstpos_requery_witness :
    CBC.guessLoop c6CountOracle 8 [] (List.replicate 8 0x41)
        (List.replicate 8 0x41) 0 (8 - 1) false [0] 0 =
      (if true then (some 0, 2)
       else CBC.guessLoop c6CountOracle 8 [] (List.replicate 8 0x41)
         (List.replicate 8 0x41) 0 (8 - 1) false [] 2) ∧
    CBC.flipQueryPayload 8
        ([] ++ (List.replicate 8 0x41).set (8 - 1) 0 ++ List.replicate 8 0x41) =
      ([] ++ (List.replicate 8 0x41).set (8 - 1) 0 ++ List.replicate 8 0x41).set
        (([] ++ (List.replicate 8 0x41).set (8 - 1) 0 ++
          List.replicate 8 0x41).length - 8 - 2) 0x41 := by
  have h := guessLoop_firstpos_requery c6CountOracle 8 [] (List.replicate 8 0x41)
    (List.replicate 8 0x41) 0 0 [] 0 1 2 true rfl rfl
  exact h

/-- Claim C6 counterexample: running `decrypt` (`is_correct = False`,
block size 8) against a genuine padding oracle for the identity block
cipher on the ciphertext `'A' * 16`, with every oracle query logged,
produces two successive queries that are bytewise identical: the working
block already carries `'A'` at position `B - 2`, so the "changed"
re-query payload equals the accepted query's payload — no byte was set
to a distinct value. -/
theorem flip_requery_repeats_query :
    CBC.consistentOracle (fun b => b) 8 c6Oracle ∧
    c6Run.1 = .ok (List.replicate 8 0) ∧
    c6Run.2.length = 557 ∧
    c6Run.2.getD 491 ([], []) =
      (List.replicate 8 0x41, (List.replicate 8 0x41).set 7 0x40) ∧
    c6Run.2.getD 492 ([], []) = c6Run.2.getD 491 ([], []) ∧
    CBC.flipQueryPayload 8
        ((List.replicate 8 0x41).set 7 0x40 ++ List.replicate 8 0x41) =
      (List.replicate 8 0x41).set 7 0x40 ++ List.replicate 8 0x41 := by
  exact ⟨fun p iv s => rfl, rfl, rfl, rfl, rfl, rfl⟩


/-! ## Claim C7: the error paths of `decrypt` -/

/-- Claim C7 (confirmed): `decrypt` fails with `invalidLength` whenever the
ciphertext length is not a multiple of the block size; when all 256
guesses at one position are rejected it raises `oracleExhausted` if
`is_correct` is false, whereas with `is_correct` true it assumes padding
`0x01`, xors the last byte of the working block with `0x01 ⊕ 0x02`
(toward target padding `0x02`), replaces the plaintext accumulator by
the single byte `0x01` and clears `is_correct`; and the position step
fails with `badPadding` exactly when the padding value `dc` discovered
under `is_correct = true` is `0` or greater than `B`. -/
theorem decrypt_failure_modes {σ : Type} :
    (∀ (O : CBC.Oracle σ) (B : ℕ) (ct : Bytes) (iv : Option Bytes) (isC : Bool)
        (amount : ℕ) (kp : Option Bytes) (s₀ : σ), ct.length % B ≠ 0 →
      CBC.decrypt O B ct iv isC amount kp s₀ = (.error .invalidLength, s₀)) ∧
    (∀ (O : CBC.Oracle σ) (B : ℕ) (pre target pm pl : Bytes) (skipByte : ℕ)
        (fuel p : ℕ) (resp resp1 : σ),
      CBC.guessLoop O B pre pm target skipByte p false (List.range 256) resp =
        (Option.none, resp1) →
      CBC.posLoop O B pre target skipByte (fuel + 1) (p + 1) pm pl false resp =
        (.error .oracleExhausted, resp1)) ∧
    (∀ (O : CBC.Oracle σ) (B : ℕ) (pre target pm pl : Bytes) (skipByte : ℕ)
        (fuel p : ℕ) (resp resp1 : σ),
      CBC.guessLoop O B pre pm target skipByte p true (List.range 256) resp =
        (Option.none, resp1) →
      CBC.posLoop O B pre target skipByte (fuel + 1) (p + 1) pm pl true resp =
        CBC.posLoop O B pre target skipByte fuel p
          (pm.take p ++ xor3 (pm.drop p) [1] [2]) [1] false resp1) ∧
    (∀ (O : CBC.Oracle σ) (B : ℕ) (pre target pm pl : Bytes) (skipByte : ℕ)
        (fuel p g : ℕ) (resp resp1 : σ),
      CBC.guessLoop O B pre pm target skipByte p true (List.range 256) resp =
        (some g, resp1) →
      ((pm.getD p 0 ^^^ g ^^^ (B - p) = 0 ∨ B < pm.getD p 0 ^^^ g ^^^ (B - p) →
        CBC.posLoop O B pre target skipByte (fuel + 1) (p + 1) pm pl true resp =
          (.error .badPadding, resp1)) ∧
       (¬(pm.getD p 0 ^^^ g ^^^ (B - p) = 0 ∨ B < pm.getD p 0 ^^^ g ^^^ (B - p)) →
        CBC.posLoop O B pre target skipByte (fuel + 1) (p + 1) pm pl true resp =
          CBC.posLoop O B pre target skipByte fuel
            (p + 1 - (pm.getD p 0 ^^^ g ^^^ (B - p)))
            (pm.take (pm.length - (pm.getD p 0 ^^^ g ^^^ (B - p))) ++
              xor3 (pm.drop (pm.length - (pm.getD p 0 ^^^ g ^^^ (B - p))))
                [pm.getD p 0 ^^^ g ^^^ (B - p)]
                [(pm.getD p 0 ^^^ g ^^^ (B - p)) + 1])
            (List.replicate (pm.getD p 0 ^^^ g ^^^ (B - p))
              (pm.getD p 0 ^^^ g ^^^ (B - p)))
            false resp1))) := by
  refine ⟨?_, ?_, ?_, ?_⟩
  · intro O B ct iv isC amount kp s₀ h
    rw [CBC.decrypt, if_pos h]
  · intro O B pre target pm pl skipByte fuel p resp resp1 hg
    rw [CBC.posLoop]
    simp only [Nat.add_sub_cancel, hg]
    · simp
    · omega
  · intro O B pre target pm pl skipByte fuel p resp resp1 hg
    rw [CBC.posLoop]
    simp only [Nat.add_sub_cancel, hg]
    · simp
    · omega
  · intro O B pre target pm pl skipByte fuel p g resp resp1 hg
    constructor
    · intro hbad
      rw [CBC.posLoop]
      · simp only [Nat.add_sub_cancel, hg, eq_self_iff_true, ite_true]
        rw [if_pos hbad]
      · omega
    · intro hok
      rw [CBC.posLoop]
      · simp only [Nat.add_sub_cancel, hg, eq_self_iff_true, ite_true]
        rw [if_neg hok]
      · omega


/-! ## Claim C8: `common_primes` and the shared text pairs -/

/-- Claim C8 (corrected): for two keys whose moduli share a prime
`p = gcd(n₁, n₂) ≠ 1`, `common_primes` returns one newly derived private
key per source, with `d = e⁻¹ mod (p-1)(n/p-1)` and the identifier
suffixed `-private` — but `texts[:]` is a shallow copy: the returned
keys carry the very addresses of their source keys' text pairs, so in
every store state a returned key and its source see the same pairs (a
deep copy would have made later mutations through a returned key
invisible to the source; here they are shared). -/
theorem common_primes_shallow_copy (rng : ℕ → ℕ) (fuel : ℕ) (k₁ k₂ : RSAKeyRef)
    (hg : Nat.gcd k₁.n k₂.n ≠ 1) (d₁ d₂ : ℕ)
    (h₁ : invmod k₁.e ((Nat.gcd k₁.n k₂.n - 1) * (k₁.n / Nat.gcd k₁.n k₂.n - 1)) =
      some d₁)
    (h₂ : invmod k₂.e ((Nat.gcd k₁.n k₂.n - 1) * (k₂.n / Nat.gcd k₁.n k₂.n - 1)) =
      some d₂)
    (v₁ : ℕ × ℕ) (hf₁ : factors_from_d rng k₁.n k₁.e d₁ fuel 0 = some v₁)
    (v₂ : ℕ × ℕ) (hf₂ : factors_from_d rng k₂.n k₂.e d₂ fuel 0 = some v₂) :
    common_primes rng fuel [k₁, k₂] =
      .ok [commonPrimesKey k₁ d₁, commonPrimesKey k₂ d₂] ∧
    (commonPrimesKey k₁ d₁).d = some d₁ ∧
    (commonPrimesKey k₁ d₁).identifier = k₁.identifier ++ "-private" ∧
    (commonPrimesKey k₁ d₁).texts = k₁.texts ∧
    (commonPrimesKey k₂ d₂).texts = k₂.texts ∧
    (∀ st : Store,
      keyViewTexts st (commonPrimesKey k₁ d₁) = keyViewTexts st k₁ ∧
      keyViewTexts st (commonPrimesKey k₂ d₂) = keyViewTexts st k₂) := by
  refine ⟨?_, rfl, rfl, rfl, rfl, fun st => ⟨rfl, rfl⟩⟩
  rw [common_primes]
  simp only [pairsComb, List.map, List.foldlM, commonPrimesDerive, h₁, h₂, hf₁,
    hf₂, if_pos hg, List.append_nil, List.nil_append, Bind.bind, Except.bind,
    commonPrimesKey]
  rfl

/-- Claim C8 counterexample: keys `n₁ = 15`, `n₂ = 21` (common prime 3,
`e = 5`, `d₁ = d₂ = 5`): `common_primes` succeeds and the first returned
key holds the same pair address (`0`) as its source; writing
`plain := 99` through that address — a mutation of the returned key's
text pair — changes the source key's view of its texts, which a deep
copy would have left unchanged. -/
theorem common_primes_mutation_visible :
    common_primes (fun _ => 0) 50 [c8K1, c8K2] =
      .ok [commonPrimesKey c8K1 5, commonPrimesKey c8K2 5] ∧
    (commonPrimesKey c8K1 5).texts = c8K1.texts ∧
    keyViewTexts c8Store c8K1 = [{ cipher := some 11, plain := Option.none }] ∧
    keyViewTexts (storeSetPlain c8Store ((commonPrimesKey c8K1 5).texts.getD 0 999) 99)
        c8K1 = [{ cipher := some 11, plain := some 99 }] ∧
    keyViewTexts (storeSetPlain c8Store ((commonPrimesKey c8K1 5).texts.getD 0 999) 99)
        c8K1 ≠ keyViewTexts c8Store c8K1 := by
  exact ⟨rfl, rfl, rfl, rfl, by decide⟩

/-- Witness for the amended C8 theorem at the concrete pair of keys
`n₁ = 15`, `n₂ = 21`, `e = 5` (common prime `3`, `d₁ = d₂ = 5`). -/
theorem common_primes_shallow_copy_witness :
    common_primes (fun _ => 0) 50 [c8K1, c8K2] =
      .ok [commonPrimesKey c8K1 5, commonPrimesKey c8K2 5] ∧
    (commonPrimesKey c8K1 5).d = some 5 ∧
    (commonPrimesKey c8K1 5).identifier = c8K1.identifier ++ "-private" ∧
    (commonPrimesKey c8K1 5).texts = c8K1.texts ∧
    (commonPrimesKey c8K2 5).texts = c8K2.texts ∧
    (∀ st : Store,
      keyViewTexts st (commonPrimesKey c8K1 5) = keyViewTexts st c8K1 ∧
      keyViewTexts st (commonPrimesKey c8K2 5) = keyViewTexts st c8K2) := by
  have h := common_primes_shallow_copy (fun _ => 0) 50 c8K1 c8K2 (by decide) 5 5
    rfl rfl (3, 5) rfl (7, 3) rfl
  exact h

/-! C1 stage 1: pointwise description of the xor helpers -/

theorem range_map_getD {α : Type} (f : ℕ → α) (d : α) (n j : ℕ) (hj : j < n) :
    ((List.range n).map f).getD j d = f j := by
  rw [List.getD_eq_getElem?_getD, List.getElem?_map, List.getElem?_range hj]
  rfl

theorem map_getD_range_self (l : List ℕ) (n : ℕ) (h : l.length = n) :
    (List.range n).map (fun j => l.getD j 0) = l := by
  apply List.ext_getElem
  · simp [h]
  · intro i h1 h2
    simp only [List.getElem_map, List.getElem_range]
    rw [List.getD_eq_getElem?_getD, List.getElem?_eq_getElem h2]
    rfl

theorem cycTo_eq (a : Bytes) (n : ℕ) :
    cycTo a n = (List.range n).map (fun j => a.getD (j % a.length) 0) := rfl

theorem xorV_eq (args : List Bytes) :
    xorV args = (List.range ((args.map List.length).foldr max 0)).map
      (fun j => args.foldl (fun v a => v ^^^ a.getD (j % a.length) 0) 0) := by
  rw [xorV]
  generalize (args.map List.length).foldr max 0 = n
  have base : List.replicate n 0 = (List.range n).map (fun _ => (0 : ℕ)) := by
    simp [List.map_const]
  have hgen : ∀ (as : List Bytes) (F : ℕ → ℕ),
      as.foldl (fun acc a => acc.zipWith Nat.xor (cycTo a n)) ((List.range n).map F) =
        (List.range n).map
          (fun j => as.foldl (fun v a => v ^^^ a.getD (j % a.length) 0) (F j)) := by
    intro as
    induction as with
    | nil => intro F; simp
    | cons a as ih =>
      intro F
      rw [List.foldl_cons, cycTo_eq]
      have hz : (((List.range n).map F).zipWith Nat.xor
          ((List.range n).map (fun j => a.getD (j % a.length) 0))) =
          (List.range n).map (fun j => F j ^^^ a.getD (j % a.length) 0) := by
        rw [List.zipWith_map_left, List.zipWith_map_right, List.zipWith_same]
        rfl
      rw [hz, ih]
      rfl
  rw [base, hgen]

theorem xor2_eq (a b : Bytes) (h : b.length = a.length) :
    xor2 a b = (List.range a.length).map (fun j => a.getD j 0 ^^^ b.getD j 0) := by
  rw [xor2, xorV_eq]
  have hn : (([a, b].map List.length).foldr max 0) = a.length := by
    simp [h]
  rw [hn]
  apply List.map_congr_left
  intro j hj
  rw [List.mem_range] at hj
  by_cases ha : a.length = 0
  · omega
  · simp only [List.foldl_cons, List.foldl_nil]
    rw [Nat.mod_eq_of_lt (by omega), h, Nat.mod_eq_of_lt (by omega)]
    simp [Nat.zero_xor]

theorem xor3_eq (a b c : Bytes) (hb : b.length = a.length) (hc : c.length = a.length) :
    xor3 a b c =
      (List.range a.length).map (fun j => a.getD j 0 ^^^ b.getD j 0 ^^^ c.getD j 0) := by
  rw [xor3, xorV_eq]
  have hn : (([a, b, c].map List.length).foldr max 0) = a.length := by
    simp [hb, hc]
  rw [hn]
  apply List.map_congr_left
  intro j hj
  rw [List.mem_range] at hj
  by_cases ha : a.length = 0
  · omega
  · simp only [List.foldl_cons, List.foldl_nil]
    rw [Nat.mod_eq_of_lt (by omega), hb, Nat.mod_eq_of_lt (by omega),
      hc, Nat.mod_eq_of_lt (by omega)]
    simp [Nat.zero_xor]

theorem xor3_bcast (a : Bytes) (x y : ℕ) (ha : 1 ≤ a.length) :
    xor3 a [x] [y] =
      (List.range a.length).map (fun j => a.getD j 0 ^^^ x ^^^ y) := by
  rw [xor3, xorV_eq]
  have hn : (([a, [x], [y]].map List.length).foldr max 0) = a.length := by
    simp
    omega
  rw [hn]
  apply List.map_congr_left
  intro j hj
  rw [List.mem_range] at hj
  simp only [List.foldl_cons, List.foldl_nil, List.length_singleton, Nat.mod_one]
  rw [Nat.mod_eq_of_lt (by omega)]
  simp [Nat.zero_xor]

theorem xor2_length (a b : Bytes) (h : b.length = a.length) :
    (xor2 a b).length = a.length := by
  rw [xor2_eq a b h, List.length_map, List.length_range]

theorem xor2_getD (a b : Bytes) (h : b.length = a.length) (j : ℕ) (hj : j < a.length) :
    (xor2 a b).getD j 0 = a.getD j 0 ^^^ b.getD j 0 := by
  rw [xor2_eq a b h, range_map_getD _ _ _ _ hj]

theorem list_set_of_getD (l : List ℕ) : ∀ (i c : ℕ), l.getD i 0 = c → c ≠ 0 → l.set i c = l := by
  induction l with
  | nil => intro i c h hc; simp
  | cons x xs ih =>
    intro i c h hc
    cases i with
    | zero => simp_all [List.getD]
    | succ i =>
      simp only [List.set_cons_succ, List.cons.injEq, true_and]
      exact ih i c (by simpa [List.getD] using h) hc

theorem getD_append_off {α : Type} (xs ys : List α) (i : ℕ) (d : α) :
    (xs ++ ys).getD (xs.length + i) d = ys.getD i d := by
  rw [List.getD_eq_getElem?_getD, List.getElem?_append_right (by omega),
    Nat.add_sub_cancel_left, ← List.getD_eq_getElem?_getD]

theorem getD_append_left {α : Type} (xs ys : List α) (i : ℕ) (d : α) (h : i < xs.length) :
    (xs ++ ys).getD i d = xs.getD i d := by
  rw [List.getD_eq_getElem?_getD, List.getElem?_append, if_pos h,
    ← List.getD_eq_getElem?_getD]

/-! C1 stage 2: chunk decomposition and the value of one oracle query -/

theorem chunksGo_cons_succ (B f : ℕ) (x : ℕ) (xs : Bytes) :
    chunksGo B (f + 1) (x :: xs) = (x :: xs).take B :: chunksGo B f ((x :: xs).drop B) :=
  rfl

theorem chunksGo_eq_chunks (B : ℕ) (hB : 0 < B) :
    ∀ f (s : Bytes), s.length ≤ f → chunksGo B f s = chunks s B := by
  intro f
  induction f using Nat.strong_induction_on with
  | _ f ih =>
    intro s hs
    match f, s with
    | 0, s =>
      have : s = [] := by
        cases s with
        | nil => rfl
        | cons x xs => simp at hs
      subst this
      rfl
    | f + 1, [] => rfl
    | f + 1, x :: xs =>
      rw [chunksGo_cons_succ]
      rw [chunks]
      have hxl : (x :: xs).length = xs.length + 1 := by simp
      rw [hxl, chunksGo_cons_succ]
      have hd : ((x :: xs).drop B).length ≤ xs.length := by
        simp [List.length_drop]
        omega
      rw [ih f (by omega) _ (le_trans hd (by simp at hs; omega)),
        ih xs.length (by omega) _ hd]

theorem chunks_cons (B : ℕ) (hB : 0 < B) (b s : Bytes) (hb : b.length = B) :
    chunks (b ++ s) B = b :: chunks s B := by
  cases b with
  | nil => simp at hb; omega
  | cons y b =>
    have ht : ((y :: b) ++ s).take B = y :: b := by
      rw [← hb]
      exact List.take_left _ _
    have hd : ((y :: b) ++ s).drop B = s := by
      rw [← hb]
      exact List.drop_left _ _
    have h1 : ((y :: b) ++ s).length = (b ++ s).length + 1 := by simp
    have hstep : chunksGo B ((b ++ s).length + 1) ((y :: b) ++ s) =
        ((y :: b) ++ s).take B :: chunksGo B (b ++ s).length (((y :: b) ++ s).drop B) :=
      rfl
    rw [chunks, h1, hstep, ht, hd]
    rw [chunksGo_eq_chunks B hB _ s (by simp)]

theorem join_length (B : ℕ) :
    ∀ (bs : List Bytes), (∀ b ∈ bs, b.length = B) →
      (bs.foldr (· ++ ·) []).length = bs.length * B := by
  intro bs
  induction bs with
  | nil => intro _; simp
  | cons b bs ih =>
    intro h
    simp only [List.foldr_cons, List.length_append, List.length_cons]
    rw [ih (fun x hx => h x (by simp [hx])), h b (by simp)]
    ring

theorem chunks_join (B : ℕ) (hB : 0 < B) :
    ∀ (bs : List Bytes), (∀ b ∈ bs, b.length = B) →
      chunks (bs.foldr (· ++ ·) []) B = bs := by
  intro bs
  induction bs with
  | nil => intro _; rfl
  | cons b bs ih =>
    intro h
    simp only [List.foldr_cons]
    rw [chunks_cons B hB _ _ (h b (by simp)), ih (fun x hx => h x (by simp [hx]))]

theorem foldr_append_init (as : List Bytes) :
    ∀ (X : Bytes), as.foldr (· ++ ·) X = as.foldr (· ++ ·) [] ++ X := by
  induction as with
  | nil => intro X; simp
  | cons a as ih => intro X; simp only [List.foldr_cons, ih X, List.append_assoc]

theorem drop_append_off : ∀ (xs : List ℕ) (ys : List ℕ) (i : ℕ),
    (xs ++ ys).drop (xs.length + i) = ys.drop i := by
  intro xs
  induction xs with
  | nil => intro ys i; simp
  | cons x xs ih =>
    intro ys i
    have h1 : (x :: xs).length + i = (xs.length + i) + 1 := by
      simp
      omega
    rw [h1, List.cons_append, List.drop_succ_cons, ih]

theorem cbcDecGo_cons (D : Bytes → Bytes) (prev c : Bytes) (cs : List Bytes) :
    CBC.cbcDecGo D prev (c :: cs) = xor2 (D c) prev ++ CBC.cbcDecGo D c cs :=
  rfl

theorem cbcDecGo_two (D : Bytes → Bytes) (m t : Bytes) :
    ∀ (bs : List Bytes) (prev : Bytes),
      CBC.cbcDecGo D prev (bs ++ [m, t]) =
        CBC.cbcDecGo D prev (bs ++ [m]) ++ xor2 (D t) m := by
  intro bs
  induction bs with
  | nil =>
    intro prev
    simp [CBC.cbcDecGo, cbcDecGo_cons]
  | cons c bs ih =>
    intro prev
    rw [List.cons_append, cbcDecGo_cons, List.cons_append, cbcDecGo_cons, ih,
      List.append_assoc]

theorem pkcs7Valid_append (B : ℕ) (hB : 0 < B) (pl lb : Bytes) (hlb : lb.length = B) :
    CBC.pkcs7Valid (pl ++ lb) B = CBC.pkcs7Valid lb B := by
  have hne : lb ≠ [] := by
    intro h
    rw [h] at hlb
    simp at hlb
    omega
  have hlast : (pl ++ lb).getLast? = lb.getLast? := by
    rw [List.getLast?_append]
    cases hk2 : lb.getLast? with
    | none =>
      cases lb with
      | nil => exact absurd rfl hne
      | cons y ys => simp at hk2
    | some k => rfl
  rw [CBC.pkcs7Valid, CBC.pkcs7Valid, hlast]
  cases hk : lb.getLast? with
  | none => rfl
  | some k =>
    simp only []
    by_cases hkB : k ≤ B
    · have hdrop : (pl ++ lb).drop ((pl ++ lb).length - k) = lb.drop (lb.length - k) := by
        have h2 : (pl ++ lb).length - k = pl.length + (lb.length - k) := by
          simp [List.length_append]
          omega
        rw [h2, drop_append_off]
      rw [hdrop]
      apply decide_eq_decide.mpr
      have hlen : (pl ++ lb).length = pl.length + B := by simp [hlb]
      constructor <;> rintro ⟨h1, h2, h3, h4⟩ <;>
        exact ⟨h1, h2, by simp [List.length_append] at h3 ⊢ <;> omega, h4⟩
    · apply decide_eq_decide.mpr
      constructor <;> rintro ⟨h1, h2, h3, h4⟩ <;> exact absurd h2 hkB

theorem chunks_single (B : ℕ) (hB : 0 < B) (t : Bytes) (ht : t.length = B) :
    chunks t B = [t] := by
  have h := chunks_cons B hB t [] ht
  rw [List.append_nil] at h
  rw [h]
  rfl

theorem oracle_last_block {σ : Type} (D : Bytes → Bytes) (B : ℕ) (O : CBC.Oracle σ)
    (hO : CBC.consistentOracle D B O) (hB : 0 < B) (bs : List Bytes)
    (hbs : ∀ b ∈ bs, b.length = B) (modified target : Bytes)
    (hm : modified.length = B) (htg : target.length = B)
    (hDt : (D target).length = B) (s : σ) :
    (O ((bs.foldr (· ++ ·) [] ++ modified ++ target).drop B)
       ((bs.foldr (· ++ ·) [] ++ modified ++ target).take B) s).1 =
      CBC.pkcs7Valid (xor2 (D target) modified) B := by
  rw [hO]
  cases bs with
  | nil =>
    simp only [List.foldr_nil, List.nil_append]
    have ht : (modified ++ target).take B = modified := by
      rw [← hm]
      exact List.take_left _ _
    have hd : (modified ++ target).drop B = target := by
      rw [← hm]
      exact List.drop_left _ _
    rw [ht, hd, CBC.cbcDecrypt, chunks_single B hB _ htg, cbcDecGo_cons]
    rw [show CBC.cbcDecGo D target [] = [] from rfl, List.append_nil]
  | cons b bs' =>
    have hbB : b.length = B := hbs b (by simp)
    have hbs' : ∀ x ∈ bs', x.length = B := fun x hx => hbs x (by simp [hx])
    simp only [List.foldr_cons]
    have hassoc : (b ++ bs'.foldr (· ++ ·) []) ++ modified ++ target =
        b ++ (bs'.foldr (· ++ ·) [] ++ modified ++ target) := by
      simp [List.append_assoc]
    rw [hassoc]
    have ht : (b ++ (bs'.foldr (· ++ ·) [] ++ modified ++ target)).take B = b := by
      rw [← hbB]
      exact List.take_left _ _
    have hd : (b ++ (bs'.foldr (· ++ ·) [] ++ modified ++ target)).drop B =
        bs'.foldr (· ++ ·) [] ++ modified ++ target := by
      rw [← hbB]
      exact List.drop_left _ _
    rw [ht, hd, CBC.cbcDecrypt]
    have hjoin : (bs' ++ [modified, target]).foldr (· ++ ·) [] =
        bs'.foldr (· ++ ·) [] ++ modified ++ target := by
      rw [List.foldr_append]
      rw [show List.foldr (· ++ ·) ([] : Bytes) [modified, target] =
        modified ++ target by simp]
      rw [foldr_append_init, List.append_assoc]
    rw [← hjoin, chunks_join B hB _ (by
      intro x hx
      rcases List.mem_append.mp hx with h | h
      · exact hbs' x h
      · simp at h
        rcases h with rfl | rfl
        · exact hm
        · exact htg)]
    rw [cbcDecGo_two]
    exact pkcs7Valid_append B hB _ _ (by rw [xor2_length _ _ (by rw [hm, hDt]), hDt])

/-! C1 stage 3: which guesses the oracle accepts, and what the guess loop finds -/

theorem mem_drop_range (B m x : ℕ) : x ∈ (List.range B).drop m ↔ m ≤ x ∧ x < B := by
  rw [List.mem_iff_getElem?]
  constructor
  · rintro ⟨i, hi⟩
    rw [List.getElem?_drop] at hi
    by_cases h : m + i < B
    · rw [List.getElem?_range h] at hi
      cases hi
      omega
    · rw [List.getElem?_eq_none (by simpa using h)] at hi
      cases hi
  · rintro ⟨h1, h2⟩
    refine ⟨x - m, ?_⟩
    rw [List.getElem?_drop, List.getElem?_range (by omega)]
    congr 1
    omega

theorem getD_set_self {α : Type} (d : α) : ∀ (l : List α) (i : ℕ) (c : α), i < l.length →
    (l.set i c).getD i d = c := by
  intro l
  induction l with
  | nil => intro i c h; simp at h
  | cons x xs ih =>
    intro i c h
    cases i with
    | zero => rfl
    | succ i =>
      simp only [List.set_cons_succ]
      exact ih i c (by simp at h; omega)

theorem getD_set_ne {α : Type} (d : α) : ∀ (l : List α) (i j : ℕ) (c : α), i ≠ j →
    (l.set i c).getD j d = l.getD j d := by
  intro l
  induction l with
  | nil => intro i j c h; simp
  | cons x xs ih =>
    intro i j c h
    cases i with
    | zero =>
      cases j with
      | zero => omega
      | succ j => rfl
    | succ i =>
      cases j with
      | zero => rfl
      | succ j =>
        simp only [List.set_cons_succ]
        exact ih i j c (by omega)

theorem xor_left_eq_iff (a x b : ℕ) : a ^^^ x = b ↔ x = a ^^^ b := by
  constructor <;> intro h
  · rw [← h, ← Nat.xor_assoc, Nat.xor_self, Nat.zero_xor]
  · rw [h, ← Nat.xor_assoc, Nat.xor_self, Nat.zero_xor]

theorem pkcs7_map_range (B : ℕ) (hB : 0 < B) (f : ℕ → ℕ) :
    CBC.pkcs7Valid ((List.range B).map f) B = true ↔
      (1 ≤ f (B - 1) ∧ f (B - 1) ≤ B ∧
       ∀ j, B - f (B - 1) ≤ j → j < B → f j = f (B - 1)) := by
  have hlast : ((List.range B).map f).getLast? = some (f (B - 1)) := by
    rw [List.getLast?_eq_getElem?]
    simp only [List.length_map, List.length_range]
    rw [List.getElem?_map, List.getElem?_range (by omega)]
    rfl
  rw [CBC.pkcs7Valid, hlast]
  simp only [List.length_map, List.length_range, decide_eq_true_eq]
  have hdrop : ∀ m : ℕ, ((List.range B).map f).drop m = ((List.range B).drop m).map f := by
    intro m
    rw [List.map_drop]
  constructor
  · rintro ⟨h1, h2, h3, h4⟩
    refine ⟨h1, h2, ?_⟩
    intro j hj1 hj2
    rw [hdrop, List.all_eq_true] at h4
    have := h4 (f j) (List.mem_map.mpr ⟨j, (mem_drop_range B _ j).mpr ⟨hj1, hj2⟩, rfl⟩)
    simpa using this
  · rintro ⟨h1, h2, h3⟩
    refine ⟨h1, h2, by omega, ?_⟩
    rw [hdrop, List.all_eq_true]
    rintro x hx
    rcases List.mem_map.mp hx with ⟨j, hj, rfl⟩
    rcases (mem_drop_range B _ j).mp hj with ⟨hj1, hj2⟩
    simpa using h3 j hj1 hj2

theorem accept_inner (D : Bytes → Bytes) (B : ℕ) (hB2 : 2 ≤ B)
    (pm target : Bytes) (p : ℕ) (hp : p < B - 1)
    (hpm : pm.length = B) (hDt : (D target).length = B)
    (hinv : ∀ j, p < j → j < B → (D target).getD j 0 ^^^ pm.getD j 0 = B - p)
    (g : ℕ) :
    CBC.pkcs7Valid (xor2 (D target) (pm.set p g)) B = true ↔
      g = (D target).getD p 0 ^^^ (B - p) := by
  have hset : (pm.set p g).length = (D target).length := by
    rw [List.length_set, hpm, hDt]
  rw [xor2_eq _ _ hset, hDt]
  rw [pkcs7_map_range B (by omega)]
  have hlastb : (D target).getD (B - 1) 0 ^^^ (pm.set p g).getD (B - 1) 0 = B - p := by
    rw [getD_set_ne 0 pm p (B - 1) g (by omega)]
    exact hinv (B - 1) (by omega) (by omega)
  rw [hlastb]
  constructor
  · rintro ⟨h1, h2, h3⟩
    have hbp : B - (B - p) = p := by omega
    have := h3 p (by omega) (by omega)
    rw [getD_set_self 0 pm p g (by omega)] at this
    rw [← xor_left_eq_iff]
    exact this
  · intro hg
    refine ⟨by omega, by omega, ?_⟩
    intro j hj1 hj2
    by_cases hjp : j = p
    · subst hjp
      rw [getD_set_self 0 pm j g (by omega), hg, ← Nat.xor_assoc, Nat.xor_self,
        Nat.zero_xor]
    · have hjgt : p < j := by omega
      rw [getD_set_ne 0 pm p j g (by omega)]
      exact hinv j hjgt hj2

theorem accept_first (D : Bytes → Bytes) (B : ℕ) (hB2 : 2 ≤ B)
    (pm target : Bytes) (hpm : pm.length = B) (hDt : (D target).length = B)
    (hA : ∀ j, j < B → pm.getD j 0 = 0x41)
    (hNS : CBC.noSurvFP D B pm target) (g : ℕ) :
    CBC.pkcs7Valid (xor2 (D target) (pm.set (B - 1) g)) B = true ↔
      g = (D target).getD (B - 1) 0 ^^^ 1 := by
  have hset : (pm.set (B - 1) g).length = (D target).length := by
    rw [List.length_set, hpm, hDt]
  rw [xor2_eq _ _ hset, hDt]
  rw [pkcs7_map_range B (by omega)]
  have hlastb : (D target).getD (B - 1) 0 ^^^ (pm.set (B - 1) g).getD (B - 1) 0 =
      (D target).getD (B - 1) 0 ^^^ g := by
    rw [getD_set_self 0 pm (B - 1) g (by omega)]
  rw [hlastb]
  constructor
  · rintro ⟨h1, h2, h3⟩
    set k := (D target).getD (B - 1) 0 ^^^ g with hk
    by_cases hk1 : k = 1
    · rw [← xor_left_eq_iff]
      exact hk1
    · exfalso
      have hfp : CBC.fakePattern D B pm target k := by
        intro j hj
        rw [Finset.mem_Ico] at hj
        have hjne : j ≠ B - 1 := by omega
        have := h3 j hj.1 (by omega)
        rw [getD_set_ne 0 pm (B - 1) j g (by omega)] at this
        exact this
      exact hNS (hA (B - 2) (by omega)) k
        (Finset.mem_Icc.mpr ⟨by omega, h2⟩) hfp
  · intro hg
    subst hg
    have hx : (D target).getD (B - 1) 0 ^^^ ((D target).getD (B - 1) 0 ^^^ 1) = 1 := by
      rw [← Nat.xor_assoc, Nat.xor_self, Nat.zero_xor]
    rw [hx]
    refine ⟨le_refl 1, by omega, ?_⟩
    intro j hj1 hj2
    have hj : j = B - 1 := by omega
    subst hj
    rw [getD_set_self 0 pm (B - 1) _ (by omega), hx]

/-! C1 stage 3b: the guess loop returns the unique accepted guess -/

theorem guessLoop_finds {σ : Type} (O : CBC.Oracle σ) (B : ℕ)
    (pre pm target : Bytes) (skipByte p gStar : ℕ) (hp : p ≠ B - 1)
    (hqs : ∀ g s, (O ((pre ++ pm.set p g ++ target).drop B)
      ((pre ++ pm.set p g ++ target).take B) s).1 = decide (g = gStar)) :
    ∀ gs (resp : σ), gStar ∈ gs →
      ∃ s', CBC.guessLoop O B pre pm target skipByte p false gs resp =
        (some gStar, s') := by
  intro gs
  induction gs with
  | nil => intro resp h; simp at h
  | cons g gs ih =>
    intro resp hmem
    rw [CBC.guessLoop]
    have h1 := hqs g resp
    cases hOq : O ((pre ++ pm.set p g ++ target).drop B)
      ((pre ++ pm.set p g ++ target).take B) resp with
    | mk c s₁ =>
      rw [hOq] at h1
      replace h1 : c = decide (g = gStar) := h1
      by_cases hg : g = gStar
      · subst hg
        have hc : c = true := by rw [h1]; simp
        subst hc
        simp only [hOq]
        exact ⟨s₁, by simp [if_neg hp]⟩
      · have hc : c = false := by rw [h1]; simp [hg]
        subst hc
        simp only [hOq, Bool.false_eq_true, if_false]
        exact ih s₁ (by
          rcases List.mem_cons.mp hmem with h | h
          · exact absurd h.symm hg
          · exact h)

theorem guessLoop_finds_first {σ : Type} (O : CBC.Oracle σ) (B : ℕ)
    (pre pm target : Bytes) (skipByte gStar : ℕ)
    (hqs : ∀ g s, (O ((pre ++ pm.set (B - 1) g ++ target).drop B)
      ((pre ++ pm.set (B - 1) g ++ target).take B) s).1 = decide (g = gStar))
    (hflip : ∀ g, CBC.flipQueryPayload B (pre ++ pm.set (B - 1) g ++ target) =
      pre ++ pm.set (B - 1) g ++ target) :
    ∀ gs (resp : σ), gStar ∈ gs →
      ∃ s', CBC.guessLoop O B pre pm target skipByte (B - 1) false gs resp =
        (some gStar, s') := by
  intro gs
  induction gs with
  | nil => intro resp h; simp at h
  | cons g gs ih =>
    intro resp hmem
    rw [CBC.guessLoop]
    have h1 := hqs g resp
    cases hOq : O ((pre ++ pm.set (B - 1) g ++ target).drop B)
      ((pre ++ pm.set (B - 1) g ++ target).take B) resp with
    | mk c s₁ =>
      rw [hOq] at h1
      replace h1 : c = decide (g = gStar) := h1
      by_cases hg : g = gStar
      · subst hg
        have hc : c = true := by rw [h1]; simp
        subst hc
        have h2 := hqs g s₁
        simp only [hOq, List.take_append_drop, hflip]
        cases hOq2 : O ((pre ++ pm.set (B - 1) g ++ target).drop B)
          ((pre ++ pm.set (B - 1) g ++ target).take B) s₁ with
        | mk c2 s₂ =>
          rw [hOq2] at h2
          replace h2 : c2 = decide (g = g) := h2
          have hc2 : c2 = true := by rw [h2]; simp
          subst hc2
          exact ⟨s₂, by simp⟩
      · have hc : c = false := by rw [h1]; simp [hg]
        subst hc
        simp only [hOq, Bool.false_eq_true, if_false]
        exact ih s₁ (by
          rcases List.mem_cons.mp hmem with h | h
          · exact absurd h.symm hg
          · exact h)

/-! C1 stage 4: the position loop recovers the whole block -/

theorem bool_eq_decide {P : Prop} [Decidable P] (b : Bool) (h : b = true ↔ P) :
    b = decide P := by
  by_cases hP : P
  · rw [decide_eq_true hP]
    exact h.mpr hP
  · have hb : b ≠ true := fun hb => hP (h.mp hb)
    rw [decide_eq_false hP]
    simpa using hb

theorem getD_take {α : Type} (l : List α) (n j : ℕ) (d : α) (h : j < n) :
    (l.take n).getD j d = l.getD j d := by
  rw [List.getD_eq_getElem?_getD, List.getElem?_take, if_pos h,
    ← List.getD_eq_getElem?_getD]

theorem getD_drop {α : Type} (l : List α) (n i : ℕ) (d : α) :
    (l.drop n).getD i d = l.getD (n + i) d := by
  rw [List.getD_eq_getElem?_getD, List.getElem?_drop, ← List.getD_eq_getElem?_getD]

theorem getD_append_off2 {α : Type} (xs ys : List α) (n i : ℕ) (d : α) (h : xs.length = n) :
    (xs ++ ys).getD (n + i) d = ys.getD i d := by
  rw [← h, getD_append_off]

theorem getD_append_right2 {α : Type} (xs ys : List α) (j : ℕ) (d : α) (h : xs.length ≤ j) :
    (xs ++ ys).getD j d = ys.getD (j - xs.length) d := by
  rw [List.getD_eq_getElem?_getD, List.getElem?_append_right h,
    ← List.getD_eq_getElem?_getD]

theorem eq_replicate_of_getD (l : List ℕ) (B c : ℕ) (hl : l.length = B)
    (h : ∀ j, j < B → l.getD j 0 = c) : l = List.replicate B c := by
  apply List.ext_getElem
  · simp [hl]
  · intro i h1 h2
    rw [List.getElem_replicate]
    have := h i (by omega)
    rw [List.getD_eq_getElem?_getD, List.getElem?_eq_getElem h1] at this
    simpa using this

theorem xor_byte_lt (a b : ℕ) (ha : a < 256) (hb : b < 256) : a ^^^ b < 256 := by
  have h8 : (256 : ℕ) = 2 ^ 8 := by norm_num
  rw [h8] at *
  exact Nat.xor_lt_two_pow ha hb

theorem xor_cancel_right (x c : ℕ) : (x ^^^ c) ^^^ c = x := by
  rw [Nat.xor_assoc, Nat.xor_self, Nat.xor_zero]

theorem xor_mix (a b c : ℕ) : a ^^^ (b ^^^ c) ^^^ c = b ^^^ a := by
  rw [Nat.xor_assoc a (b ^^^ c) c, Nat.xor_assoc b c c, Nat.xor_self, Nat.xor_zero,
    Nat.xor_comm]

theorem posLoop_fake {σ : Type} (D : Bytes → Bytes) (B : ℕ) (O : CBC.Oracle σ)
    (hO : CBC.consistentOracle D B O) (hB2 : 2 ≤ B) (hB255 : B ≤ 255)
    (bs : List Bytes) (hbs : ∀ b ∈ bs, b.length = B)
    (target : Bytes) (htg : target.length = B)
    (hDt : (D target).length = B)
    (hDb : ∀ j, j < B → (D target).getD j 0 < 256)
    (hNS : CBC.noSurvFP D B (List.replicate B 0x41) target) (skipByte : ℕ) :
    ∀ (p₁ : ℕ), p₁ ≤ B →
      ∀ (fuel : ℕ), p₁ ≤ fuel →
      ∀ (pm pl : Bytes) (resp : σ),
      pm.length = B →
      (∀ j, j < p₁ → pm.getD j 0 = 0x41) →
      (∀ j, p₁ ≤ j → j < B → pm.getD j 0 = (D target).getD j 0 ^^^ (B + 1 - p₁)) →
      ∃ s', CBC.posLoop O B (bs.foldr (· ++ ·) []) target skipByte fuel p₁ pm pl
          false resp =
        (.ok (((List.range p₁).map (fun j => (D target).getD j 0 ^^^ 0x41)) ++ pl,
          false), s') := by
  intro p₁
  induction p₁ with
  | zero =>
    intro _ fuel _ pm pl resp _ _ _
    cases fuel with
    | zero => exact ⟨resp, rfl⟩
    | succ f => exact ⟨resp, rfl⟩
  | succ p ih =>
    intro hpB fuel hfuel pm pl resp hpm hlow hhigh
    cases fuel with
    | zero => omega
    | succ f =>
      have hpad : B + 1 - (p + 1) = B - p := by omega
      rw [hpad] at hhigh
      have hglt : (D target).getD p 0 ^^^ (B - p) < 256 :=
        xor_byte_lt _ _ (hDb p (by omega)) (by omega)
      have hqs : ∀ g s, (O ((bs.foldr (· ++ ·) [] ++ pm.set p g ++ target).drop B)
          ((bs.foldr (· ++ ·) [] ++ pm.set p g ++ target).take B) s).1 =
          decide (g = (D target).getD p 0 ^^^ (B - p)) := by
        intro g s
        rw [oracle_last_block D B O hO (by omega) bs hbs (pm.set p g) target
          (by rw [List.length_set]; exact hpm) htg hDt s]
        apply bool_eq_decide
        by_cases hpfirst : p = B - 1
        · subst hpfirst
          have hpmA : ∀ j, j < B → pm.getD j 0 = 0x41 := fun j hj => hlow j (by omega)
          have hNSpm : CBC.noSurvFP D B pm target := by
            rw [eq_replicate_of_getD pm B 0x41 hpm hpmA]
            exact hNS
          rw [accept_first D B hB2 pm target hpm hDt hpmA hNSpm g]
          rw [show B - (B - 1) = 1 from by omega]
        · have hinv' : ∀ j, p < j → j < B →
              (D target).getD j 0 ^^^ pm.getD j 0 = B - p := by
            intro j hj1 hj2
            rw [hhigh j (by omega) hj2, ← Nat.xor_assoc, Nat.xor_self, Nat.zero_xor]
          rw [accept_inner D B hB2 pm target p (by omega) hpm hDt hinv' g]
      have hrun : ∃ s₁, CBC.guessLoop O B (bs.foldr (· ++ ·) []) pm target skipByte
          p false (List.range 256) resp =
          (some ((D target).getD p 0 ^^^ (B - p)), s₁) := by
        by_cases hpfirst : p = B - 1
        · subst hpfirst
          refine guessLoop_finds_first O B _ pm target skipByte _ hqs ?_
            (List.range 256) resp (List.mem_range.mpr hglt)
          intro g
          rw [CBC.flipQueryPayload]
          apply list_set_of_getD
          · have hlen : (bs.foldr (· ++ ·) [] ++ pm.set (B - 1) g ++ target).length =
                (bs.foldr (· ++ ·) []).length + B + B := by
              simp [List.length_append, List.length_set, hpm, htg]
              omega
            rw [hlen]
            have hidx : (bs.foldr (· ++ ·) []).length + B + B - B - 2 =
                (bs.foldr (· ++ ·) []).length + (B - 2) := by omega
            rw [hidx, List.append_assoc, getD_append_off,
              getD_append_left _ _ _ _ (by rw [List.length_set, hpm]; omega),
              getD_set_ne 0 pm (B - 1) (B - 2) g (by omega)]
            exact hlow (B - 2) (by omega)
          · norm_num
        · exact guessLoop_finds O B _ pm target skipByte p _ hpfirst hqs
            (List.range 256) resp (List.mem_range.mpr hglt)
      obtain ⟨s₁, hguess⟩ := hrun
      have hdc : pm.getD p 0 ^^^ ((D target).getD p 0 ^^^ (B - p)) ^^^ (B - p) =
          (D target).getD p 0 ^^^ 0x41 := by
        rw [hlow p (by omega), xor_mix]
      have hxa : ((D target).getD p 0 ^^^ (B - p)) :: pm.drop (p + 1) ≠ [] := by
        simp
      have hxlen : (((D target).getD p 0 ^^^ (B - p)) :: pm.drop (p + 1)).length =
          B - p := by
        simp [hpm]
        omega
      have hx3 : xor3 (((D target).getD p 0 ^^^ (B - p)) :: pm.drop (p + 1))
          [B - p] [B - p + 1] =
          (List.range (B - p)).map (fun i =>
            ((((D target).getD p 0 ^^^ (B - p)) :: pm.drop (p + 1)).getD i 0) ^^^
              (B - p) ^^^ (B - p + 1)) := by
        rw [xor3_bcast _ _ _ (by rw [hxlen]; omega), hxlen]
      have htklen : (pm.take p).length = p := by
        rw [List.length_take]
        omega
      -- the updated working block
      set pm' := pm.take p ++ xor3 (((D target).getD p 0 ^^^ (B - p)) ::
        pm.drop (p + 1)) [B - p] [B - p + 1] with hpm'
      have hlen' : pm'.length = B := by
        rw [hpm', List.length_append, htklen, hx3, List.length_map,
          List.length_range]
        omega
      have hlow' : ∀ j, j < p → pm'.getD j 0 = 0x41 := by
        intro j hj
        rw [hpm', getD_append_left _ _ _ _ (by rw [htklen]; omega), getD_take _ _ _ _ hj]
        exact hlow j (by omega)
      have hhigh' : ∀ j, p ≤ j → j < B → pm'.getD j 0 =
          (D target).getD j 0 ^^^ (B + 1 - p) := by
        intro j hj1 hj2
        rw [hpm', getD_append_right2 _ _ _ _ (by rw [htklen]; omega), htklen, hx3,
          range_map_getD _ _ _ _ (by omega)]
        have hp1 : B + 1 - p = (B - p) + 1 := by omega
        rcases Nat.eq_zero_or_pos (j - p) with hjp | hjp
        · have hjq : j = p := by omega
          subst hjq
          rw [Nat.sub_self]
          rw [show ((((D target).getD j 0 ^^^ (B - j)) :: pm.drop (j + 1)).getD 0 0) =
            (D target).getD j 0 ^^^ (B - j) from rfl]
          rw [xor_cancel_right, hp1]
        · have hcons : ((((D target).getD p 0 ^^^ (B - p)) ::
              pm.drop (p + 1)).getD (j - p) 0) = (pm.drop (p + 1)).getD (j - p - 1) 0 := by
            cases hh : j - p with
            | zero => omega
            | succ i => simp [List.getD]
          rw [hcons, getD_drop]
          rw [show p + 1 + (j - p - 1) = j by omega]
          rw [hhigh j (by omega) hj2, xor_cancel_right, hp1]
      obtain ⟨s₂, hrec⟩ := ih (by omega) f (by omega) pm' ((pm.getD p 0 ^^^
        ((D target).getD p 0 ^^^ (B - p)) ^^^ (B - p)) :: pl) s₁ hlen' hlow'
        (by intro j hj1 hj2; exact hhigh' j hj1 hj2)
      refine ⟨s₂, ?_⟩
      rw [CBC.posLoop]
      · simp only [Nat.add_sub_cancel, hguess, Bool.false_eq_true, if_false]
        rw [← hpm', hrec]
        have hlist : (List.range p).map (fun j => (D target).getD j 0 ^^^ 0x41) ++
            ((pm.getD p 0 ^^^ ((D target).getD p 0 ^^^ (B - p)) ^^^ (B - p)) :: pl) =
            (List.range (p + 1)).map (fun j => (D target).getD j 0 ^^^ 0x41) ++ pl := by
          rw [List.range_succ, List.map_append, List.append_assoc]
          simp only [List.map_cons, List.map_nil, List.singleton_append]
          rw [hdc]
        rw [hlist]
      · omega


/-! C1 stage 5: `decrypt` with `amount = 1`, `is_correct = False` recovers the
last block's plaintext -/

theorem getD_replicate {α : Type} (d : α) (B : ℕ) (c : α) (j : ℕ) (h : j < B) :
    (List.replicate B c).getD j d = c := by
  rw [List.getD_eq_getElem?_getD, List.getElem?_replicate, if_pos h]
  rfl

theorem getD_mem_of_lt (l : List Bytes) (i : ℕ) (h : i < l.length) :
    l.getD i [] ∈ l := by
  have he : l.getD i [] = l[i] := by
    rw [List.getD_eq_getElem?_getD, List.getElem?_eq_getElem h]
    rfl
  rw [he]
  exact List.getElem_mem h

theorem decrypt_fake {σ : Type} (D : Bytes → Bytes) (B : ℕ) (O : CBC.Oracle σ)
    (hO : CBC.consistentOracle D B O) (hB2 : 2 ≤ B) (hB255 : B ≤ 255)
    (bs : List Bytes) (hbs : ∀ b ∈ bs, b.length = B) (hbs2 : 2 ≤ bs.length)
    (hpmA : bs.getD (bs.length - 2) [] = List.replicate B 0x41)
    (hDt : (D (bs.getD (bs.length - 1) [])).length = B)
    (hDb : ∀ j, j < B → (D (bs.getD (bs.length - 1) [])).getD j 0 < 256)
    (hNS : CBC.noSurvFP D B (List.replicate B 0x41) (bs.getD (bs.length - 1) []))
    (s₀ : σ) :
    ∃ s', CBC.decrypt O B (bs.foldr (· ++ ·) []) Option.none false 1 Option.none s₀ =
      (.ok ((List.range B).map
        (fun j => (D (bs.getD (bs.length - 1) [])).getD j 0 ^^^ 0x41)), s') := by
  have hB0 : 0 < B := by omega
  have hlen : (bs.foldr (· ++ ·) []).length = bs.length * B := join_length B bs hbs
  have hchunks : chunks (bs.foldr (· ++ ·) []) B = bs := chunks_join B hB0 bs hbs
  -- the posLoop run on the last block
  have hpre : ∀ b ∈ bs.take (bs.length - 2), b.length = B := fun b hb =>
    hbs b (List.mem_of_mem_take hb)
  obtain ⟨s', hpos⟩ := posLoop_fake D B O hO hB2 hB255 (bs.take (bs.length - 2))
    hpre (bs.getD (bs.length - 1) []) (hbs _ (getD_mem_of_lt _ _ (by omega)))
    hDt hDb hNS ((bs.getD (bs.length - 2) []).getLastD 0) B le_rfl B le_rfl
    (bs.getD (bs.length - 2) []) [] s₀
    (by rw [hpmA]; simp)
    (by intro j hj; rw [hpmA]; exact getD_replicate 0 B 0x41 j hj)
    (by intro j hj1 hj2; omega)
  rw [CBC.decrypt]
  rw [if_neg (by rw [hlen]; simp [Nat.mul_mod_left])]
  simp only [Option.getD_none, hchunks]
  rw [if_neg (by simp)]
  rw [if_neg (show ¬(([] : Bytes) ≠ []) from by simp)]
  rw [if_pos (by norm_num : (1 : ℕ) ≠ 0)]
  rw [if_neg (by push_cast; omega)]
  rw [if_neg (by simp)]
  have ht2 : (((bs.length : ℤ)) - ((1 : ℕ) : ℤ) - 1).toNat = bs.length - 2 := by
    omega
  rw [ht2]
  rw [show bs.length - 1 = (bs.length - 2) + 1 from by omega]
  rw [CBC.blockLoop]
  rw [if_neg (by omega)]
  rw [show bs.length - 2 + 1 = bs.length - 1 from by omega]
  simp only [Nat.sub_zero, hpos]
  refine ⟨s', ?_⟩
  cases hN2 : bs.length - 2 with
  | zero => simp [CBC.blockLoop]
  | succ m =>
    rw [CBC.blockLoop]
    simp only [if_pos (le_refl (m + 1)), List.append_nil]

/-! C1 stage 6: the block-rewriting loop of `fake_ciphertext` -/

theorem getD_eq_getElem {α : Type} (l : List α) (i : ℕ) (d : α) (h : i < l.length) :
    l.getD i d = l[i] := by
  rw [List.getD_eq_getElem?_getD, List.getElem?_eq_getElem h]
  rfl

theorem map_getD_range_self2 {α : Type} (l : List α) (d : α) (n : ℕ)
    (h : l.length = n) :
    (List.range n).map (fun j => l.getD j d) = l := by
  apply List.ext_getElem
  · simp [h]
  · intro i h1 h2
    simp only [List.getElem_map, List.getElem_range]
    rw [getD_eq_getElem _ _ _ (by omega)]

theorem fakeChain_length (D : Bytes → Bytes) (B N : ℕ)
    (hDlen : ∀ b : Bytes, b.length = B → (D b).length = B)
    (nplB : List Bytes) (hnpl : ∀ b ∈ nplB, b.length = B) (hlenN : nplB.length = N)
    (hN : 1 ≤ N) :
    ∀ j, (CBC.fakeChain D B N nplB j).length = B := by
  intro j
  induction j with
  | zero => simp [CBC.fakeChain]
  | succ j ih =>
    rw [CBC.fakeChain]
    rw [xor2_length]
    · exact hDlen _ ih
    · rw [hDlen _ ih]
      exact hnpl _ (getD_mem_of_lt nplB _ (by omega))

theorem fakeLoop_fake {σ : Type} (D : Bytes → Bytes) (B : ℕ) (O : CBC.Oracle σ)
    (hO : CBC.consistentOracle D B O) (hB2 : 2 ≤ B) (hB255 : B ≤ 255)
    (hDlen : ∀ b : Bytes, b.length = B → (D b).length = B)
    (hDbyte : ∀ b : Bytes, b.length = B → ∀ j, j < B → (D b).getD j 0 < 256)
    (N : ℕ) (hN : 1 ≤ N) (nplB : List Bytes)
    (hnpl : ∀ b ∈ nplB, b.length = B) (hlenN : nplB.length = N)
    (hNS : ∀ j, j < N →
      CBC.noSurvFP D B (List.replicate B 0x41) (CBC.fakeChain D B N nplB j))
    (s₀ : σ) :
    ∀ f, f ≤ N → ∀ ncb : List Bytes,
      ncb.length = N + 1 →
      (∀ j, j < f → ncb.getD j [] = List.replicate B 0x41) →
      (∀ j, f ≤ j → j ≤ N → ncb.getD j [] = CBC.fakeChain D B N nplB (N - j)) →
      CBC.fakeLoop O B s₀ (List.replicate (N + 1) (List.replicate B 0x41)) nplB f ncb
        Option.none Option.none =
      .ok ((List.range (N + 1)).map (fun j => CBC.fakeChain D B N nplB (N - j))) := by
  intro f
  induction f with
  | zero =>
    intro _ ncb hlen hlow hhigh
    rw [show CBC.fakeLoop O B s₀ (List.replicate (N + 1) (List.replicate B 0x41))
      nplB 0 ncb Option.none Option.none = .ok ncb from rfl]
    congr 1
    rw [← map_getD_range_self2 ncb [] (N + 1) hlen]
    apply List.map_congr_left
    intro j hj
    rw [List.mem_range] at hj
    exact hhigh j (by omega) (by omega)
  | succ f ih =>
    intro hfN ncb hlen hlow hhigh
    have hchainB := fakeChain_length D B N hDlen nplB hnpl hlenN hN
    have hblkB : ∀ j, j ≤ N → (ncb.getD j []).length = B := by
      intro j hj
      by_cases hjf : j < f + 1
      · rw [hlow j hjf]
        simp
      · rw [hhigh j (by omega) hj]
        exact hchainB _
    have htakelen : (ncb.take (f + 2)).length = f + 2 := by
      rw [List.length_take]
      omega
    have hbsB : ∀ b ∈ ncb.take (f + 2), b.length = B := by
      intro b hb
      rcases List.mem_iff_getElem.mp (List.mem_of_mem_take hb) with ⟨i, hi, rfl⟩
      rw [← getD_eq_getElem ncb i [] hi]
      exact hblkB i (by omega)
    obtain ⟨s', hdec⟩ := decrypt_fake D B O hO hB2 hB255 (ncb.take (f + 2)) hbsB
      (by omega)
      (by
        rw [htakelen, show f + 2 - 2 = f from by omega,
          getD_take _ _ _ _ (by omega : f < f + 2)]
        exact hlow f (by omega))
      (by
        rw [htakelen, show f + 2 - 1 = f + 1 from by omega,
          getD_take _ _ _ _ (by omega : f + 1 < f + 2),
          hhigh (f + 1) le_rfl (by omega)]
        exact hDlen _ (hchainB _))
      (by
        rw [htakelen, show f + 2 - 1 = f + 1 from by omega,
          getD_take _ _ _ _ (by omega : f + 1 < f + 2),
          hhigh (f + 1) le_rfl (by omega)]
        exact hDbyte _ (hchainB _))
      (by
        rw [htakelen, show f + 2 - 1 = f + 1 from by omega,
          getD_take _ _ _ _ (by omega : f + 1 < f + 2),
          hhigh (f + 1) le_rfl (by omega)]
        exact hNS _ (by omega))
      s₀
    rw [CBC.fakeLoop]
    simp only [hdec]
    have htg2 : (ncb.take (f + 2)).getD ((ncb.take (f + 2)).length - 1) [] =
        CBC.fakeChain D B N nplB (N - (f + 1)) := by
      rw [htakelen, show f + 2 - 1 = f + 1 from by omega,
        getD_take _ _ _ _ (by omega : f + 1 < f + 2),
        hhigh (f + 1) le_rfl (by omega)]
    rw [htg2]
    -- the rewritten block is the next chain element
    have hxval : xor3 ((List.replicate (N + 1) (List.replicate B 0x41)).getD f [])
        ((List.range B).map (fun j =>
          (D (CBC.fakeChain D B N nplB (N - (f + 1)))).getD j 0 ^^^ 0x41))
        (nplB.getD f []) = CBC.fakeChain D B N nplB (N - f) := by
      rw [getD_replicate [] (N + 1) _ f (by omega)]
      have hnf : (nplB.getD f []).length = B :=
        hnpl _ (getD_mem_of_lt nplB f (by omega))
      have hDlenc : (D (CBC.fakeChain D B N nplB (N - (f + 1)))).length = B :=
        hDlen _ (hchainB _)
      have hmaplen : ((List.range B).map (fun j =>
          (D (CBC.fakeChain D B N nplB (N - (f + 1)))).getD j 0 ^^^ 0x41)).length = B := by
        simp
      rw [xor3_eq _ _ _ (by simp [hmaplen]) (by rw [hnf]; simp)]
      rw [show N - f = (N - (f + 1)) + 1 from by omega, CBC.fakeChain]
      rw [show N - (N - (f + 1) + 1) = f from by omega]
      rw [xor2_eq _ _ (by rw [hnf, hDlenc]), hDlenc]
      rw [show (List.replicate B 0x41).length = B from by simp]
      apply List.map_congr_left
      intro i hi
      rw [List.mem_range] at hi
      rw [getD_replicate 0 B 0x41 i hi, range_map_getD _ _ _ _ hi]
      rw [Nat.xor_comm ((D (CBC.fakeChain D B N nplB (N - (f + 1)))).getD i 0) 0x41,
        ← Nat.xor_assoc, Nat.xor_self, Nat.zero_xor]
    rw [hxval]
    apply ih (by omega)
    · rw [List.length_set]
      exact hlen
    · intro j hj
      rw [getD_set_ne [] ncb f j _ (by omega)]
      exact hlow j (by omega)
    · intro j hj1 hj2
      by_cases hjf : j = f
      · subst hjf
        rw [getD_set_self [] ncb j _ (by omega)]
      · rw [getD_set_ne [] ncb f j _ (by omega)]
        exact hhigh j (by omega) hj2

/-! C1 stage 7: assembling `fake_ciphertext` -/

theorem chunks_replicate (B : ℕ) (hB : 0 < B) (c : ℕ) :
    ∀ M, chunks (List.replicate (M * B) c) B = List.replicate M (List.replicate B c) := by
  intro M
  induction M with
  | zero =>
    rw [Nat.zero_mul]
    rfl
  | succ M ih =>
    have h1 : (M + 1) * B = B + M * B := by ring
    rw [h1, List.replicate_add]
    rw [chunks_cons B hB _ _ (by simp), ih]
    rfl

theorem chunks_full (B : ℕ) (hB : 0 < B) :
    ∀ (N : ℕ) (s : Bytes), s.length = N * B →
      (chunks s B).length = N ∧ (∀ b ∈ chunks s B, b.length = B) ∧
      (chunks s B).foldr (· ++ ·) [] = s := by
  intro N
  induction N with
  | zero =>
    intro s hs
    have hnil : s = [] := by
      cases s with
      | nil => rfl
      | cons x xs => simp at hs
    subst hnil
    refine ⟨rfl, ?_, rfl⟩
    intro b hb
    rw [show chunks ([] : Bytes) B = [] from rfl] at hb
    cases hb
  | succ N ih =>
    intro s hs
    have htl : (s.take B).length = B := by
      rw [List.length_take]
      have h2 : (N + 1) * B = N * B + B := by ring
      omega
    have hdl : (s.drop B).length = N * B := by
      rw [List.length_drop]
      have h2 : (N + 1) * B = N * B + B := by ring
      omega
    obtain ⟨ih1, ih2, ih3⟩ := ih (s.drop B) hdl
    have hsplit : chunks s B = s.take B :: chunks (s.drop B) B := by
      conv_lhs => rw [← List.take_append_drop B s]
      rw [chunks_cons B hB _ _ htl]
    rw [hsplit]
    refine ⟨by simp [ih1], ?_, ?_⟩
    · intro b hb
      rcases List.mem_cons.mp hb with rfl | hb
      · exact htl
      · exact ih2 b hb
    · simp only [List.foldr_cons, ih3, List.take_append_drop]

theorem xor2_xor2_cancel (a b : Bytes) (hb : b.length = a.length) :
    xor2 a (xor2 a b) = b := by
  rw [xor2_eq a (xor2 a b) (xor2_length a b hb)]
  have hpt : ∀ j ∈ List.range a.length,
      a.getD j 0 ^^^ (xor2 a b).getD j 0 = b.getD j 0 := by
    intro j hj
    rw [List.mem_range] at hj
    rw [xor2_getD a b hb j hj, ← Nat.xor_assoc, Nat.xor_self, Nat.zero_xor]
  rw [List.map_congr_left hpt]
  exact map_getD_range_self2 b 0 a.length hb

theorem cbcDecGo_chain (D : Bytes → Bytes) (B N : ℕ)
    (hDlen : ∀ b : Bytes, b.length = B → (D b).length = B)
    (nplB : List Bytes) (hnpl : ∀ b ∈ nplB, b.length = B) (hlenN : nplB.length = N)
    (hN : 1 ≤ N)
    (hchainB : ∀ j, (CBC.fakeChain D B N nplB j).length = B) :
    ∀ k, k ≤ N →
      CBC.cbcDecGo D (CBC.fakeChain D B N nplB k)
        ((List.range k).map (fun i => CBC.fakeChain D B N nplB (k - 1 - i))) =
      ((List.range k).map (fun i => nplB.getD (N - k + i) [])).foldr (· ++ ·) [] := by
  intro k
  induction k with
  | zero => intro _; rfl
  | succ k ih =>
    intro hk1
    have hhead : (List.range (k + 1)).map
        (fun i => CBC.fakeChain D B N nplB (k + 1 - 1 - i)) =
        CBC.fakeChain D B N nplB k ::
          (List.range k).map (fun i => CBC.fakeChain D B N nplB (k - 1 - i)) := by
      rw [List.range_succ_eq_map]
      simp only [List.map_cons, List.map_map]
      congr 1
      apply List.map_congr_left
      intro i _
      simp only [Function.comp_apply]
      congr 1
      omega
    rw [hhead, cbcDecGo_cons]
    have hx : xor2 (D (CBC.fakeChain D B N nplB k))
        (CBC.fakeChain D B N nplB (k + 1)) = nplB.getD (N - (k + 1)) [] := by
      rw [show CBC.fakeChain D B N nplB (k + 1) =
        xor2 (D (CBC.fakeChain D B N nplB k)) (nplB.getD (N - (k + 1)) []) from rfl]
      refine xor2_xor2_cancel _ _ ?_
      rw [hDlen _ (hchainB k)]
      exact hnpl _ (getD_mem_of_lt nplB _ (by omega))
    rw [hx, ih (by omega)]
    have htail : (List.range (k + 1)).map
        (fun i => nplB.getD (N - (k + 1) + i) ([] : Bytes)) =
        nplB.getD (N - (k + 1)) [] ::
          (List.range k).map (fun i => nplB.getD (N - k + i) []) := by
      rw [List.range_succ_eq_map]
      simp only [List.map_cons, List.map_map]
      congr 1
      apply List.map_congr_left
      intro i _
      simp only [Function.comp_apply]
      have hi : N - (k + 1) + (i + 1) = N - k + i := by omega
      rw [hi]
    rw [htail, List.foldr_cons]

/-- Claim C1 (corrected): with the re-query filter's blind spot excluded by
`noSurvFP` along the chain of intermediate targets, `fake_ciphertext`
(no original ciphertext, iv or plaintext) succeeds and produces a
ciphertext of length `|new_plaintext| + B` whose CBC decryption under the
same cipher, taking the first block as IV, is exactly `new_plaintext`. -/
theorem fake_ciphertext_correct {σ : Type} (D : Bytes → Bytes) (B : ℕ)
    (O : CBC.Oracle σ) (hO : CBC.consistentOracle D B O)
    (hB2 : 2 ≤ B) (hB255 : B ≤ 255)
    (hDlen : ∀ b : Bytes, b.length = B → (D b).length = B)
    (hDbyte : ∀ b : Bytes, b.length = B → ∀ j, j < B → (D b).getD j 0 < 256)
    (npl : Bytes) (N : ℕ) (hN : 1 ≤ N) (hlnpl : npl.length = N * B)
    (hNS : ∀ j, j < N → CBC.noSurvFP D B (List.replicate B 0x41)
      (CBC.fakeChain D B N (chunks npl B) j)) (s₀ : σ) :
    ∃ ct, CBC.fake_ciphertext O B npl Option.none Option.none Option.none s₀ =
        .ok ct ∧
      ct.length = npl.length + B ∧
      CBC.cbcDecrypt D B (ct.take B) (ct.drop B) = npl := by
  have hB0 : 0 < B := by omega
  obtain ⟨hPlen, hPmem, hPjoin⟩ := chunks_full B hB0 N npl hlnpl
  have hchainB := fakeChain_length D B N hDlen (chunks npl B) hPmem hPlen hN
  have hblocks : chunks (List.replicate (npl.length + B) 0x41) B =
      List.replicate (N + 1) (List.replicate B 0x41) := by
    rw [hlnpl, show N * B + B = (N + 1) * B from by ring, chunks_replicate B hB0]
  have hloop := fakeLoop_fake D B O hO hB2 hB255 hDlen hDbyte N hN (chunks npl B)
    hPmem hPlen hNS s₀ N le_rfl (List.replicate (N + 1) (List.replicate B 0x41))
    (by simp)
    (by intro j hj; exact getD_replicate [] (N + 1) _ j (by omega))
    (by
      intro j hj1 hj2
      have hj : j = N := by omega
      rw [hj, getD_replicate [] (N + 1) _ N (by omega), Nat.sub_self]
      rfl)
  rw [CBC.fake_ciphertext]
  rw [if_neg (by simp)]
  rw [if_neg (by simp)]
  rw [if_neg (by simp)]
  rw [if_neg (by rw [hlnpl]; simp [Nat.mul_mod_left])]
  rw [hblocks]
  simp only [Option.getD_none]
  rw [if_neg (show ¬(([] : Bytes) ≠ []) from by simp)]
  rw [if_neg (show ¬(([] : Bytes) ≠ []) from by simp)]
  rw [if_neg (by simp [hPlen])]
  rw [show (List.replicate (N + 1) (List.replicate B 0x41)).length - 1 = N from by
    simp]
  rw [hloop]
  refine ⟨_, rfl, ?_, ?_⟩
  · rw [join_length B _ (by
      intro b hb
      rcases List.mem_map.mp hb with ⟨j, _, rfl⟩
      exact hchainB _)]
    rw [List.length_map, List.length_range, hlnpl]
    ring
  · have hflist : (List.range (N + 1)).map
        (fun j => CBC.fakeChain D B N (chunks npl B) (N - j)) =
        CBC.fakeChain D B N (chunks npl B) N ::
          (List.range N).map (fun i => CBC.fakeChain D B N (chunks npl B) (N - 1 - i)) := by
      rw [List.range_succ_eq_map]
      simp only [List.map_cons, List.map_map, Nat.sub_zero]
      congr 1
      apply List.map_congr_left
      intro i _
      simp only [Function.comp_apply]
      congr 1
      omega
    rw [hflist]
    simp only [List.foldr_cons]
    rw [List.take_left' (hchainB N), List.drop_left' (hchainB N)]
    rw [CBC.cbcDecrypt]
    rw [chunks_join B hB0 _ (by
      intro b hb
      rcases List.mem_map.mp hb with ⟨j, _, rfl⟩
      exact hchainB _)]
    rw [cbcDecGo_chain D B N hDlen (chunks npl B) hPmem hPlen hN hchainB N le_rfl]
    simp only [Nat.sub_self, Nat.zero_add]
    rw [map_getD_range_self2 (chunks npl B) [] N hPlen]
    exact hPjoin

/-- The C1 claim as stated fails: `c1CexD` maps 8-byte blocks to 8-byte
blocks, `c1CexO` is the PKCS#7 padding oracle consistent with it, and the
plaintext `'B' * 8` has length a positive multiple of the block size 8,
yet `fake_ciphertext` exhausts the oracle and returns an error instead of
a ciphertext: the mask plants a first-position false positive on the
synthetic block `'A' * 8` which the re-query filter cannot detect, the
byte at position 6 of the modified block being exactly `'A'`. -/
theorem fake_ciphertext_exhausts_oracle :
    CBC.consistentOracle c1CexD 8 c1CexO ∧
    (∀ b : Bytes, b.length = 8 → (c1CexD b).length = 8) ∧
    (∀ b : Bytes, b.length = 8 → ∀ j, j < 8 → (c1CexD b).getD j 0 < 256) ∧
    (List.replicate 8 0x42).length = 1 * 8 ∧
    CBC.fake_ciphertext c1CexO 8 (List.replicate 8 0x42)
        Option.none Option.none Option.none () = .error .oracleExhausted := by
  refine ⟨fun _ _ _ => rfl, ?_, ?_, rfl, rfl⟩
  · intro b hb
    rw [show c1CexD b = xor2 (b.map (· % 256)) [0, 0, 0, 0, 0, 0, 2, 0x43] from rfl]
    rw [xor2_length _ _ (by rw [List.length_map, hb]; rfl)]
    rw [List.length_map, hb]
  · intro b hb j hj
    rw [show c1CexD b = xor2 (b.map (· % 256)) [0, 0, 0, 0, 0, 0, 2, 0x43] from rfl]
    rw [xor2_getD _ _ (by rw [List.length_map, hb]; rfl) j (by rw [List.length_map, hb]; exact hj)]
    refine xor_byte_lt _ _ ?_ ?_
    · have hj' : j < (b.map (· % 256)).length := by rw [List.length_map, hb]; exact hj
      rw [getD_eq_getElem _ _ _ hj', List.getElem_map]
      exact Nat.mod_lt _ (by omega)
    · interval_cases j <;> decide

theorem fake_ciphertext_correct_witness :
    ∃ ct, CBC.fake_ciphertext c1WitO 8 (List.replicate 8 0x42)
        Option.none Option.none Option.none () = .ok ct ∧
      ct.length = (List.replicate 8 0x42).length + 8 ∧
      CBC.cbcDecrypt c1WitD 8 (ct.take 8) (ct.drop 8) = List.replicate 8 0x42 :=
  fake_ciphertext_correct c1WitD 8 c1WitO (fun _ _ _ => rfl) (by omega) (by omega)
    (by intro b hb; rw [show c1WitD b = b.map (· % 256) from rfl, List.length_map, hb])
    (by
      intro b hb j hj
      have hj' : j < (b.map (· % 256)).length := by rw [List.length_map, hb]; exact hj
      rw [show c1WitD b = b.map (· % 256) from rfl, getD_eq_getElem _ _ _ hj',
        List.getElem_map]
      exact Nat.mod_lt _ (by omega))
    (List.replicate 8 0x42) 1 le_rfl (by decide)
    (by
      intro j hj
      have hj0 : j = 0 := by omega
      subst hj0
      intro _ k hk hfp
      rcases Finset.mem_Icc.mp hk with ⟨hk2, hk8⟩
      have h6 : (0 : ℕ) = k := hfp 6 (by rw [Finset.mem_Ico]; omega)
      omega) ()

theorem contFracGo_stable : ∀ f₁ f₂ a b, b < f₁ → b < f₂ →
    contFracGo f₁ a b = contFracGo f₂ a b := by
  intro f₁
  induction f₁ with
  | zero => intro f₂ a b h _; exact absurd h (Nat.not_lt_zero b)
  | succ f ih =>
    intro f₂ a b h1 h2
    match b, f₂ with
    | 0, f₂ => cases f₂ <;> rfl
    | b + 1, f₂ + 1 =>
      have hm : a % (b + 1) < b + 1 := Nat.mod_lt _ (by omega)
      show a / (b + 1) :: contFracGo f (b + 1) (a % (b + 1)) = _
      rw [ih f₂ (b + 1) (a % (b + 1)) (by omega) (by omega)]
      rfl

theorem contFrac_cons (a b : ℕ) (hb : 0 < b) :
    contFrac a b = a / b :: contFrac b (a % b) := by
  obtain ⟨b', rfl⟩ : ∃ b', b = b' + 1 := ⟨b - 1, by omega⟩
  have hm : a % (b' + 1) < b' + 1 := Nat.mod_lt _ (by omega)
  show a / (b' + 1) :: contFracGo (b' + 1) (b' + 1) (a % (b' + 1)) =
    a / (b' + 1) :: contFrac (b' + 1) (a % (b' + 1))
  rw [contFrac]
  congr 1
  exact contFracGo_stable (b' + 1) (a % (b' + 1) + 1) (b' + 1) (a % (b' + 1))
    (by omega) (by omega)

theorem convergentsGo_transform (q0 : ℕ) : ∀ (as : List ℕ) (h1 k1 h2 k2 : ℕ),
    convergentsGo as (q0 * h1 + k1, h1) (q0 * h2 + k2, h2) =
      (convergentsGo as (h1, k1) (h2, k2)).map (fun p => (q0 * p.1 + p.2, p.1)) := by
  intro as
  induction as with
  | nil => intro h1 k1 h2 k2; rfl
  | cons a as ih =>
    intro h1 k1 h2 k2
    show (a * (q0 * h1 + k1) + (q0 * h2 + k2), a * h1 + h2) ::
        convergentsGo as (a * (q0 * h1 + k1) + (q0 * h2 + k2), a * h1 + h2)
          (q0 * h1 + k1, h1) = _
    rw [show a * (q0 * h1 + k1) + (q0 * h2 + k2) =
      q0 * (a * h1 + h2) + (a * k1 + k2) from by ring]
    rw [ih (a * h1 + h2) (a * k1 + k2) h1 k1]
    rfl

theorem convergents_cons (q0 : ℕ) (as : List ℕ) :
    convergents (q0 :: as) =
      (q0, 1) :: (convergents as).map (fun p => (q0 * p.1 + p.2, p.1)) := by
  show (q0 * 1 + 0, q0 * 0 + 1) ::
      convergentsGo as (q0 * 1 + 0, q0 * 0 + 1) (1, 0) = _
  rw [show q0 * 1 + 0 = q0 from by ring, show q0 * 0 + 1 = 1 from by ring]
  congr 1
  have h := convergentsGo_transform q0 as 1 0 0 1
  rw [show q0 * 1 + 0 = q0 from by ring, show q0 * 0 + 1 = 1 from by ring] at h
  exact h

theorem convergents_num_pos : ∀ b, ∀ a, b ≤ a → 0 < b →
    ∀ p ∈ convergents (contFrac a b), 1 ≤ p.1 := by
  intro b
  induction b using Nat.strong_induction_on with
  | _ b ih =>
    intro a hba hb p hp
    rw [contFrac_cons a b hb, convergents_cons] at hp
    rcases List.mem_cons.mp hp with h | h
    · rw [h]
      exact (Nat.one_le_div_iff hb).mpr hba
    · rcases List.mem_map.mp h with ⟨p', hp', rfl⟩
      rcases Nat.eq_zero_or_pos (a % b) with hr | hr
      · rw [hr] at hp'
        exact absurd hp' (by rw [show contFrac b 0 = [] from rfl]; exact List.not_mem_nil p')
      · have h1 : 1 ≤ p'.1 :=
          ih (a % b) (Nat.mod_lt _ hb) b (le_of_lt (Nat.mod_lt _ hb)) hr p' hp'
        have hq0 : 1 ≤ a / b := (Nat.one_le_div_iff hb).mpr hba
        have hmul := Nat.mul_le_mul hq0 h1
        show 1 ≤ a / b * p'.1 + p'.2
        omega

theorem convergents_den_pos (a b : ℕ) (hb : 0 < b) :
    ∀ p ∈ convergents (contFrac a b), 1 ≤ p.2 := by
  intro p hp
  rw [contFrac_cons a b hb, convergents_cons] at hp
  rcases List.mem_cons.mp hp with h | h
  · rw [h]
  · rcases List.mem_map.mp h with ⟨p', hp', rfl⟩
    rcases Nat.eq_zero_or_pos (a % b) with hr | hr
    · rw [hr] at hp'
      exact absurd hp' (by rw [show contFrac b 0 = [] from rfl]; exact List.not_mem_nil p')
    · exact convergents_num_pos (a % b) b (le_of_lt (Nat.mod_lt _ hb)) hr p' hp'

theorem convergents_den_le_num (a b : ℕ) (hb : 0 < b) (hba : b ≤ a) :
    ∀ p ∈ convergents (contFrac a b), p.2 ≤ p.1 := by
  intro p hp
  rw [contFrac_cons a b hb, convergents_cons] at hp
  rcases List.mem_cons.mp hp with h | h
  · rw [h]
    exact (Nat.one_le_div_iff hb).mpr hba
  · rcases List.mem_map.mp h with ⟨p', hp', rfl⟩
    have hq0 : 1 ≤ a / b := (Nat.one_le_div_iff hb).mpr hba
    show p'.1 ≤ a / b * p'.1 + p'.2
    have := Nat.mul_le_mul hq0 (le_refl p'.1)
    omega

theorem convergents_num_le_den (a b : ℕ) (hab : a < b) :
    ∀ p ∈ convergents (contFrac a b), p.1 ≤ p.2 := by
  intro p hp
  rw [contFrac_cons a b (by omega), convergents_cons] at hp
  rcases List.mem_cons.mp hp with h | h
  · rw [h]
    show a / b ≤ 1
    rw [Nat.div_eq_of_lt hab]
    omega
  · rcases List.mem_map.mp h with ⟨p', hp', rfl⟩
    rw [Nat.mod_eq_of_lt hab] at hp'
    rcases Nat.eq_zero_or_pos a with ha | ha
    · rw [ha] at hp'
      rw [show contFrac b 0 = [] from rfl] at hp'
      exact absurd hp' (List.not_mem_nil p')
    · have h2 := convergents_den_le_num b a ha (by omega) p' hp'
      show a / b * p'.1 + p'.2 ≤ p'.1
      rw [Nat.div_eq_of_lt hab]
      omega

theorem convergents_chain_comb : ∀ b, ∀ a, 0 < b → b ≤ a →
    (convergents (contFrac a b)).Chain' (fun x y => x.1 ≤ y.1 ∧ x.2 ≤ y.2) := by
  intro b
  induction b using Nat.strong_induction_on with
  | _ b ih =>
    intro a hb hba
    rw [contFrac_cons a b hb, convergents_cons]
    rw [List.chain'_cons']
    constructor
    · intro y hy
      rw [Option.mem_def, List.head?_map, Option.map_eq_some'] at hy
      obtain ⟨p', hp', rfl⟩ := hy
      have h1 : 1 ≤ p'.1 := by
        rcases Nat.eq_zero_or_pos (a % b) with hr | hr
        · rw [hr, show contFrac b 0 = [] from rfl] at hp'
          exact absurd (List.mem_of_mem_head? hp') (List.not_mem_nil p')
        · exact convergents_num_pos (a % b) b (le_of_lt (Nat.mod_lt _ hb)) hr p'
            (List.mem_of_mem_head? hp')
      constructor
      · show a / b ≤ a / b * p'.1 + p'.2
        have := Nat.mul_le_mul (le_refl (a / b)) h1
        omega
      · exact h1
    · rw [List.chain'_map]
      rcases Nat.eq_zero_or_pos (a % b) with hr | hr
      · rw [hr, show contFrac b 0 = [] from rfl]
        exact List.chain'_nil
      · have hcomb := ih (a % b) (Nat.mod_lt _ hb) b hr (le_of_lt (Nat.mod_lt _ hb))
        refine List.Chain'.imp ?_ hcomb
        intro x y hxy
        refine ⟨?_, hxy.1⟩
        have h1 := Nat.mul_le_mul (le_refl (a / b)) hxy.1
        have h2 := hxy.2
        show a / b * x.1 + x.2 ≤ a / b * y.1 + y.2
        omega

theorem convergents_den_chain (a b : ℕ) (hb : 0 < b) :
    (convergents (contFrac a b)).Chain' (fun x y => x.2 ≤ y.2) := by
  rcases le_or_lt b a with hba | hab
  · exact (convergents_chain_comb b a hb hba).imp (fun x y h => h.2)
  · rw [contFrac_cons a b hb, convergents_cons]
    rw [List.chain'_cons']
    constructor
    · intro y hy
      rw [Option.mem_def, List.head?_map, Option.map_eq_some'] at hy
      obtain ⟨p', hp', rfl⟩ := hy
      show 1 ≤ p'.1
      rcases Nat.eq_zero_or_pos (a % b) with hr | hr
      · rw [hr, show contFrac b 0 = [] from rfl] at hp'
        exact absurd (List.mem_of_mem_head? hp') (List.not_mem_nil p')
      · exact convergents_num_pos (a % b) b (le_of_lt (Nat.mod_lt _ hb)) hr p'
          (List.mem_of_mem_head? hp')
    · rw [List.chain'_map]
      rcases Nat.eq_zero_or_pos (a % b) with hr | hr
      · rw [hr, show contFrac b 0 = [] from rfl]
        exact List.chain'_nil
      · have hcomb := convergents_chain_comb (a % b) b hr (le_of_lt (Nat.mod_lt _ hb))
        exact hcomb.imp (fun x y h => h.1)

theorem convergentsGo_coprime : ∀ (as : List ℕ) (h1 k1 h2 k2 : ℕ),
    ((h1 : ℤ) * k2 - h2 * k1 = 1 ∨ (h1 : ℤ) * k2 - h2 * k1 = -1) →
    ∀ p ∈ convergentsGo as (h1, k1) (h2, k2), Nat.Coprime p.1 p.2 := by
  intro as
  induction as with
  | nil => intro h1 k1 h2 k2 _ p hp; exact absurd hp (List.not_mem_nil p)
  | cons a as ih =>
    intro h1 k1 h2 k2 hdet p hp
    have hdet' : ((a * h1 + h2 : ℕ) : ℤ) * k1 - h1 * (a * k1 + k2) = 1 ∨
        ((a * h1 + h2 : ℕ) : ℤ) * k1 - h1 * (a * k1 + k2) = -1 := by
      rcases hdet with h | h
      · right; push_cast; linear_combination -h
      · left; push_cast; linear_combination -h
    rcases List.mem_cons.mp hp with h | h
    · subst h
      show Nat.Coprime (a * h1 + h2) (a * k1 + k2)
      have hg1 : ((a * h1 + h2 : ℕ).gcd (a * k1 + k2) : ℤ) ∣ ((a * h1 + h2 : ℕ) : ℤ) :=
        Int.natCast_dvd_natCast.mpr (Nat.gcd_dvd_left _ _)
      have hg2 : ((a * h1 + h2 : ℕ).gcd (a * k1 + k2) : ℤ) ∣ ((a * k1 + k2 : ℕ) : ℤ) :=
        Int.natCast_dvd_natCast.mpr (Nat.gcd_dvd_right _ _)
      have hdvd : ((a * h1 + h2 : ℕ).gcd (a * k1 + k2) : ℤ) ∣
          ((a * h1 + h2 : ℕ) : ℤ) * k1 - h1 * (a * k1 + k2) :=
        dvd_sub (hg1.mul_right _) (hg2.mul_left _)
      have hone : ((a * h1 + h2 : ℕ).gcd (a * k1 + k2) : ℤ) ∣ 1 := by
        rcases hdet' with h' | h'
        · rw [h'] at hdvd; exact hdvd
        · rw [h'] at hdvd; exact (dvd_neg.mp hdvd)
      have := Int.natCast_dvd_natCast.mp (by exact_mod_cast hone)
      exact Nat.dvd_one.mp this
    · exact ih (a * h1 + h2) (a * k1 + k2) h1 k1 (by
        rcases hdet' with h' | h'
        · left; push_cast at h' ⊢; linear_combination h'
        · right; push_cast at h' ⊢; linear_combination h') p h

theorem convergents_coprime (a b : ℕ) :
    ∀ p ∈ convergents (contFrac a b), Nat.Coprime p.1 p.2 := by
  intro p hp
  exact convergentsGo_coprime (contFrac a b) 1 0 0 1 (by left; norm_num) p hp

theorem floor_nat_div (a b : ℕ) (hb : 0 < b) : ⌊(a : ℝ) / b⌋ = (a / b : ℕ) := by
  have hx : (0 : ℝ) ≤ (a : ℝ) / b := by positivity
  have h1 : ⌊(a : ℝ) / b⌋ = (⌊(a : ℝ) / b⌋.toNat : ℤ) :=
    (Int.toNat_of_nonneg (Int.floor_nonneg.mpr hx)).symm
  rw [h1, Int.floor_toNat, Nat.floor_div_eq_div]

theorem fract_nat_div (a b : ℕ) (hb : 0 < b) :
    Int.fract ((a : ℝ) / b) = ((a % b : ℕ) : ℝ) / b := by
  have hb' : (b : ℝ) ≠ 0 := Nat.cast_ne_zero.mpr (by omega)
  have key : (b : ℝ) * ((a / b : ℕ) : ℝ) + ((a % b : ℕ) : ℝ) = (a : ℝ) := by
    exact_mod_cast Nat.div_add_mod a b
  rw [Int.fract, floor_nat_div a b hb]
  rw [eq_div_iff hb', sub_mul, div_mul_cancel₀ _ hb', Int.cast_natCast]
  linarith [key]

theorem cfConv_of_getElem (a b i : ℕ) (pr : ℕ × ℕ)
    (h : (convergents (contFrac a b))[i]? = some pr) :
    cfConv a b i = (pr.1 : ℚ) / pr.2 := by
  rw [cfConv, h]

theorem cfConv_of_none (a b i : ℕ)
    (h : (convergents (contFrac a b))[i]? = Option.none) :
    cfConv a b i = (a : ℚ) / b := by
  rw [cfConv, h]

theorem convergent_eq_cfConv : ∀ b a i : ℕ, 0 < b →
    ((a : ℝ) / (b : ℝ)).convergent i = cfConv a b i := by
  intro b
  induction b using Nat.strong_induction_on with
  | _ b ih =>
    intro a i hb
    match i with
    | 0 =>
      rw [Real.convergent_zero, floor_nat_div a b hb,
        cfConv_of_getElem a b 0 (a / b, 1)
          (by rw [contFrac_cons a b hb, convergents_cons, List.getElem?_cons_zero])]
      rw [Nat.cast_one, div_one, Int.cast_natCast]
    | i + 1 =>
      rw [Real.convergent_succ, fract_nat_div a b hb]
      rcases Nat.eq_zero_or_pos (a % b) with hr | hr
      · rw [hr, Nat.cast_zero, zero_div, inv_zero, Real.convergent_of_zero, inv_zero,
          add_zero, floor_nat_div a b hb]
        rw [cfConv_of_none a b (i + 1) (by
          rw [contFrac_cons a b hb, hr, convergents_cons,
            show contFrac b 0 = [] from rfl]
          rfl)]
        rw [Int.cast_natCast]
        rw [Nat.cast_div (Nat.dvd_of_mod_eq_zero hr) (Nat.cast_ne_zero.mpr (by omega))]
      · rw [inv_div, ih (a % b) (Nat.mod_lt _ hb) b i hr, floor_nat_div a b hb]
        rcases hE : (convergents (contFrac b (a % b)))[i]? with _ | pr
        · rw [cfConv_of_none b (a % b) i hE]
          rw [cfConv_of_none a b (i + 1) (by
            rw [contFrac_cons a b hb, convergents_cons, List.getElem?_cons_succ,
              List.getElem?_map, hE]
            rfl)]
          rw [inv_div]
          have key : (b : ℚ) * ((a / b : ℕ) : ℚ) + ((a % b : ℕ) : ℚ) = (a : ℚ) := by
            exact_mod_cast Nat.div_add_mod a b
          have hbq : (b : ℚ) ≠ 0 := Nat.cast_ne_zero.mpr (by omega)
          rw [Int.cast_natCast]
          field_simp
          linarith [key]
        · have hmem : pr ∈ convergents (contFrac b (a % b)) :=
            List.mem_iff_getElem?.mpr ⟨i, hE⟩
          have h1 : 1 ≤ pr.1 :=
            convergents_num_pos (a % b) b (le_of_lt (Nat.mod_lt _ hb)) hr pr hmem
          have h2 : 1 ≤ pr.2 := convergents_den_pos b (a % b) hr pr hmem
          rw [cfConv_of_getElem b (a % b) i pr hE]
          rw [cfConv_of_getElem a b (i + 1) (a / b * pr.1 + pr.2, pr.1) (by
            rw [contFrac_cons a b hb, convergents_cons, List.getElem?_cons_succ,
              List.getElem?_map, hE]
            rfl)]
          rw [inv_div, Int.cast_natCast]
          have hp1 : (pr.1 : ℚ) ≠ 0 := Nat.cast_ne_zero.mpr (by omega)
          have hp2 : (pr.2 : ℚ) ≠ 0 := Nat.cast_ne_zero.mpr (by omega)
          show ((a / b : ℕ) : ℚ) + (pr.2 : ℚ) / pr.1 = _
          field_simp

theorem find?_split {α : Type} (P : α → Bool) : ∀ (l : List α) (x : α),
    l.find? P = some x →
    P x = true ∧ ∃ l₁ l₂, l = l₁ ++ x :: l₂ ∧ ∀ y ∈ l₁, P y = false := by
  intro l
  induction l with
  | nil => intro x h; exact absurd h (by simp)
  | cons a l ih =>
    intro x h
    cases hPa : P a with
    | true =>
      rw [List.find?_cons_of_pos _ hPa] at h
      injection h with h
      subst h
      exact ⟨hPa, [], l, rfl, by intro y hy; exact absurd hy (List.not_mem_nil y)⟩
    | false =>
      rw [List.find?_cons_of_neg _ (by rw [hPa]; exact Bool.false_ne_true)] at h
      obtain ⟨hx, l₁, l₂, rfl, hfail⟩ := ih x h
      refine ⟨hx, a :: l₁, l₂, rfl, ?_⟩
      intro y hy
      rcases List.mem_cons.mp hy with rfl | hy'
      · exact hPa
      · exact hfail y hy'

theorem isqrtGo_eq_iter (x : ℕ) : ∀ g, ∀ fuel, g < fuel →
    isqrtGo x fuel g = Nat.sqrt.iter x g := by
  intro g
  induction g using Nat.strong_induction_on with
  | _ g ih =>
    intro fuel hf
    obtain ⟨f, rfl⟩ : ∃ f, fuel = f + 1 := ⟨fuel - 1, by omega⟩
    show (if (g + x / g) / 2 < g then isqrtGo x f ((g + x / g) / 2) else g) = _
    rw [Nat.sqrt.iter]
    by_cases hlt : (g + x / g) / 2 < g
    · rw [if_pos hlt, dif_pos hlt]
      exact ih _ hlt f (by omega)
    · rw [if_neg hlt, dif_neg hlt]

theorem isqrt_eq_sqrt (x : ℕ) : isqrt x = Nat.sqrt x := by
  rw [isqrt, Nat.sqrt]
  by_cases h : x ≤ 1
  · rw [if_pos h, if_pos h]
  · rw [if_neg h, if_neg h]
    exact isqrtGo_eq_iter x (x / 2) x (by omega)

theorem wienerPass_true_pair (p q e d k : ℕ) (hq2 : 2 < q) (hqp : q < p)
    (hpodd : p % 2 = 1) (hqodd : q % 2 = 1) (he2 : 2 ≤ e) (hd1 : 1 ≤ d) (hk1 : 1 ≤ k)
    (hk : e * d = 1 + k * ((p - 1) * (q - 1))) :
    wienerPass (p * q) e (k, d) = true := by
  have hed1 : e * d - 1 = k * ((p - 1) * (q - 1)) := by omega
  rw [wienerPass]
  simp only []
  rw [if_neg (by omega : ¬ (k = 0))]
  rw [if_neg (by
    rw [hed1, Nat.mul_mod_right]
    omega : ¬ ((e * d - 1) % k ≠ 0))]
  rw [hed1, Nat.mul_div_cancel_left _ (by omega : 0 < k)]
  have hb : ((p * q : ℕ) : ℤ) - ((p - 1) * (q - 1) : ℕ) + 1 = (p : ℤ) + q := by
    push_cast [Nat.cast_sub (by omega : 1 ≤ p), Nat.cast_sub (by omega : 1 ≤ q)]
    ring
  rw [hb]
  have hdelta : ((p : ℤ) + q) * ((p : ℤ) + q) - 4 * ((p * q : ℕ) : ℤ) =
      (((p - q) ^ 2 : ℕ) : ℤ) := by
    push_cast [Nat.cast_sub (by omega : q ≤ p)]
    ring
  have hpq1 : (1 : ℤ) ≤ (((p - q) ^ 2 : ℕ) : ℤ) := by
    have h1 : 1 ≤ (p - q) ^ 2 := by
      have : 1 ≤ p - q := by omega
      nlinarith
    exact_mod_cast h1
  rw [if_pos (by rw [hdelta]; omega)]
  rw [hdelta, Int.toNat_natCast]
  rw [decide_eq_true_eq]
  refine ⟨?_, ?_⟩
  · rw [show isqrt ((p - q) ^ 2) = p - q from by
      rw [isqrt_eq_sqrt]; exact Nat.sqrt_eq' (p - q)]
    ring
  · rw [show isqrt ((p - q) ^ 2) = p - q from by
      rw [isqrt_eq_sqrt]; exact Nat.sqrt_eq' (p - q)]
    omega

set_option maxHeartbeats 1000000 in
theorem wienerPass_cases (p q e : ℕ) (hp : Nat.Prime p) (hq : Nat.Prime q)
    (hqp : q < p) (hq1 : 1 < q) (he2 : 2 ≤ e) (k₀ d₀ : ℕ) (hd₀ : 1 ≤ d₀)
    (hpass : wienerPass (p * q) e (k₀, d₀) = true) :
    1 ≤ k₀ ∧
    (e * d₀ - 1 = k₀ * ((p - 1) * (q - 1)) ∨
     e * d₀ - 1 = k₀ * (p * q + 1 + (p + q)) ∨
     e * d₀ - 1 = k₀ * (2 * (p * q) + 2)) := by
  rw [wienerPass] at hpass
  simp only [] at hpass
  by_cases hk0 : k₀ = 0
  · rw [if_pos hk0] at hpass
    exact absurd hpass (by simp)
  rw [if_neg hk0] at hpass
  by_cases hdvd : (e * d₀ - 1) % k₀ ≠ 0
  · rw [if_pos hdvd] at hpass
    exact absurd hpass (by simp)
  rw [if_neg hdvd] at hpass
  push_neg at hdvd
  refine ⟨by omega, ?_⟩
  have hed2 : 2 ≤ e * d₀ := le_trans he2 (Nat.le_mul_of_pos_right e (by omega))
  have hEq : e * d₀ - 1 = k₀ * ((e * d₀ - 1) / k₀) :=
    (Nat.mul_div_cancel' (Nat.dvd_of_mod_eq_zero hdvd)).symm
  by_cases hdel : ((p * q : ℕ) : ℤ) - (((e * d₀ - 1) / k₀ : ℕ) : ℤ) + 1 > 0 ∨ True
  swap
  · exact absurd trivial (by intro h; exact hdel (Or.inr h))
  clear hdel
  by_cases hdel : (((p * q : ℕ) : ℤ) - (((e * d₀ - 1) / k₀ : ℕ) : ℤ) + 1) *
      (((p * q : ℕ) : ℤ) - (((e * d₀ - 1) / k₀ : ℕ) : ℤ) + 1) -
      4 * ((p * q : ℕ) : ℤ) > 0
  swap
  · rw [if_neg hdel] at hpass
    exact absurd hpass (by simp)
  rw [if_pos hdel, decide_eq_true_eq] at hpass
  have hex : ∃ s, s * s = ((((p * q : ℕ) : ℤ) - (((e * d₀ - 1) / k₀ : ℕ) : ℤ) + 1) *
      (((p * q : ℕ) : ℤ) - (((e * d₀ - 1) / k₀ : ℕ) : ℤ) + 1) -
      4 * ((p * q : ℕ) : ℤ)).toNat ∧ s % 2 = 0 := ⟨_, hpass.1, hpass.2⟩
  clear hpass
  set φ₀ : ℕ := (e * d₀ - 1) / k₀ with hφ₀def
  set b₀ : ℤ := ((p * q : ℕ) : ℤ) - (φ₀ : ℤ) + 1 with hb₀def
  set delta : ℤ := b₀ * b₀ - 4 * ((p * q : ℕ) : ℤ) with hdeltadef
  obtain ⟨s, hsq, hsev⟩ := hex
  have hdnn : (0 : ℤ) ≤ delta := le_of_lt hdel
  have hsZ : (s : ℤ) * (s : ℤ) = delta := by
    rw [show ((s : ℤ) * (s : ℤ)) = ((s * s : ℕ) : ℤ) from by push_cast; ring, hsq]
    exact Int.toNat_of_nonneg hdnn
  obtain ⟨m, hmdef⟩ : ∃ m, m = b₀.natAbs := ⟨b₀.natAbs, rfl⟩
  have hmZ : ((m * m : ℕ) : ℤ) = b₀ * b₀ := by
    rw [hmdef]
    exact @Int.natAbs_mul_self b₀
  have hmN : m * m = s * s + 4 * (p * q) := by
    have : ((m * m : ℕ) : ℤ) = ((s * s + 4 * (p * q) : ℕ) : ℤ) := by
      rw [hmZ]
      push_cast
      rw [show (b₀ : ℤ) * b₀ = delta + 4 * ((p * q : ℕ) : ℤ) from by
        rw [hdeltadef]; push_cast; ring]
      rw [← hsZ]
      push_cast
      ring
    exact_mod_cast this
  -- parity: s and m are both even
  obtain ⟨s', rfl⟩ : ∃ s', s = 2 * s' := ⟨s / 2, by omega⟩
  have hmev : m % 2 = 0 := by
    rcases Nat.even_or_odd m with he' | ho
    · exact Nat.even_iff.mp he'
    · obtain ⟨t, rfl⟩ := ho
      have h1 : (2 * t + 1) * (2 * t + 1) = 4 * (t * t) + 4 * t + 1 := by ring
      have h2 : (2 * s') * (2 * s') = 4 * (s' * s') := by ring
      omega
  obtain ⟨m', rfl⟩ : ∃ m', m = 2 * m' := ⟨m / 2, by omega⟩
  have hm'N : m' * m' = s' * s' + p * q := by
    have h1 : (2 * m') * (2 * m') = 4 * (m' * m') := by ring
    have h2 : (2 * s') * (2 * s') = 4 * (s' * s') := by ring
    omega
  have hm's' : s' < m' := by
    by_contra hle
    push_neg at hle
    have := Nat.mul_le_mul hle hle
    have hpq1 : 1 ≤ p * q := Nat.mul_pos hp.pos hq.pos
    omega
  -- the factorization p₀ * q₀ = p * q with p₀ = m' + s', q₀ = m' - s'
  have hfact : (m' + s') * (m' - s') = p * q := by
    obtain ⟨u, hu⟩ : ∃ u, m' = s' + u := ⟨m' - s', by omega⟩
    subst hu
    have h1 : (s' + u + s') * (s' + u - s') = 2 * (s' * u) + u * u := by
      rw [show s' + u - s' = u from by omega]
      ring
    have h2 : (s' + u) * (s' + u) = s' * s' + 2 * (s' * u) + u * u := by ring
    omega
  -- classify the factor pair
  have hq₀cases : m' - s' = 1 ∧ m' + s' = p * q ∨ m' - s' = q ∧ m' + s' = p := by
    have hq₀dvd : (m' - s') ∣ p * q := Dvd.intro_left _ hfact
    by_cases hpdvd : p ∣ (m' - s')
    · obtain ⟨t, ht⟩ := hpdvd
      have htq : t ∣ q := by
        have h1 : p * (t * (m' + s')) = p * q := by rw [← hfact, ht]; ring
        have h2 : t * (m' + s') = q := by
          have hppos : 0 < p := hp.pos
          exact Nat.eq_of_mul_eq_mul_left hppos h1
        exact Dvd.intro _ h2
      rcases (Nat.Prime.eq_one_or_self_of_dvd hq t htq) with ht1 | htq'
      · -- m' - s' = p, m' + s' = q : impossible since q < p ≤ m' - s' ≤ m' + s'
        rw [ht1, Nat.mul_one] at ht
        rw [ht] at hfact
        have h2 : m' + s' = q := by
          refine Nat.eq_of_mul_eq_mul_right hp.pos ?_
          rw [hfact]
          ring
        omega
      · -- t = q : m' - s' = p * q, m' + s' = 1 : impossible
        rw [htq'] at ht
        rw [ht] at hfact
        have hpqpos : 0 < p * q := Nat.mul_pos hp.pos hq.pos
        have h2 : m' + s' = 1 := by
          refine Nat.eq_of_mul_eq_mul_right hpqpos ?_
          rw [hfact, Nat.one_mul]
        have h3 : 2 ≤ p * q := le_trans hp.two_le (Nat.le_mul_of_pos_right p hq.pos)
        omega
    · have hcop : Nat.Coprime (m' - s') p :=
        Nat.Coprime.symm ((Nat.Prime.coprime_iff_not_dvd hp).mpr hpdvd)
      have hq₀q : (m' - s') ∣ q :=
        hcop.dvd_of_dvd_mul_right (by rwa [Nat.mul_comm] at hq₀dvd)
      rcases Nat.Prime.eq_one_or_self_of_dvd hq _ hq₀q with h1 | hqq
      · left
        refine ⟨h1, ?_⟩
        rw [h1, Nat.mul_one] at hfact
        exact hfact
      · right
        refine ⟨hqq, ?_⟩
        rw [hqq] at hfact
        exact Nat.eq_of_mul_eq_mul_right (by omega) hfact
  -- determine φ₀ from the sign of b₀ and the factor pair
  have hpq2 : 2 ≤ p * q := le_trans hp.two_le (Nat.le_mul_of_pos_right p hq.pos)
  have hφ₀Z : (b₀ : ℤ) = ((p * q : ℕ) : ℤ) - (φ₀ : ℤ) + 1 := hb₀def
  rcases Int.natAbs_eq b₀ with hb | hb <;> rw [← hmdef] at hb
  · -- b₀ = 2 m' ≥ 0
    rcases hq₀cases with ⟨hq₀1, hp₀n⟩ | ⟨hq₀q, hp₀p⟩
    · -- φ₀ = 0 : impossible
      have h2m : 2 * m' = p * q + 1 := by omega
      have hzero : (φ₀ : ℤ) = 0 := by
        rw [hb, h2m] at hφ₀Z
        push_cast at hφ₀Z
        omega
      have : φ₀ = 0 := by exact_mod_cast hzero
      rw [this, Nat.mul_zero] at hEq
      omega
    · -- φ₀ = (p-1)(q-1)
      left
      have h2m : 2 * m' = p + q := by omega
      have hφval : (φ₀ : ℤ) = ((p * q : ℕ) : ℤ) + 1 - ((p + q : ℕ) : ℤ) := by
        rw [hb, h2m] at hφ₀Z
        push_cast at hφ₀Z ⊢
        omega
      have hφN : φ₀ = (p - 1) * (q - 1) := by
        obtain ⟨p1, rfl⟩ : ∃ p1, p = p1 + 1 := ⟨p - 1, by omega⟩
        obtain ⟨q1, rfl⟩ : ∃ q1, q = q1 + 1 := ⟨q - 1, by omega⟩
        have hφN' : φ₀ = (p1 + 1) * (q1 + 1) + 1 - (p1 + 1 + (q1 + 1)) := by
          have : (φ₀ : ℤ) = (((p1 + 1) * (q1 + 1) + 1 - (p1 + 1 + (q1 + 1)) : ℕ) : ℤ) := by
            rw [hφval]
            have hc : p1 + 1 + (q1 + 1) ≤ (p1 + 1) * (q1 + 1) + 1 := by
              have hexp : (p1 + 1) * (q1 + 1) = p1 * q1 + p1 + q1 + 1 := by ring
              omega
            push_cast [Nat.cast_sub hc]
            ring
          exact_mod_cast this
        rw [hφN']
        have h1 : (p1 + 1) * (q1 + 1) = p1 * q1 + p1 + q1 + 1 := by ring
        have h2 : (p1 + 1 - 1) * (q1 + 1 - 1) = p1 * q1 := by simp
        omega
      rw [hEq, hφN]
  · -- b₀ = -(2 m') < 0
    rcases hq₀cases with ⟨hq₀1, hp₀n⟩ | ⟨hq₀q, hp₀p⟩
    · -- φ₀ = 2 p q + 2
      right; right
      have h2m : 2 * m' = p * q + 1 := by omega
      have hφval : φ₀ = 2 * (p * q) + 2 := by
        have : (φ₀ : ℤ) = ((2 * (p * q) + 2 : ℕ) : ℤ) := by
          rw [hb, h2m] at hφ₀Z
          push_cast at hφ₀Z ⊢
          omega
        exact_mod_cast this
      rw [hEq, hφval]
    · -- φ₀ = p q + 1 + (p + q)
      right; left
      have h2m : 2 * m' = p + q := by omega
      have hφval : φ₀ = p * q + 1 + (p + q) := by
        have : (φ₀ : ℤ) = ((p * q + 1 + (p + q) : ℕ) : ℤ) := by
          rw [hb, h2m] at hφ₀Z
          push_cast at hφ₀Z ⊢
          omega
        exact_mod_cast this
      rw [hEq, hφval]

theorem wiener_size_bound (p q d : ℕ) (hqp : q < p) (hp2q : p < 2 * q)
    (hq0 : 0 < q) (hd1 : 1 ≤ d) (hd4 : 81 * d ^ 4 < p * q) :
    2 * (2 * d * d * (p + q)) < p * q ∧
    2 * d * d * (p + q) + d + (p + q) ≤ p * q := by
  have hp0 : 0 < p := by omega
  have hpq0 : 0 < p * q := Nat.mul_pos hp0 hq0
  have hd40 : 0 < d ^ 4 := by positivity
  have h5 : (p + q) * (p + q) < 5 * (p * q) := by
    have hpp : p * p < 2 * (p * q) := by
      calc p * p < (2 * q) * p := mul_lt_mul_of_pos_right hp2q hp0
        _ = 2 * (p * q) := by ring
    have hqq : q * q < p * q := mul_lt_mul_of_pos_right hqp hq0
    have hexp : (p + q) * (p + q) = p * p + 2 * (p * q) + q * q := by ring
    omega
  have h4 : d ≤ d ^ 4 := by
    calc d = d * 1 := by ring
      _ ≤ d * (d * (d * d)) := Nat.mul_le_mul_left d (Nat.mul_pos hd1 (Nat.mul_pos hd1 hd1))
      _ = d ^ 4 := by ring
  have hAA : (2 * (2 * d * d * (p + q))) * (2 * (2 * d * d * (p + q))) <
      (p * q) * (p * q) := by
    calc (2 * (2 * d * d * (p + q))) * (2 * (2 * d * d * (p + q)))
        = 16 * (d ^ 4 * ((p + q) * (p + q))) := by ring
      _ ≤ 16 * (d ^ 4 * (5 * (p * q))) :=
          Nat.mul_le_mul_left 16 (Nat.mul_le_mul_left _ (le_of_lt h5))
      _ = 80 * (d ^ 4 * (p * q)) := by ring
      _ < 81 * (d ^ 4 * (p * q)) :=
          mul_lt_mul_of_pos_right (by omega) (Nat.mul_pos hd40 hpq0)
      _ = (81 * d ^ 4) * (p * q) := by ring
      _ ≤ (p * q - 1) * (p * q) := Nat.mul_le_mul_right _ (by omega)
      _ < (p * q) * (p * q) := mul_lt_mul_of_pos_right (by omega) hpq0
  have hA2 : 2 * (2 * d * d * (p + q)) < p * q := by
    by_contra hle
    push_neg at hle
    exact absurd (Nat.mul_le_mul hle hle) (by omega)
  have hppq : 4 * (p + q) < p * q := by
    have h80 : 80 ≤ p * q := by omega
    have hsq : (4 * (p + q)) * (4 * (p + q)) < (p * q) * (p * q) := by
      calc (4 * (p + q)) * (4 * (p + q)) = 16 * ((p + q) * (p + q)) := by ring
        _ < 16 * (5 * (p * q)) := mul_lt_mul_of_pos_left h5 (by omega)
        _ = 80 * (p * q) := by ring
        _ ≤ (p * q) * (p * q) := Nat.mul_le_mul_right _ h80
    by_contra hle
    push_neg at hle
    exact absurd (Nat.mul_le_mul hle hle) (by omega)
  have hd81 : 81 * d < p * q := by
    calc 81 * d ≤ 81 * d ^ 4 := Nat.mul_le_mul_left 81 h4
      _ < p * q := hd4
  exact ⟨hA2, by omega⟩

theorem wiener_approx (p q e d k : ℕ) (hqp : q < p) (hp2q : p < 2 * q)
    (hq0 : 0 < q) (hd1 : 1 ≤ d) (hk1 : 1 ≤ k) (hkd : k < d)
    (hd4 : 81 * d ^ 4 < p * q)
    (hk : e * d = 1 + k * ((p - 1) * (q - 1))) :
    |((e : ℝ) / ((p * q : ℕ) : ℝ)) - ((k : ℝ) / (d : ℝ))| <
      1 / (2 * (d : ℝ) ^ 2) := by
  have hp0 : 0 < p := by omega
  have hA2 := (wiener_size_bound p q d hqp hp2q hq0 hd1 hd4).1
  have hNpos : (0 : ℝ) < ((p * q : ℕ) : ℝ) := by
    exact_mod_cast Nat.mul_pos hp0 hq0
  have hDpos : (0 : ℝ) < (d : ℝ) := by exact_mod_cast hd1
  have hk1R : (1 : ℝ) ≤ (k : ℝ) := by exact_mod_cast hk1
  have hkdR : (k : ℝ) ≤ (d : ℝ) := by exact_mod_cast le_of_lt hkd
  have hpR : (2 : ℝ) ≤ (p : ℝ) := by
    have : 2 ≤ p := by omega
    exact_mod_cast this
  have hqR : (1 : ℝ) ≤ (q : ℝ) := by exact_mod_cast hq0
  have hcast : (e : ℝ) * d = 1 + (k : ℝ) * (((p : ℝ) - 1) * ((q : ℝ) - 1)) := by
    have h1 : ((e * d : ℕ) : ℝ) = ((1 + k * ((p - 1) * (q - 1)) : ℕ) : ℝ) := by
      exact_mod_cast congrArg (fun x : ℕ => (x : ℝ)) hk
    push_cast [Nat.cast_sub (by omega : 1 ≤ p), Nat.cast_sub (by omega : 1 ≤ q)] at h1
    linarith [h1]
  have hnum : (e : ℝ) * d - ((p * q : ℕ) : ℝ) * k =
      1 - (k : ℝ) * ((p : ℝ) + q - 1) := by
    push_cast
    linear_combination hcast
  have hdiff : (e : ℝ) / ((p * q : ℕ) : ℝ) - (k : ℝ) / d =
      ((e : ℝ) * d - ((p * q : ℕ) : ℝ) * k) / (((p * q : ℕ) : ℝ) * d) := by
    rw [div_sub_div _ _ (ne_of_gt hNpos) (ne_of_gt hDpos)]
  have hKge : (1 : ℝ) ≤ (k : ℝ) * ((p : ℝ) + q - 1) := by
    have h2 : (1 : ℝ) ≤ (p : ℝ) + q - 1 := by linarith
    have := mul_le_mul hk1R h2 (by norm_num) (by linarith)
    linarith
  rw [hdiff, hnum, abs_div, abs_of_pos (by positivity : (0:ℝ) < ((p * q : ℕ) : ℝ) * d)]
  rw [show |1 - (k : ℝ) * ((p : ℝ) + q - 1)| = (k : ℝ) * ((p : ℝ) + q - 1) - 1 from by
    rw [abs_sub_comm]
    exact abs_of_nonneg (by linarith)]
  rw [div_lt_div_iff (by positivity) (by positivity)]
  have hA2R : 2 * (2 * (d : ℝ) * d * ((p : ℝ) + q)) < (p : ℝ) * q := by
    exact_mod_cast hA2
  have c1 : (k : ℝ) * ((p : ℝ) + q - 1) - 1 < (k : ℝ) * ((p : ℝ) + q) := by
    have hkpos : (0 : ℝ) ≤ (k : ℝ) := by positivity
    nlinarith [hkpos]
  have c4 : 2 * (d : ℝ) * d * ((p : ℝ) + q) < (p : ℝ) * q := by
    have ht : (0 : ℝ) ≤ (d : ℝ) * d * ((p : ℝ) + q) := by positivity
    nlinarith [hA2R, ht]
  calc ((k : ℝ) * ((p : ℝ) + q - 1) - 1) * (2 * (d : ℝ) ^ 2)
      < ((k : ℝ) * ((p : ℝ) + q)) * (2 * (d : ℝ) ^ 2) :=
        mul_lt_mul_of_pos_right c1 (by positivity)
    _ ≤ ((d : ℝ) * ((p : ℝ) + q)) * (2 * (d : ℝ) ^ 2) :=
        mul_le_mul_of_nonneg_right
          (mul_le_mul_of_nonneg_right hkdR (by linarith)) (by positivity)
    _ = (d : ℝ) * (2 * (d : ℝ) * d * ((p : ℝ) + q)) := by ring
    _ < (d : ℝ) * ((p : ℝ) * q) := by
        exact mul_lt_mul_of_pos_left c4 hDpos
    _ = 1 * (((p * q : ℕ) : ℝ) * d) := by push_cast; ring

theorem phi_link (p q : ℕ) (hp1 : 1 ≤ p) (hq1 : 1 ≤ q) :
    (p - 1) * (q - 1) + (p + q) = p * q + 1 := by
  obtain ⟨p1, rfl⟩ : ∃ p1, p = p1 + 1 := ⟨p - 1, by omega⟩
  obtain ⟨q1, rfl⟩ : ∃ q1, q = q1 + 1 := ⟨q - 1, by omega⟩
  have h1 : (p1 + 1) * (q1 + 1) = p1 * q1 + p1 + q1 + 1 := by ring
  have h2 : (p1 + 1 - 1) * (q1 + 1 - 1) = p1 * q1 := by simp
  omega

set_option maxHeartbeats 1000000 in
theorem wiener_find_true_pair (p q e d k : ℕ) (hp : Nat.Prime p) (hq : Nat.Prime q)
    (hqp : q < p) (hp2q : p < 2 * q) (he2 : 2 ≤ e) (heφ : e < (p - 1) * (q - 1))
    (hk : e * d = 1 + k * ((p - 1) * (q - 1))) (hd4 : 81 * d ^ 4 < p * q) :
    (convergents (contFrac e (p * q))).find? (wienerPass (p * q) e) = some (k, d) := by
  have hq0 : 0 < q := hq.pos
  have hp0 : 0 < p := hp.pos
  have hd1 : 1 ≤ d := by
    rcases Nat.eq_zero_or_pos d with rfl | h
    · rw [Nat.mul_zero] at hk; omega
    · exact h
  have hk1 : 1 ≤ k := by
    rcases Nat.eq_zero_or_pos k with rfl | h
    · rw [Nat.zero_mul] at hk
      have := Nat.mul_le_mul he2 hd1
      omega
    · exact h
  have hq7 : 7 ≤ q := by
    have h1 : p * q < 2 * (q * q) := by
      calc p * q < (2 * q) * q := mul_lt_mul_of_pos_right hp2q hq0
        _ = 2 * (q * q) := by ring
    have h2 : 81 ≤ 81 * d ^ 4 := Nat.le_mul_of_pos_right 81 (by positivity)
    have h3 : 41 ≤ q * q := by omega
    by_contra hlt
    push_neg at hlt
    interval_cases q <;> omega
  have hqodd : q % 2 = 1 := by
    rcases hq.eq_two_or_odd with h | h
    · omega
    · exact h
  have hpodd : p % 2 = 1 := by
    rcases hp.eq_two_or_odd with h | h
    · omega
    · exact h
  have hφpos : 0 < (p - 1) * (q - 1) := Nat.mul_pos (by omega) (by omega)
  have hkd : k < d := by
    have h1 : e * d < ((p - 1) * (q - 1)) * d :=
      mul_lt_mul_of_pos_right heφ (by omega)
    have h2 : k * ((p - 1) * (q - 1)) < d * ((p - 1) * (q - 1)) := by
      calc k * ((p - 1) * (q - 1)) ≤ e * d - 1 := by omega
        _ < ((p - 1) * (q - 1)) * d := by omega
        _ = d * ((p - 1) * (q - 1)) := by ring
    exact Nat.lt_of_mul_lt_mul_right h2
  have hn0 : 0 < p * q := Nat.mul_pos hp0 hq0
  have hφlink : (p - 1) * (q - 1) + (p + q) = p * q + 1 :=
    phi_link p q (by omega) (by omega)
  have he_lt_n : e < p * q := by
    have h1 : (p - 1) * (q - 1) ≤ p * q := Nat.mul_le_mul (by omega) (by omega)
    omega
  have hcop : Nat.Coprime k d := by
    have h1 : Nat.gcd k d ∣ k := Nat.gcd_dvd_left k d
    have h2 : Nat.gcd k d ∣ d := Nat.gcd_dvd_right k d
    have h3 : Nat.gcd k d ∣ e * d := Dvd.dvd.mul_left h2 e
    have h4 : Nat.gcd k d ∣ k * ((p - 1) * (q - 1)) := Dvd.dvd.mul_right h1 _
    have h5 : Nat.gcd k d ∣ 1 := by
      have := Nat.dvd_sub' h3 h4
      rwa [show e * d - k * ((p - 1) * (q - 1)) = 1 from by omega] at this
    exact Nat.dvd_one.mp h5
  have hsz := (wiener_size_bound p q d hqp hp2q hq0 hd1 hd4).2
  -- the true pair is among the convergents, by Legendre
  have hmem : (k, d) ∈ convergents (contFrac e (p * q)) := by
    have hqrat : ∃ qr : ℚ, qr.num = (k : ℤ) ∧ qr.den = d := by
      refine ⟨⟨(k : ℤ), d, by omega, ?_⟩, rfl, rfl⟩
      rwa [Int.natAbs_ofNat]
    obtain ⟨qr, hqnum, hqden⟩ := hqrat
    have hqQ : (qr : ℚ) = (k : ℚ) / (d : ℚ) := by
      conv_lhs => rw [← Rat.num_div_den qr]
      rw [hqnum, hqden]
      norm_num
    have hqcast : (qr : ℝ) = (k : ℝ) / (d : ℝ) := by
      rw [Rat.cast_def, hqnum, hqden]
      norm_num
    have happrox : |((e : ℝ) / ((p * q : ℕ) : ℝ)) - (qr : ℝ)| <
        1 / (2 * ((qr.den : ℕ) : ℝ) ^ 2) := by
      rw [hqcast, hqden]
      exact wiener_approx p q e d k hqp hp2q hq0 hd1 hk1 hkd hd4 hk
    obtain ⟨i, hi⟩ := Real.exists_rat_eq_convergent happrox
    rw [convergent_eq_cfConv (p * q) e i hn0] at hi
    rcases hE : (convergents (contFrac e (p * q)))[i]? with _ | pr
    · rw [cfConv_of_none e (p * q) i hE] at hi
      exfalso
      rw [hqQ] at hi
      have h3 : (k : ℚ) * ((p * q : ℕ) : ℚ) = (e : ℚ) * (d : ℚ) :=
        (div_eq_div_iff (show (d : ℚ) ≠ 0 from Nat.cast_ne_zero.mpr (by omega))
          (show ((p * q : ℕ) : ℚ) ≠ 0 from Nat.cast_ne_zero.mpr (by omega))).mp hi
      have h4 : k * (p * q) = e * d := by exact_mod_cast h3
      have hmulrel : k * ((p - 1) * (q - 1)) + k * (p + q) = k * (p * q) + k := by
        rw [← Nat.left_distrib, hφlink, Nat.mul_succ]
      have hge : k * 15 ≤ k * (p + q) := Nat.mul_le_mul_left k (by omega)
      omega
    · rw [cfConv_of_getElem e (p * q) i pr hE] at hi
      have hprmem : pr ∈ convergents (contFrac e (p * q)) :=
        List.mem_iff_getElem?.mpr ⟨i, hE⟩
      have hden1 : 1 ≤ pr.2 := convergents_den_pos e (p * q) hn0 pr hprmem
      have hprcop : Nat.Coprime pr.1 pr.2 := convergents_coprime e (p * q) pr hprmem
      have hcross : k * pr.2 = pr.1 * d := by
        have h1 : (k : ℚ) / (d : ℚ) = (pr.1 : ℚ) / (pr.2 : ℚ) := by
          rw [← hqQ, hi]
        have h3 : (k : ℚ) * (pr.2 : ℚ) = (pr.1 : ℚ) * (d : ℚ) :=
          (div_eq_div_iff (show (d : ℚ) ≠ 0 from Nat.cast_ne_zero.mpr (by omega))
            (show (pr.2 : ℚ) ≠ 0 from Nat.cast_ne_zero.mpr (by omega))).mp h1
        exact_mod_cast h3
      have h1 : pr.1 = k := by
        refine Nat.dvd_antisymm ?_ ?_
        · exact hprcop.dvd_of_dvd_mul_right ⟨d, hcross⟩
        · exact hcop.dvd_of_dvd_mul_right ⟨pr.2, hcross.symm⟩
      have h2 : pr.2 = d := by
        have h3 : k * pr.2 = k * d := by rw [hcross, h1]
        exact Nat.eq_of_mul_eq_mul_left (by omega) h3
      rw [show (k, d) = pr from by rw [Prod.ext_iff]; exact ⟨h1.symm, h2.symm⟩]
      exact hprmem
  -- the first passing convergent is exactly (k, d)
  have hpass_true : wienerPass (p * q) e (k, d) = true :=
    wienerPass_true_pair p q e d k (by omega) hqp hpodd hqodd he2 hd1 hk1 hk
  have hsome : ∃ x, (convergents (contFrac e (p * q))).find?
      (wienerPass (p * q) e) = some x := by
    rw [← Option.isSome_iff_exists, List.find?_isSome]
    exact ⟨(k, d), hmem, hpass_true⟩
  obtain ⟨x, hx⟩ := hsome
  obtain ⟨hxpass, l₁, l₂, hsplit, hfail⟩ := find?_split _ _ _ hx
  suffices hxy : x = (k, d) by rw [hx, hxy]
  have hmem' := hmem
  rw [hsplit] at hmem'
  rcases List.mem_append.mp hmem' with hin1 | hin2
  · exact absurd hpass_true (by rw [hfail (k, d) hin1]; exact Bool.false_ne_true)
  rcases List.mem_cons.mp hin2 with heq | hin3
  · exact heq.symm
  have hpairwise : (convergents (contFrac e (p * q))).Pairwise
      (fun a b => a.2 ≤ b.2) := by
    haveI : IsTrans (ℕ × ℕ) (fun a b => a.2 ≤ b.2) :=
      ⟨fun _ _ _ h1 h2 => le_trans h1 h2⟩
    exact List.chain'_iff_pairwise.mp (convergents_den_chain e (p * q) hn0)
  have hxd : x.2 ≤ d := by
    rw [hsplit] at hpairwise
    have hsub : (x :: l₂).Pairwise (fun a b => a.2 ≤ b.2) :=
      hpairwise.sublist (List.sublist_append_right l₁ (x :: l₂))
    exact List.rel_of_pairwise_cons hsub hin3
  have hxmem : x ∈ convergents (contFrac e (p * q)) := by
    rw [hsplit]; exact List.mem_append_right l₁ (List.mem_cons_self x l₂)
  have hxden : 1 ≤ x.2 := convergents_den_pos e (p * q) hn0 x hxmem
  have hxv : x.1 ≤ x.2 := convergents_num_le_den e (p * q) he_lt_n x hxmem
  obtain ⟨hk₀1, hcases⟩ := wienerPass_cases p q e hp hq hqp (by omega) he2 x.1 x.2
    (by omega) (by rw [Prod.mk.eta]; exact hxpass)
  have hφZ : (((p - 1) * (q - 1) : ℕ) : ℤ) = (p : ℤ) * q - ((p : ℤ) + q) + 1 := by
    push_cast [Nat.cast_sub (by omega : 1 ≤ p), Nat.cast_sub (by omega : 1 ≤ q)]
    ring
  have hkZ : (e : ℤ) * d = 1 + (k : ℤ) * (((p - 1) * (q - 1) : ℕ) : ℤ) := by
    exact_mod_cast hk
  have hkZ' : (e : ℤ) * d = 1 + (k : ℤ) * ((p : ℤ) * q - ((p : ℤ) + q) + 1) := by
    rw [← hφZ]; exact hkZ
  have hex2 : 2 ≤ e * x.2 := Nat.mul_le_mul he2 hxden
  have hφd : d < (p - 1) * (q - 1) := by
    have h0 : 0 ≤ 2 * d * d * (p + q) := Nat.zero_le _
    omega
  have hx1d : x.1 ≤ d := le_trans hxv hxd
  rcases hcases with hA | hB | hC
  · -- φ₀ = φ : x = (k, d)
    have hEqA : (e : ℤ) * x.2 = 1 + (x.1 : ℤ) * (((p - 1) * (q - 1) : ℕ) : ℤ) := by
      have h0 : e * x.2 = 1 + x.1 * ((p - 1) * (q - 1)) := by omega
      exact_mod_cast h0
    have hcc : (((p - 1) * (q - 1) : ℕ) : ℤ) * ((k : ℤ) * x.2 - (x.1 : ℤ) * d) =
        (d : ℤ) - x.2 := by
      linear_combination (d : ℤ) * hEqA - (x.2 : ℤ) * hkZ
    have hφZpos : (0 : ℤ) < (((p - 1) * (q - 1) : ℕ) : ℤ) := by exact_mod_cast hφpos
    have hdZ : ((d : ℤ) - x.2) < (((p - 1) * (q - 1) : ℕ) : ℤ) := by
      have h1 : (d : ℤ) < (((p - 1) * (q - 1) : ℕ) : ℤ) := by exact_mod_cast hφd
      have h2 : (0 : ℤ) ≤ (x.2 : ℤ) := by positivity
      omega
    have hdZ0 : (0 : ℤ) ≤ (d : ℤ) - x.2 := by
      have : (x.2 : ℤ) ≤ d := by exact_mod_cast hxd
      omega
    have hc0 : (k : ℤ) * x.2 - (x.1 : ℤ) * d = 0 := by
      rcases lt_trichotomy ((k : ℤ) * x.2 - (x.1 : ℤ) * d) 0 with h | h | h
      · exfalso
        have := mul_neg_of_pos_of_neg hφZpos h
        omega
      · exact h
      · exfalso
        have h1 : (1 : ℤ) ≤ (k : ℤ) * x.2 - (x.1 : ℤ) * d := h
        have h2 : (((p - 1) * (q - 1) : ℕ) : ℤ) ≤
            (((p - 1) * (q - 1) : ℕ) : ℤ) * ((k : ℤ) * x.2 - (x.1 : ℤ) * d) :=
          le_mul_of_one_le_right (le_of_lt hφZpos) h1
        omega
    have hd₀d : x.2 = d := by
      have h1 : ((d : ℤ) - x.2) = 0 := by rw [← hcc, hc0, mul_zero]
      have h2 : (x.2 : ℤ) = (d : ℤ) := by omega
      exact_mod_cast h2
    have hk₀k : x.1 = k := by
      have h1 : (k : ℤ) * x.2 = (x.1 : ℤ) * d := by omega
      rw [hd₀d] at h1
      have h2 : k * d = x.1 * d := by exact_mod_cast h1
      exact (Nat.eq_of_mul_eq_mul_right (by omega) h2).symm
    rw [← hk₀k, ← hd₀d]
  · -- φ₀ = n + 1 + (p + q) : impossible
    exfalso
    have hEqB : (e : ℤ) * x.2 = 1 + (x.1 : ℤ) * ((p : ℤ) * q + 1 + ((p : ℤ) + q)) := by
      have h0 : e * x.2 = 1 + x.1 * (p * q + 1 + (p + q)) := by omega
      exact_mod_cast h0
    have hcc : ((p : ℤ) * q - ((p : ℤ) + q) + 1) * ((k : ℤ) * x.2 - (d : ℤ) * x.1) =
        (d : ℤ) - x.2 + 2 * (d : ℤ) * x.1 * ((p : ℤ) + q) := by
      linear_combination (d : ℤ) * hEqB - (x.2 : ℤ) * hkZ'
    have hXn : ∃ Xn : ℕ, (Xn : ℤ) = (d : ℤ) - x.2 + 2 * (d : ℤ) * x.1 * ((p : ℤ) + q) ∧
        1 ≤ Xn ∧ Xn < (p - 1) * (q - 1) := by
      refine ⟨2 * d * x.1 * (p + q) + d - x.2, ?_, ?_, ?_⟩
      · push_cast [Nat.cast_sub (show x.2 ≤ 2 * d * x.1 * (p + q) + d from by omega)]
        ring
      · have h1 : 1 ≤ 2 * d * x.1 :=
          Nat.mul_pos (Nat.mul_pos (by omega) (by omega)) (by omega)
        have h2 : 1 * (p + q) ≤ (2 * d * x.1) * (p + q) :=
          Nat.mul_le_mul_right _ h1
        omega
      · have h1 : 2 * d * x.1 * (p + q) ≤ 2 * d * d * (p + q) :=
          Nat.mul_le_mul_right _ (Nat.mul_le_mul_left _ hx1d)
        omega
    obtain ⟨Xn, hXcast, hXpos, hXlt⟩ := hXn
    rw [← hXcast] at hcc
    have hφZpos : (0 : ℤ) < ((p : ℤ) * q - ((p : ℤ) + q) + 1) := by
      rw [← hφZ]; exact_mod_cast hφpos
    rcases lt_trichotomy ((k : ℤ) * x.2 - (d : ℤ) * x.1) 0 with h | h | h
    · have h2 := mul_neg_of_pos_of_neg hφZpos h
      have h3 : (0 : ℤ) < (Xn : ℤ) := by exact_mod_cast hXpos
      omega
    · rw [h, mul_zero] at hcc
      have h3 : (0 : ℤ) < (Xn : ℤ) := by exact_mod_cast hXpos
      omega
    · have h2 : ((p : ℤ) * q - ((p : ℤ) + q) + 1) ≤
          ((p : ℤ) * q - ((p : ℤ) + q) + 1) * ((k : ℤ) * x.2 - (d : ℤ) * x.1) :=
        le_mul_of_one_le_right (le_of_lt hφZpos) h
      have h3 : (Xn : ℤ) < ((p : ℤ) * q - ((p : ℤ) + q) + 1) := by
        rw [← hφZ]
        exact_mod_cast hXlt
      omega
  · -- φ₀ = 2 n + 2 : impossible
    exfalso
    have hEqC : (e : ℤ) * x.2 = 1 + (x.1 : ℤ) * (2 * ((p : ℤ) * q) + 2) := by
      have h0 : e * x.2 = 1 + x.1 * (2 * (p * q) + 2) := by omega
      exact_mod_cast h0
    have hcc : ((p : ℤ) * q - ((p : ℤ) + q) + 1) * ((k : ℤ) * x.2 - 2 * (d : ℤ) * x.1) =
        (d : ℤ) - x.2 + 2 * (d : ℤ) * x.1 * ((p : ℤ) + q) := by
      linear_combination (d : ℤ) * hEqC - (x.2 : ℤ) * hkZ'
    have hXn : ∃ Xn : ℕ, (Xn : ℤ) = (d : ℤ) - x.2 + 2 * (d : ℤ) * x.1 * ((p : ℤ) + q) ∧
        1 ≤ Xn ∧ Xn < (p - 1) * (q - 1) := by
      refine ⟨2 * d * x.1 * (p + q) + d - x.2, ?_, ?_, ?_⟩
      · push_cast [Nat.cast_sub (show x.2 ≤ 2 * d * x.1 * (p + q) + d from by omega)]
        ring
      · have h1 : 1 ≤ 2 * d * x.1 :=
          Nat.mul_pos (Nat.mul_pos (by omega) (by omega)) (by omega)
        have h2 : 1 * (p + q) ≤ (2 * d * x.1) * (p + q) :=
          Nat.mul_le_mul_right _ h1
        omega
      · have h1 : 2 * d * x.1 * (p + q) ≤ 2 * d * d * (p + q) :=
          Nat.mul_le_mul_right _ (Nat.mul_le_mul_left _ hx1d)
        omega
    obtain ⟨Xn, hXcast, hXpos, hXlt⟩ := hXn
    rw [← hXcast] at hcc
    have hφZpos : (0 : ℤ) < ((p : ℤ) * q - ((p : ℤ) + q) + 1) := by
      rw [← hφZ]; exact_mod_cast hφpos
    rcases lt_trichotomy ((k : ℤ) * x.2 - 2 * (d : ℤ) * x.1) 0 with h | h | h
    · have h2 := mul_neg_of_pos_of_neg hφZpos h
      have h3 : (0 : ℤ) < (Xn : ℤ) := by exact_mod_cast hXpos
      omega
    · rw [h, mul_zero] at hcc
      have h3 : (0 : ℤ) < (Xn : ℤ) := by exact_mod_cast hXpos
      omega
    · have h2 : ((p : ℤ) * q - ((p : ℤ) + q) + 1) ≤
          ((p : ℤ) * q - ((p : ℤ) + q) + 1) * ((k : ℤ) * x.2 - 2 * (d : ℤ) * x.1) :=
        le_mul_of_one_le_right (le_of_lt hφZpos) h
      have h3 : (Xn : ℤ) < ((p : ℤ) * q - ((p : ℤ) + q) + 1) := by
        rw [← hφZ]
        exact_mod_cast hXlt
      omega

/-- Claim C3 (corrected): for an RSA key whose modulus is a product of
balanced odd primes (`q < p < 2q`), with `2 ≤ e < (p-1)(q-1)`,
`e d = 1 + k (p-1)(q-1)` and `81 d⁴ < n` (the integer form of
`d < n^(1/4)/3`), the convergent scan of `wiener` finds exactly the pair
`(k, d)`, and `wiener` never returns `.ok none`: it either reports that
the injected factoring randomness was exhausted (`constructDiverge`) or
returns a private key whose `d` field is exactly `some d`. -/
theorem wiener_recovers_private_exponent (p q e d k fuel : ℕ) (rng : ℕ → ℕ)
    (key : RSAKey) (hp : Nat.Prime p) (hq : Nat.Prime q) (hqp : q < p)
    (hp2q : p < 2 * q) (he2 : 2 ≤ e) (heφ : e < (p - 1) * (q - 1))
    (hk : e * d = 1 + k * ((p - 1) * (q - 1))) (hd4 : 81 * d ^ 4 < p * q)
    (hkn : key.n = p * q) (hke : key.e = e) :
    (convergents (contFrac key.e key.n)).find? (wienerPass key.n key.e) =
      some (k, d) ∧
    wiener rng fuel key ≠ .ok Option.none ∧
    ∀ nk, wiener rng fuel key = .ok (some nk) → nk.d = some d := by
  have hfind : (convergents (contFrac key.e key.n)).find? (wienerPass key.n key.e) =
      some (k, d) := by
    rw [hkn, hke]
    exact wiener_find_true_pair p q e d k hp hq hqp hp2q he2 heφ hk hd4
  have hw : wiener rng fuel key =
      match RSAKey.constructD rng fuel key.n key.e d (key.identifier ++ "-private") with
      | Option.none => .error .constructDiverge
      | some nk => .ok (some { nk with texts := key.texts }) := by
    rw [wiener, hfind]
  refine ⟨hfind, ?_, ?_⟩
  · rw [hw]
    rcases RSAKey.constructD rng fuel key.n key.e d (key.identifier ++ "-private") with
      _ | nk'
    · simp
    · simp
  · intro nk hnk
    rw [hw] at hnk
    rcases hC : RSAKey.constructD rng fuel key.n key.e d (key.identifier ++ "-private")
      with _ | nk'
    · rw [hC] at hnk
      simp at hnk
    · rw [hC] at hnk
      simp only [Except.ok.injEq, Option.some.injEq] at hnk
      obtain ⟨pq0, hfz, hnk'⟩ := Option.map_eq_some'.mp hC
      rw [← hnk, ← hnk']

theorem wiener_recovers_private_exponent_witness :
    (convergents (contFrac wienerWitKey.e wienerWitKey.n)).find?
        (wienerPass wienerWitKey.n wienerWitKey.e) = some (2, 3) ∧
    wiener (fun _ => 0) 5 wienerWitKey ≠ .ok Option.none ∧
    ∀ nk, wiener (fun _ => 0) 5 wienerWitKey = .ok (some nk) → nk.d = some 3 :=
  wiener_recovers_private_exponent 113 71 5227 3 2 5 (fun _ => 0) wienerWitKey
    (by norm_num) (by norm_num) (by norm_num) (by norm_num) (by norm_num)
    (by norm_num) (by norm_num) (by norm_num) rfl rfl

/-- The original C3 claim fails for unbalanced primes: `n = 6621 = 3·2207`,
`e = 1471`, `d = 3` satisfy `e d ≡ 1 mod (p-1)(q-1)` and
`81 d⁴ < n` (`d < n^(1/4)/3`), yet `wiener` returns `None`: the quotient
`k/d = 1/3` of the attack is not a convergent of `e/n` because `p` and `q`
are far apart, so the scan finds no passing convergent. -/
theorem wiener_misses_unbalanced_key :
    Nat.Prime 2207 ∧ Nat.Prime 3 ∧ wienerCexKey.n = 2207 * 3 ∧
    wienerCexKey.e * 3 = 1 + 1 * ((2207 - 1) * (3 - 1)) ∧
    81 * 3 ^ 4 < wienerCexKey.n ∧
    wiener (fun _ => 0) 5 wienerCexKey = .ok Option.none := by
  refine ⟨by norm_num, by norm_num, rfl, rfl, by decide, ?_⟩
  rfl

end CryptoAttacks
